import Mathlib

/-!
# CTail: the circular line buffer and the line scanner of `ctail.c`

A shallow embedding of `src/ctail.c` and theorems about it.

Modelling conventions.

* `unsigned` is 32 bits wide: every `+` on an `unsigned` is followed by `% UINT_RANGE`.
  `%` on `unsigned` is `umod`, which has no result when the divisor is `0`.
* `int overflow_happened` is a 32 bit two's complement integer; `++` wraps (`wrap_int`).
  `int idx` and `int i` never leave `0 .. LINE_LENGTH_LIMIT + 1`, they are naturals.
* A `char` is its byte value (`Fin 256`); `fgetc` yields `some byte` or `none` for `EOF`.
* A block obtained from `malloc` has indeterminate cells: a cell is `none` until it is
  written, and reading a `none` cell or a cell outside the block has no result.
* A pointer is `Option`: `none` is `NULL`, `some x` points to the object `x`.  A line
  record is never written again once it has been handed to `cb_put`, so the pointer
  carries the record itself.
* Every operation returns `Option`: `none` stands for a failed `assert`, a division by
  zero, an access outside a block or a read of an indeterminate cell.
* `malloc` may fail: the surroundings decide, for every call of `malloc` in the order of
  the run, whether it returns a block (`malloc k` for call number `k`, counted from `0`).
  `size_t` is wide enough for `sizeof(char *) * (n + 1)`.
* `fclose` has no effect that the model shows.
* An `unsigned` argument or field is a natural below `UINT_RANGE`.
* `free` is recorded: operations return the list of pointers they release.
* `sscanf`, `fopen`, `malloc` and the bytes of `stdin` are taken from the surroundings
  (`Env`);
  the value that `sscanf` converts is stored into the `unsigned` modulo `UINT_RANGE`.
-/

namespace CTail

/-! ## Constants -/

/-- Maximum length of a single line: `#define LINE_LENGTH_LIMIT 16383`. -/
def LINE_LENGTH_LIMIT : Nat := 16383

/-- Default number of last lines: `#define DEFAULT_LINES_BUFFER_SIZE 10`. -/
def DEFAULT_LINES_BUFFER_SIZE : Nat := 10

/-- Limit for the number of lines: `#define BUFFER_SIZE_LIMIT 4200000000u`. -/
def BUFFER_SIZE_LIMIT : Nat := 4200000000

/-- Number of values of an `unsigned` (32 bits). -/
def UINT_RANGE : Nat := 4294967296

/-- `EXIT_SUCCESS`. -/
def EXIT_SUCCESS : Nat := 0

/-- `EXIT_FAILURE`. -/
def EXIT_FAILURE : Nat := 1

/-- A byte of the input or output stream. -/
abbrev Byte := Fin 256

/-- A pointer: `none` is `NULL`. -/
abbrev Ptr (α : Type) := Option α

/-- The `%` of C on `unsigned` operands: no result for a zero divisor. -/
def umod (a b : Nat) : Option Nat :=
  if b = 0 then none else some (a % b)

/-- Two's complement wrap of an `int` (32 bits). -/
def wrap_int (x : Int) : Int :=
  (x + 2147483648) % 4294967296 - 2147483648

/-! ## The circular buffer -/

/-- Cyclic buffer of line pointers, `struct circ_bfr`.  `lines` has one entry per
allocated slot; an entry is `none` until the slot is written. -/
structure circ_bfr (α : Type) where
  /-- Usable size: how many objects the buffer can hold. -/
  size : Nat
  /-- Index of the first object. -/
  start : Nat
  /-- Index where the next object will be placed (`end` in the source). -/
  end_ : Nat
  /-- The slots of the flexible array member. -/
  lines : List (Option (Ptr α))
deriving DecidableEq, Repr

variable {α : Type}

/-- The real size of the cyclic buffer: `(cbfr_pointer)->size + 1`. -/
def cb_true_size (cb : circ_bfr α) : Nat :=
  (cb.size + 1) % UINT_RANGE

/-- Moves the start index: `start = (start + 1) % cb_true_size(cbfr)`. -/
def cb_inc_start (cb : circ_bfr α) : Option (circ_bfr α) :=
  (umod ((cb.start + 1) % UINT_RANGE) (cb_true_size cb)).map
    fun s => { cb with start := s }

/-- Moves the end index: `end = (end + 1) % cb_true_size(cbfr)`. -/
def cb_inc_end (cb : circ_bfr α) : Option (circ_bfr α) :=
  (umod ((cb.end_ + 1) % UINT_RANGE) (cb_true_size cb)).map
    fun e => { cb with end_ := e }

/-- Reads slot `i` of the array: no result outside the array or for a slot that was
never written. -/
def slot_read (lines : List (Option (Ptr α))) (i : Nat) : Option (Ptr α) :=
  (lines[i]?).join

/-- Writes slot `i` of the array: no result outside the array. -/
def slot_write (lines : List (Option (Ptr α))) (i : Nat) (p : Ptr α) :
    Option (List (Option (Ptr α))) :=
  if i < lines.length then some (lines.set i (some p)) else none

/-- Allocates and initializes the cyclic buffer (`cb_create`).  `assert(n != 0)`;
`block` tells whether `malloc` returns a block: without one the result is `NULL`.  The
block has `n + 1` slots, computed in `unsigned`, all indeterminate. -/
def cb_create (block : Bool) (n : Nat) : Option (Ptr (circ_bfr α)) :=
  if n = 0 then none
  else if block then
    some (some { size := n, start := 0, end_ := 0,
                 lines := List.replicate ((n + 1) % UINT_RANGE) none })
  else some none

/-- Inserts a line (`cb_put`).  Returns the buffer and the pointers passed to `free`.
`assert(line != NULL)`; when the buffer is full the first line is freed and removed. -/
def cb_put (cb : circ_bfr α) (line : Ptr α) : Option (circ_bfr α × List (Ptr α)) :=
  match line with
  | none => none
  | some _ =>
    match umod ((cb.end_ + 1) % UINT_RANGE) (cb_true_size cb) with
    | none => none
    | some e1 =>
      let evict : Option (circ_bfr α × List (Ptr α)) :=
        if e1 = cb.start then
          match slot_read cb.lines cb.start, cb_inc_start cb with
          | some old, some cb1 => some (cb1, [old])
          | _, _ => none
        else some (cb, [])
      match evict with
      | none => none
      | some (cb1, freed) =>
        match slot_write cb1.lines cb1.end_ line with
        | none => none
        | some ls => (cb_inc_end { cb1 with lines := ls }).map fun cb2 => (cb2, freed)

/-- Returns the first line and removes it (`cb_get`); `NULL` for an empty buffer. -/
def cb_get (cb : circ_bfr α) : Option (Ptr α × circ_bfr α) :=
  if cb.start = cb.end_ then some (none, cb)
  else
    match slot_read cb.lines cb.start, cb_inc_start cb with
    | some line, some cb1 => some (line, cb1)
    | _, _ => none

/-- The loop of `cb_free`: `while (start != end) { line = cb_get(cb); free(line); }`.
Returns the buffer and the pointers passed to `free`, oldest first. -/
def cb_free_loop : Nat → circ_bfr α → List (Ptr α) → Option (circ_bfr α × List (Ptr α))
  | 0, _, _ => none
  | fuel + 1, cb, freed =>
    if cb.start ≠ cb.end_ then
      match cb_get cb with
      | none => none
      | some (line, cb1) => cb_free_loop fuel cb1 (freed ++ [line])
    else some (cb, freed)

/-- Frees the buffer and its content (`cb_free`): the buffer passed to the final
`free(cb)` and the line pointers passed to `free` before, oldest first.  The loop runs at
most once per slot. -/
def cb_free (cb : circ_bfr α) : Option (circ_bfr α × List (Ptr α)) :=
  cb_free_loop (cb_true_size cb + 1) cb []

/-! ## Line records and output -/

/-- A block of `cap` chars obtained from `malloc`.  `cells` lists the cells up to the
last one written; a cell is `none` until it is written, and so are all cells from
`cells.length` on. -/
structure LineBuf where
  /-- Number of chars allocated. -/
  cap : Nat
  /-- The cells from index `0` up to the last written one. -/
  cells : List (Option Byte)
deriving DecidableEq, Repr

/-- `malloc(sizeof(char) * n)`: a block of `n` indeterminate chars. -/
def LineBuf.malloc (n : Nat) : LineBuf :=
  { cap := n, cells := [] }

/-- `line[i] = v`: no result outside the block. -/
def LineBuf.store (b : LineBuf) (i : Nat) (v : Byte) : Option LineBuf :=
  if i < b.cap then
    some { b with
      cells := (b.cells ++ List.replicate (i + 1 - b.cells.length) none).set i (some v) }
  else none

/-- `line[i]`: no result outside the block or for a cell never written. -/
def LineBuf.load (b : LineBuf) (i : Nat) : Option Byte :=
  if i < b.cap then (b.cells[i]?).join else none

/-- The loop of `print_line`, from index `i` with `out` already written:
`for (; line[i] != '\0'; i++) { putchar(line[i]); if (line[i] == '\n') return; }`. -/
def print_line_loop (line : LineBuf) : Nat → Nat → List Byte → Option (List Byte)
  | 0, _, _ => none
  | fuel + 1, i, out =>
    match line.load i with
    | none => none
    | some ch =>
      if ch = 0 then some out
      else if ch = 10 then some (out ++ [ch])
      else print_line_loop line fuel (i + 1) (out ++ [ch])

/-- Prints a string ended with `'\0'` or `'\n'` (`print_line`): the standard output
after the call.  `assert(line != NULL)`.  The loop reads a new cell of the block in
every iteration, so `cap + 1` iterations are never exceeded. -/
def print_line (line : Ptr LineBuf) (out : List Byte) : Option (List Byte) :=
  match line with
  | none => none
  | some l => print_line_loop l (l.cap + 1) 0 out

/-! ## The scanner loop and the drain loop of `main` -/

/-- The variables of `main` during the scanner loop, with the observable effects:
`warnings` counts the `WARNING:` messages written to `stderr`, `freed` lists the
pointers passed to `free`, `emitted` lists the pointers passed to `cb_put`, `mallocs`
counts the calls of `malloc`. -/
structure ScanState where
  /-- Position of the next character (`int idx`). -/
  idx : Nat
  /-- States whether `LINE_LENGTH_LIMIT` was reached (`bool overflow`). -/
  overflow : Bool
  /-- The line being accumulated (`char *line`). -/
  line : LineBuf
  /-- The counter `int overflow_happened`. -/
  overflow_happened : Int
  /-- The cyclic buffer (`cbfr_t *buffer`). -/
  buffer : circ_bfr LineBuf
  /-- Number of warnings written to `stderr`. -/
  warnings : Nat
  /-- Pointers passed to `free`, in order. -/
  freed : List (Ptr LineBuf)
  /-- Pointers passed to `cb_put`, in order. -/
  emitted : List LineBuf
  /-- Number of calls of `malloc` made so far in the run. -/
  mallocs : Nat
deriving DecidableEq, Repr

/-- The state at the entry of the scanner loop: `idx = 0`, `overflow = false`, a fresh
line block, `overflow_happened = 0`.  Two calls of `malloc` were made before, one in
`cb_create` and one for the line block. -/
def scan_init (buffer : circ_bfr LineBuf) : ScanState :=
  { idx := 0, overflow := false, line := LineBuf.malloc (LINE_LENGTH_LIMIT + 1),
    overflow_happened := 0, buffer := buffer, warnings := 0, freed := [], emitted := [],
    mallocs := 2 }

/-- How the scanner loop is left, with the variables at that point: by a `break` at the
end of the input, or by the `return EXIT_FAILURE` that follows a failed `malloc` of the
next line block (`line` is `NULL` then, and the field `line` still shows the record put
last). -/
inductive ScanExit where
  | finished (st : ScanState)
  | memory_error (st : ScanState)
deriving DecidableEq, Repr

/-- The variables at the point where the scanner loop is left. -/
def ScanExit.state : ScanExit → ScanState
  | .finished st => st
  | .memory_error st => st

/-- The line processing of the scanner loop for a terminator `term` (`'\n'`, or `'\0'`
at end of input): `line[idx] = '\0'; line[idx] = term; cb_put(buffer, line); idx = 0;
overflow = false;`. -/
def scan_emit (st : ScanState) (term : Byte) : Option ScanState :=
  match st.line.store st.idx 0 with
  | none => none
  | some l0 =>
    match l0.store st.idx term with
    | none => none
    | some l1 =>
      match cb_put st.buffer (some l1) with
      | none => none
      | some (cb, fr) =>
        some { st with line := l1, buffer := cb, idx := 0, overflow := false,
                       freed := st.freed ++ fr, emitted := st.emitted ++ [l1] }

/-- The scanner loop of `main` on the remaining input; `[]` makes `fgetc` return `EOF`.
`malloc k` tells whether call number `k` of `malloc` returns a block.  After a newline
the next line block is allocated: without a block the buffer is freed with `cb_free` and
`main` returns. -/
def scan_loop (malloc : Nat → Bool) : List Byte → ScanState → Option ScanExit
  | [], st =>
    if st.idx = 0 then some (.finished { st with freed := st.freed ++ [some st.line] })
    else
      match scan_emit st 0 with
      | none => none
      | some st1 => some (.finished st1)
  | c :: rest, st =>
    if c = 10 then
      match scan_emit st 10 with
      | none => none
      | some st1 =>
        if malloc st1.mallocs = true then
          scan_loop malloc rest
            { st1 with line := LineBuf.malloc (LINE_LENGTH_LIMIT + 1),
                       mallocs := st1.mallocs + 1 }
        else
          match cb_free st1.buffer with
          | none => none
          | some (cb, fr) =>
            some (.memory_error { st1 with buffer := cb, freed := st1.freed ++ fr,
                                           mallocs := st1.mallocs + 1 })
    else if !st.overflow then
      if st.idx = LINE_LENGTH_LIMIT then
        scan_loop malloc rest
          { st with
            warnings := if st.overflow_happened = 0 then st.warnings + 1 else st.warnings,
            overflow := true,
            overflow_happened := wrap_int (st.overflow_happened + 1) }
      else
        match st.line.store st.idx c with
        | none => none
        | some l => scan_loop malloc rest { st with line := l, idx := st.idx + 1 }
    else scan_loop malloc rest st

/-- A loop `while ((line = cb_get(buffer)) != NULL) body(line);` with loop state `σ`. -/
def drain_loop {σ : Type} (body : σ → α → Option σ) :
    Nat → circ_bfr α → σ → Option (circ_bfr α × σ)
  | 0, _, _ => none
  | fuel + 1, cb, s =>
    match cb_get cb with
    | none => none
    | some (none, cb1) => some (cb1, s)
    | some (some line, cb1) =>
      match body s line with
      | none => none
      | some s1 => drain_loop body fuel cb1 s1

/-- Calls `cb_get` until it returns `NULL`: the lines returned, in order. -/
def cb_drain (fuel : Nat) (cb : circ_bfr α) : Option (circ_bfr α × List α) :=
  drain_loop (fun got line => some (got ++ [line])) fuel cb []

/-- What a run of `main` shows: the bytes on standard output, the number of warnings and
the error messages on standard error, the exit status, and the pointers passed to
`free`. -/
structure Outcome where
  /-- Bytes written to standard output. -/
  stdout : List Byte
  /-- Number of `WARNING:` messages. -/
  warnings : Nat
  /-- The error messages, written after the warnings. -/
  errors : List String
  /-- Exit status. -/
  status : Nat
  /-- Pointers passed to `free`, in order. -/
  freed : List (Ptr LineBuf)
deriving DecidableEq, Repr

/-- The body of the drain loop of `main`: `print_line(line); free(line);`. -/
def print_and_free (s : List Byte × List (Ptr LineBuf)) (line : LineBuf) :
    Option (List Byte × List (Ptr LineBuf)) :=
  (print_line (some line) s.1).map fun out => (out, s.2 ++ [some line])

/-- The part of `main` after argument processing and `fopen`, lines 155 to 231, for
`buffer_size` and the bytes `input` of the opened stream: `cb_create`, the allocation of
the line block, the scanner loop, the drain loop, `cb_free`, `return 0`, with the three
`Memory error` exits.  `malloc k` tells whether call number `k` of `malloc` returns a
block: call `0` is made by `cb_create`, call `1` allocates the first line block.  The
drain loop makes at most one call of `cb_get` per slot of the buffer. -/
def main_body (malloc : Nat → Bool) (buffer_size : Nat) (input : List Byte) :
    Option Outcome :=
  match cb_create (malloc 0) buffer_size with
  | none => none
  | some none =>
    some { stdout := [], warnings := 0, errors := ["cb_create: Memory error\n"],
           status := EXIT_FAILURE, freed := [] }
  | some (some buffer) =>
    if malloc 1 = true then
      match scan_loop malloc input (scan_init buffer) with
      | none => none
      | some (.memory_error st) =>
        some { stdout := [], warnings := st.warnings, errors := ["main: Memory error\n"],
               status := EXIT_FAILURE, freed := st.freed }
      | some (.finished st) =>
        match drain_loop print_and_free (cb_true_size st.buffer + 1) st.buffer
            ([], st.freed) with
        | none => none
        | some (cb, out, freed) =>
          match cb_free cb with
          | none => none
          | some (_, fr) => some { stdout := out, warnings := st.warnings, errors := [],
                                   status := 0, freed := freed ++ fr }
    else
      match cb_free buffer with
      | none => none
      | some (_, fr) =>
        some { stdout := [], warnings := 0, errors := ["main: Memory error\n"],
               status := EXIT_FAILURE, freed := fr }

/-! ## Argument processing and `main` -/

/-- What `main` takes from its surroundings: the conversion `sscanf(s, "%u", &x)` (`none`
when the call does not return `1`, else the value converted), `fopen(name, "r")` (`none`
for `NULL`, else the bytes of the file), whether call number `k` of `malloc` returns a
block, and the bytes of standard input. -/
structure Env where
  /-- `sscanf(s, "%u", &x)`. -/
  sscanf_u : String → Option Nat
  /-- `fopen(name, "r")`. -/
  fopen : String → Option (List Byte)
  /-- Whether call number `k` of `malloc` returns a block. -/
  malloc : Nat → Bool
  /-- The bytes of `stdin`. -/
  stdin : List Byte

/-- The variables of the argument loop of `main`. -/
structure ArgState where
  /-- `unsigned buffer_size`. -/
  buffer_size : Nat
  /-- Name of the file to be opened (`char *file_to_be_openned`). -/
  file_to_be_openned : Ptr String
  /-- `bool process_switches`. -/
  process_switches : Bool
deriving DecidableEq, Repr

/-- The variables at the entry of the argument loop. -/
def arg_init : ArgState :=
  { buffer_size := DEFAULT_LINES_BUFFER_SIZE, file_to_be_openned := none,
    process_switches := true }

/-- How the argument loop ends: by a `return` inside the loop, with what was written to
standard output and standard error and the exit status, or by running out of arguments. -/
inductive ArgResult where
  | returned (stdout : List Byte) (stderr : List String) (status : Nat)
  | done (st : ArgState)
deriving DecidableEq, Repr

/-- The text that `--help` prints. -/
def help_text : List Byte :=
  ("Usage: ctail [OPTION]... [FILE]...\n" ++
   "Print the last 10 lines of each FILE to standard output.\n" ++
   "With no FILE, or when FILE is -, read standard input.\n" ++
   "Options:\n" ++
   "    -n [X]      Prints the last X lines.\n" ++
   "    --help      Prints out this help.\n" ++
   "    -i          Ignores switches/options after this one.\n" ++
   "                ctail -i --help   ...   reads file with name \"--help\"\n" ++
   "This program tries to mimic the behaviour of the classic UNIX tail utillity"
  ).toList.map fun ch => Fin.ofNat ch.toNat

/-- The argument loop of `main` on the arguments `argv[next_argument ..]`. -/
def arg_loop (env : Env) : List String → ArgState → ArgResult
  | [], st => .done st
  | a :: rest, st =>
    if a = "--help" ∧ st.process_switches = true then
      .returned help_text [] EXIT_SUCCESS
    else if a = "-i" ∧ st.process_switches = true then
      arg_loop env rest { st with process_switches := false }
    else if a = "-n" ∧ st.process_switches = true then
      match rest with
      | [] => .returned [] ["ERROR: Expected a number after -n\n"] EXIT_FAILURE
      | s :: rest1 =>
        match env.sscanf_u s with
        | none => .returned [] ["ERROR: Expected a number after -n\n"] EXIT_FAILURE
        | some v =>
          if v % UINT_RANGE > BUFFER_SIZE_LIMIT then
            .returned [] ["ERROR: Number is too large or smaller than 0\n"] EXIT_FAILURE
          else if v % UINT_RANGE = 0 then
            .returned [] [] EXIT_SUCCESS
          else arg_loop env rest1 { st with buffer_size := v % UINT_RANGE }
    else arg_loop env rest { st with file_to_be_openned := some a }

/-- What a run of `main` shows: the bytes on standard output, the messages on standard
error, the exit status, the names passed to `fopen` and the values passed to
`cb_create`. -/
structure MainOutcome where
  /-- Bytes written to standard output. -/
  stdout : List Byte
  /-- Messages written to standard error. -/
  stderr : List String
  /-- Exit status. -/
  status : Nat
  /-- The names passed to `fopen`. -/
  fopen_calls : List String
  /-- The values passed to `cb_create`. -/
  cb_create_calls : List Nat
deriving DecidableEq, Repr

/-- The warning of the scanner loop. -/
def warning_text : String :=
  "WARNING: One or more lines are longer than 16383, " ++
  "so their whole content could not be displayed.\n"

/-- The function `main` for the arguments `argv[1 ..]`: the argument loop, `fopen` when a
file was named, then `main_body` on the bytes of the input. -/
def main (env : Env) (argv : List String) : Option MainOutcome :=
  match arg_loop env argv arg_init with
  | .returned out err status =>
    some { stdout := out, stderr := err, status := status, fopen_calls := [],
           cb_create_calls := [] }
  | .done st =>
    let opened : List String := st.file_to_be_openned.toList
    let input : Option (List Byte) :=
      match st.file_to_be_openned with
      | none => some env.stdin
      | some name => env.fopen name
    match input with
    | none =>
      some { stdout := [],
             stderr := opened.map fun name => "ERROR: Could not open file \"" ++ name ++ "\"\n",
             status := EXIT_FAILURE, fopen_calls := opened, cb_create_calls := [] }
    | some bytes =>
      (main_body env.malloc st.buffer_size bytes).map fun o =>
        { stdout := o.stdout,
          stderr := List.replicate o.warnings warning_text ++ o.errors,
          status := o.status, fopen_calls := opened,
          cb_create_calls := [st.buffer_size] }

/-- A `malloc` that returns a block at every call. -/
def malloc_ok : Nat → Bool :=
  fun _ => true

/-- A `malloc` that returns no block at its call number `j`, and a block at every other
call. -/
def malloc_fails_at (j : Nat) : Nat → Bool :=
  fun k => decide (k ≠ j)

/-- Surroundings in which `sscanf` converts only `"0"` and `"5"`, no file can be opened,
every `malloc` returns a block and standard input is `"a\nb\nc\nd\n"`. -/
def sample_env : Env :=
  { sscanf_u := fun s => if s = "0" then some 0 else if s = "5" then some 5 else none,
    fopen := fun _ => none,
    malloc := malloc_ok,
    stdin := [97, 10, 98, 10, 99, 10, 100, 10] }

/-- The input `"a\nb\nc\nd\n"`. -/
def sample_input : List Byte :=
  [97, 10, 98, 10, 99, 10, 100, 10]

/-! ## Specification vocabulary for the circular buffer -/

/-- Number of held records: `(end - start) mod (size + 1)`. -/
def cb_count (cb : circ_bfr α) : Nat :=
  (((cb.end_ : Int) - (cb.start : Int)) % ((cb.size : Int) + 1)).toNat

/-- The pointers in the `k` slots `s`, `s + 1 mod m`, ... of the array `lines`. -/
def ring_list (lines : List (Option (Ptr α))) (m s k : Nat) : List (Ptr α) :=
  (List.range k).map fun j => (slot_read lines ((s + j) % m)).join

/-- The held pointers, oldest first: `lines[start]`, `lines[start + 1 mod size + 1]`,
... up to but excluding index `end`. -/
def cb_contents (cb : circ_bfr α) : List (Ptr α) :=
  ring_list cb.lines (cb.size + 1) cb.start (cb_count cb)

/-- A well-formed buffer: `size >= 1` is an `unsigned`, `start` and `end` are below the
real size `cb_true_size`, the array has one slot per index below the real size, and
every held slot holds a non-`NULL` pointer. -/
def cb_wf (cb : circ_bfr α) : Prop :=
  1 ≤ cb.size ∧ cb.size < UINT_RANGE ∧ cb.start < cb_true_size cb ∧
  cb.end_ < cb_true_size cb ∧ cb.lines.length = cb_true_size cb ∧
  ∀ p ∈ cb_contents cb, p.isSome = true

instance (cb : circ_bfr α) : Decidable (cb_wf cb) := by
  unfold cb_wf; infer_instance

/-- The held records, oldest first. -/
def cb_held (cb : circ_bfr α) : List α :=
  (cb_contents cb).reduceOption

/-- The sequence `cb_put(x1), ..., cb_put(xL)`: the buffer and the freed pointers. -/
def cb_put_all : circ_bfr α → List (Ptr α) → Option (circ_bfr α × List (Ptr α))
  | cb, [] => some (cb, [])
  | cb, x :: xs =>
    match cb_put cb x with
    | none => none
    | some (cb1, fr) => (cb_put_all cb1 xs).map fun r => (r.1, fr ++ r.2)

/-- The last `c` elements of a list. -/
def last_n {β : Type} (c : Nat) (xs : List β) : List β :=
  xs.drop (xs.length - c)

/-- A call on the buffer: `cb_put(cb, line)` with a non-`NULL` line, or `cb_get(cb)`. -/
inductive BufOp (α : Type) where
  | put (x : α)
  | get
deriving DecidableEq, Repr

/-- Performs a call. -/
def BufOp.apply (op : BufOp α) (cb : circ_bfr α) : Option (circ_bfr α) :=
  match op with
  | .put x => (cb_put cb (some x)).map Prod.fst
  | .get => (cb_get cb).map Prod.snd

/-- Performs a sequence of calls, first to last. -/
def run_ops : List (BufOp α) → circ_bfr α → Option (circ_bfr α)
  | [], cb => some cb
  | op :: ops, cb => (op.apply cb).bind (run_ops ops)

/-- The count invariant: `start < size + 1`, `end < size + 1` and `count <= size`. -/
def count_inv (cb : circ_bfr α) : Prop :=
  cb.start < cb.size + 1 ∧ cb.end_ < cb.size + 1 ∧ cb_count cb ≤ cb.size

/-- Calls `cb_put(x1), ..., cb_put(xL)` on the buffer returned by `cb_create(c)`, whose
`malloc` returned a block, and then `cb_get` until it returns `NULL`: the lines
returned.  The drain makes at most one call per slot of the buffer. -/
def put_then_drain (c : Nat) (xs : List (Ptr α)) : Option (List α) :=
  match cb_create true c with
  | some (some cb) =>
    match cb_put_all cb xs with
    | none => none
    | some (cb1, _) => (cb_drain (cb_true_size cb1 + 1) cb1).map Prod.snd
  | _ => none

/-- A buffer of capacity 2 holding the records `1` and `2`, with `start = 1`. -/
def sample_full : circ_bfr Nat :=
  { size := 2, start := 1, end_ := 0, lines := [some (some 0), some (some 1), some (some 2)] }

/-! ## Specification vocabulary for ownership -/

/-- How a record left the buffer: released by the eviction of `cb_put`, or returned to
the caller by `cb_get`. -/
inductive Removal (α : Type) where
  | evicted (x : α)
  | returned (x : α)
deriving DecidableEq, Repr

/-- The record that left the buffer. -/
def Removal.line : Removal α → α
  | .evicted x => x
  | .returned x => x

/-- A buffer with the log of the lines inserted so far and of the removals so far. -/
structure OwnState (α : Type) where
  /-- The buffer. -/
  cb : circ_bfr α
  /-- The lines passed to `cb_put`, in order. -/
  inserted : List α
  /-- The records freed by `cb_put` or returned by `cb_get`, in order of removal. -/
  removed : List (Removal α)
deriving DecidableEq, Repr

/-- The state after `cb_create`: nothing inserted, nothing removed. -/
def own_init (cb : circ_bfr α) : OwnState α :=
  { cb := cb, inserted := [], removed := [] }

/-- Performs a call and logs it: `cb_put` logs the line and every non-`NULL` pointer it
passes to `free`, `cb_get` logs the record it returns, if any. -/
def BufOp.apply_log (op : BufOp α) (s : OwnState α) : Option (OwnState α) :=
  match op with
  | .put x =>
    match cb_put s.cb (some x) with
    | none => none
    | some (cb1, fr) =>
      some { cb := cb1, inserted := s.inserted ++ [x],
             removed := s.removed ++ fr.reduceOption.map Removal.evicted }
  | .get =>
    match cb_get s.cb with
    | none => none
    | some (r, cb1) =>
      some { cb := cb1, inserted := s.inserted,
             removed := s.removed ++ r.toList.map Removal.returned }

/-- Performs and logs a sequence of calls, first to last. -/
def run_log : List (BufOp α) → OwnState α → Option (OwnState α)
  | [], s => some s
  | op :: ops, s => (op.apply_log s).bind (run_log ops)

/-- The lines that a sequence of calls passes to `cb_put`, in order. -/
def ops_puts : List (BufOp α) → List α
  | [] => []
  | .put x :: ops => x :: ops_puts ops
  | .get :: ops => ops_puts ops

/-- The calls `cb_put(1)`, `cb_put(2)`, `cb_put(3)`, `cb_get()`. -/
def sample_ops : List (BufOp Nat) :=
  [.put 1, .put 2, .put 3, .get]

/-! ## Specification vocabulary for lines -/

/-- A logical line: a maximal run of input bytes ended by a newline or by the end of the
input.  `content` are the bytes before the terminator, `terminated` tells whether a
newline ends the line. -/
structure LogicalLine where
  /-- The bytes before the terminator. -/
  content : List Byte
  /-- Whether a newline ends the line. -/
  terminated : Bool
deriving DecidableEq, Repr

/-- The bytes of a logical line with its terminator, if present. -/
def LogicalLine.bytes (l : LogicalLine) : List Byte :=
  l.content ++ if l.terminated then [10] else []

/-- The logical lines of an input: a newline ends a line, any other byte belongs to the
line that the bytes after it continue; bytes after the last newline form a final line
without terminator. -/
def logical_lines : List Byte → List LogicalLine
  | [] => []
  | c :: rest =>
    if c = 10 then { content := [], terminated := true } :: logical_lines rest
    else
      match logical_lines rest with
      | [] => [{ content := [c], terminated := false }]
      | l :: ls => { content := c :: l.content, terminated := l.terminated } :: ls

/-- The bytes of a logical line as they are stored: the first `LINE_LENGTH_LIMIT` bytes
of the content, and the terminator, if present. -/
def LogicalLine.stored (l : LogicalLine) : List Byte :=
  l.content.take LINE_LENGTH_LIMIT ++ if l.terminated then [10] else []

/-- The bytes that printing a string ended by `'\0'` or `'\n'` writes: the bytes before
the first NUL, or up to and including the first newline if it comes first. -/
def c_string_output : List Byte → List Byte
  | [] => []
  | b :: rest =>
    if b = 0 then [] else if b = 10 then [10] else b :: c_string_output rest

/-- The bytes that `print_line` writes for the record of a logical line. -/
def LogicalLine.printed (l : LogicalLine) : List Byte :=
  c_string_output (l.content.take LINE_LENGTH_LIMIT ++ [if l.terminated then 10 else 0])

/-- A logical line with more than `LINE_LENGTH_LIMIT` bytes before its terminator. -/
def overlong (l : LogicalLine) : Bool :=
  decide (LINE_LENGTH_LIMIT < l.content.length)

/-- The record of a logical line: a block of `LINE_LENGTH_LIMIT + 1` chars holding the
first `LINE_LENGTH_LIMIT` bytes of the content at indices `0 .. k - 1` and `'\n'` or
`'\0'` at index `k`. -/
def record_of (l : LogicalLine) : LineBuf :=
  { cap := LINE_LENGTH_LIMIT + 1,
    cells := (l.content.take LINE_LENGTH_LIMIT).map some
      ++ [some (if l.terminated then 10 else 0)] }

/-- How often a counter that starts at `c` is `0` at one of `e` successive wrapping
increments: the number of warnings printed for `e` overflow events. -/
def warn_count (c : Int) (e : Nat) : Nat :=
  (List.range e).countP fun (k : Nat) => decide (wrap_int (c + (k : Int)) = 0)

/-- The scanner state that has consumed the bytes `acc` of the current logical line:
`idx` is their number, capped at the limit, the block holds the stored ones, `overflow`
tells whether one was dropped, the counter is an `int`, the buffer is well formed. -/
def scan_rel (st : ScanState) (acc : List Byte) : Prop :=
  st.idx = min acc.length LINE_LENGTH_LIMIT ∧
  st.overflow = decide (LINE_LENGTH_LIMIT < acc.length) ∧
  st.line = { cap := LINE_LENGTH_LIMIT + 1,
              cells := (acc.take LINE_LENGTH_LIMIT).map some } ∧
  (∀ b ∈ acc, b ≠ 10) ∧
  wrap_int st.overflow_happened = st.overflow_happened ∧
  cb_wf st.buffer

/-- An empty buffer of capacity 1 whose two slots were never written. -/
def sample_empty : circ_bfr LineBuf :=
  { size := 1, start := 0, end_ := 0, lines := [none, none] }

/-- The input made of `n` copies of a line of `LINE_LENGTH_LIMIT + 1` bytes `'a'` and a
newline. -/
def flood_input (n : Nat) : List Byte :=
  (List.replicate n (List.replicate (LINE_LENGTH_LIMIT + 1) 97 ++ [10])).flatten

/-- The input made of a line of `LINE_LENGTH_LIMIT + 1` bytes `'a'` ended by a newline
and a line of `LINE_LENGTH_LIMIT` bytes `'b'` ended by the end of the input. -/
def limit_input : List Byte :=
  List.replicate (LINE_LENGTH_LIMIT + 1) 97 ++ 10 :: List.replicate LINE_LENGTH_LIMIT 98

/-! ## Index arithmetic of the ring -/

/-- A sum of two indices below `m` is reduced by at most one subtraction of `m`. -/
theorem mod_lt_two (a m : Nat) (h : a < 2 * m) :
    a % m = if a < m then a else a - m := by
  split
  · exact Nat.mod_eq_of_lt (by assumption)
  · rw [Nat.mod_eq_sub_mod (by omega)]
    exact Nat.mod_eq_of_lt (by omega)

/-- The increment of an index below the real size neither wraps in `unsigned` nor divides by
zero. -/
theorem umod_succ (i m : Nat) (hi : i < m) (hm : m < UINT_RANGE) :
    umod ((i + 1) % UINT_RANGE) m = some ((i + 1) % m) := by
  unfold umod
  have h1 : (i + 1) % UINT_RANGE = i + 1 := Nat.mod_eq_of_lt (by omega)
  rw [h1, if_neg (by omega)]

theorem ring_step_open (m s e c : Nat) (hs : s < m) (he : e < m)
    (hc : (s + c) % m = e) (hlt : c + 1 < m) :
    (s + (c + 1)) % m = (e + 1) % m := by
  rw [mod_lt_two _ _ (by omega)] at hc
  rw [mod_lt_two _ _ (by omega), mod_lt_two (e + 1) _ (by omega)]
  split at hc <;> split <;> split <;> omega

theorem ring_step_full (n s e : Nat) (hs : s < n + 1) (he : e < n + 1) (h2 : 1 ≤ n)
    (hc : (s + n) % (n + 1) = e) :
    ((s + 1) % (n + 1) + (n - 1 + 1)) % (n + 1) = (e + 1) % (n + 1) ∧
    ((s + 1) % (n + 1) + (n - 1)) % (n + 1) = e := by
  rw [mod_lt_two _ _ (by omega)] at hc
  rw [mod_lt_two (s + 1) _ (by omega), mod_lt_two (e + 1) _ (by omega)]
  constructor
  · rw [mod_lt_two _ _ (by split <;> omega)]
    split at hc <;> split <;> split <;> split <;> omega
  · rw [mod_lt_two _ _ (by split <;> omega)]
    split at hc <;> split <;> split <;> omega

theorem ring_step_get (m s e c : Nat) (hs : s < m) (he : e < m)
    (hc : (s + c) % m = e) (h1 : 1 ≤ c) (hlt : c < m) :
    ((s + 1) % m + (c - 1)) % m = e := by
  rw [mod_lt_two _ _ (by omega)] at hc
  rw [mod_lt_two (s + 1) _ (by omega), mod_lt_two _ _ (by split <;> omega)]
  split at hc <;> split <;> split <;> omega

/-! ## Well-formed buffers: indices and count -/

/-- In a well-formed buffer the real size is `size + 1`: the addition does not wrap. -/
theorem cb_true_size_eq (cb : circ_bfr α) (h : cb_wf cb) :
    cb_true_size cb = cb.size + 1 := by
  obtain ⟨_, h2, h3, _⟩ := h
  unfold cb_true_size UINT_RANGE at *
  omega

theorem cb_wf_bounds (cb : circ_bfr α) (h : cb_wf cb) :
    1 ≤ cb.size ∧ cb.size + 1 < UINT_RANGE ∧ cb.start < cb.size + 1 ∧
    cb.end_ < cb.size + 1 ∧ cb.lines.length = cb.size + 1 := by
  have hm := cb_true_size_eq cb h
  obtain ⟨h1, h2, h3, h4, h5, _⟩ := h
  rw [hm] at h3 h4 h5
  refine ⟨h1, ?_, h3, h4, h5⟩
  unfold cb_true_size UINT_RANGE at *
  omega

/-- The count without `mod`: the distance from `start` to `end`, around the ring. -/
theorem cb_count_eq (cb : circ_bfr α) (hs : cb.start < cb.size + 1)
    (he : cb.end_ < cb.size + 1) :
    cb_count cb = if cb.start ≤ cb.end_ then cb.end_ - cb.start
      else cb.end_ + (cb.size + 1) - cb.start := by
  unfold cb_count
  split
  · rw [Int.emod_eq_of_lt (by omega) (by omega)]
    omega
  · rw [← Int.add_emod_self, Int.emod_eq_of_lt (by omega) (by omega)]
    omega

theorem cb_count_le (cb : circ_bfr α) (h : cb_wf cb) : cb_count cb ≤ cb.size := by
  have hm := cb_true_size_eq cb h
  obtain ⟨_, h2, h3, h4, _⟩ := h
  rw [hm] at h3 h4
  rw [cb_count_eq cb h3 h4]
  split <;> omega

/-- The full test of `cb_put` holds exactly when `size` records are held. -/
theorem cb_full_iff (cb : circ_bfr α) (h : cb_wf cb) :
    (cb.end_ + 1) % (cb.size + 1) = cb.start ↔ cb_count cb = cb.size := by
  have hm := cb_true_size_eq cb h
  obtain ⟨_, h2, h3, h4, _⟩ := h
  rw [hm] at h3 h4
  rw [cb_count_eq cb h3 h4, mod_lt_two _ _ (by omega)]
  split <;> split <;> omega

/-- The empty test of `cb_get` holds exactly when no record is held. -/
theorem cb_empty_iff (cb : circ_bfr α) (h : cb_wf cb) :
    cb.start = cb.end_ ↔ cb_count cb = 0 := by
  have hm := cb_true_size_eq cb h
  obtain ⟨_, h2, h3, h4, _⟩ := h
  rw [hm] at h3 h4
  rw [cb_count_eq cb h3 h4]
  split <;> omega

theorem cb_count_of_offset (cb : circ_bfr α) (n s e k : Nat) (hn : cb.size = n)
    (hst : cb.start = s) (hen : cb.end_ = e) (hs : s < n + 1)
    (hk : k < n + 1) (hke : (s + k) % (n + 1) = e) :
    cb_count cb = k := by
  subst hn hst hen
  have he : cb.end_ < cb.size + 1 := by rw [← hke]; exact Nat.mod_lt _ (by omega)
  rw [cb_count_eq cb hs he]
  rw [mod_lt_two _ _ (by omega)] at hke
  split <;> split at hke <;> omega

theorem cb_offset_of_count (cb : circ_bfr α) (hs : cb.start < cb.size + 1)
    (he : cb.end_ < cb.size + 1) :
    (cb.start + cb_count cb) % (cb.size + 1) = cb.end_ := by
  rw [cb_count_eq cb hs he, mod_lt_two _ _ (by split <;> omega)]
  split <;> split <;> omega

theorem cb_inc_start_eq (cb : circ_bfr α) (h : cb_wf cb) :
    cb_inc_start cb = some { cb with start := (cb.start + 1) % (cb.size + 1) } := by
  have hm := cb_true_size_eq cb h
  obtain ⟨_, h2, h3, _⟩ := cb_wf_bounds cb h
  unfold cb_inc_start
  rw [hm, umod_succ _ _ h3 h2]
  rfl

theorem cb_inc_end_eq (cb : circ_bfr α) (hsz : cb.size + 1 < UINT_RANGE)
    (he : cb.end_ < cb.size + 1) :
    cb_inc_end cb = some { cb with end_ := (cb.end_ + 1) % (cb.size + 1) } := by
  have hm : cb_true_size cb = cb.size + 1 := Nat.mod_eq_of_lt hsz
  unfold cb_inc_end
  rw [hm, umod_succ _ _ he hsz]
  rfl

theorem cb_wf_count_inv (cb : circ_bfr α) (h : cb_wf cb) : count_inv cb := by
  obtain ⟨_, _, h3, h4, _⟩ := cb_wf_bounds cb h
  exact ⟨h3, h4, cb_count_le cb h⟩

theorem ring_index_ne (m s j k : Nat) (hs : s < m) (hk : k < m) (hj : j < k) :
    (s + j) % m ≠ (s + k) % m := by
  rw [mod_lt_two _ _ (by omega), mod_lt_two (s + k) _ (by omega)]
  split <;> split <;> omega

theorem cb_tests_of_bounds (cb : circ_bfr α) (h1 : 1 ≤ cb.size) (h2 : cb.size < UINT_RANGE)
    (h3 : cb.start < cb_true_size cb) (h4 : cb.end_ < cb_true_size cb) :
    cb_true_size cb = cb.size + 1 ∧ cb.size + 1 < UINT_RANGE ∧
    (cb.start = cb.end_ ↔ cb_count cb = 0) ∧
    ((cb.end_ + 1) % (cb.size + 1) = cb.start ↔ cb_count cb = cb.size) := by
  have hm : cb_true_size cb = cb.size + 1 := by
    unfold cb_true_size UINT_RANGE at *; omega
  have hlt : cb.size + 1 < UINT_RANGE := by
    unfold cb_true_size UINT_RANGE at *; omega
  rw [hm] at h3 h4
  refine ⟨hm, hlt, ?_, ?_⟩
  · rw [cb_count_eq cb h3 h4]
    split <;> omega
  · rw [cb_count_eq cb h3 h4, mod_lt_two _ _ (by omega)]
    split <;> split <;> omega

/-! ## The contents of the ring -/

theorem ring_list_length (lines : List (Option (Ptr α))) (m s k : Nat) :
    (ring_list lines m s k).length = k := by
  simp [ring_list]

theorem ring_list_succ (lines : List (Option (Ptr α))) (m s k : Nat) :
    ring_list lines m s (k + 1)
      = ring_list lines m s k ++ [(slot_read lines ((s + k) % m)).join] := by
  simp [ring_list, List.range_succ]

theorem ring_list_cons (lines : List (Option (Ptr α))) (m s k : Nat) :
    ring_list lines m s (k + 1)
      = (slot_read lines (s % m)).join :: ring_list lines m ((s + 1) % m) k := by
  simp only [ring_list, List.range_succ_eq_map, List.map_cons, List.map_map, Nat.add_zero]
  congr 1
  apply List.map_congr_left
  intro j _
  simp only [Function.comp]
  congr 2
  rw [Nat.add_mod ((s+1) % m), Nat.mod_mod, ← Nat.add_mod]
  congr 1; omega

theorem slot_read_set_ne (lines : List (Option (Ptr α))) (i j : Nat) (v : Option (Ptr α))
    (h : i ≠ j) : slot_read (lines.set i v) j = slot_read lines j := by
  unfold slot_read
  rw [List.getElem?_set_ne h]

theorem slot_read_set_eq (lines : List (Option (Ptr α))) (i : Nat) (v : Option (Ptr α))
    (h : i < lines.length) : slot_read (lines.set i v) i = v := by
  unfold slot_read
  rw [List.getElem?_set_self h]
  rfl

theorem ring_list_set (lines : List (Option (Ptr α))) (m s k : Nat) (v : Option (Ptr α))
    (hs : s < m) (hk : k < m) :
    ring_list (lines.set ((s + k) % m) v) m s k = ring_list lines m s k := by
  unfold ring_list
  apply List.map_congr_left
  intro j hj
  rw [List.mem_range] at hj
  rw [slot_read_set_ne]
  rw [mod_lt_two _ _ (by omega), mod_lt_two (s + j) _ (by omega)]
  split <;> split <;> omega

theorem ring_list_set_snoc (lines : List (Option (Ptr α))) (m s k e : Nat) (v : Ptr α)
    (hs : s < m) (hk : k < m) (he : (s + k) % m = e) (hl : e < lines.length) :
    ring_list (lines.set e (some v)) m s (k + 1) = ring_list lines m s k ++ [v] := by
  subst he
  rw [ring_list_succ, ring_list_set _ _ _ _ _ hs hk, slot_read_set_eq _ _ _ hl]
  rfl

theorem cb_contents_length (cb : circ_bfr α) : (cb_contents cb).length = cb_count cb :=
  ring_list_length _ _ _ _

/-- A well-formed, non-empty buffer holds a non-`NULL` pointer in slot `start`, the head of
its contents. -/
theorem cb_head_read (cb : circ_bfr α) (h : cb_wf cb) (hne : cb_count cb ≠ 0) :
    ∃ x, slot_read cb.lines cb.start = some (some x) ∧
      cb_contents cb = some x ::
        ring_list cb.lines (cb.size + 1) ((cb.start + 1) % (cb.size + 1)) (cb_count cb - 1) := by
  obtain ⟨_, _, h3, _, _⟩ := cb_wf_bounds cb h
  have hall := h.2.2.2.2.2
  obtain ⟨k, hk⟩ : ∃ k, cb_count cb = k + 1 := ⟨cb_count cb - 1, by omega⟩
  have hc : cb_contents cb = (slot_read cb.lines cb.start).join ::
      ring_list cb.lines (cb.size + 1) ((cb.start + 1) % (cb.size + 1)) k := by
    unfold cb_contents
    rw [hk, ring_list_cons, Nat.mod_eq_of_lt h3]
  have h0 := hall _ (by rw [hc]; exact List.mem_cons_self _ _)
  cases hr : slot_read cb.lines cb.start with
  | none => rw [hr] at h0; simp at h0
  | some p =>
    cases p with
    | none => rw [hr] at h0; simp at h0
    | some x =>
      refine ⟨x, rfl, ?_⟩
      rw [hc, hr, hk]
      rfl

theorem cb_held_map (cb : circ_bfr α) (h : cb_wf cb) :
    (cb_held cb).map some = cb_contents cb := by
  have hall := h.2.2.2.2.2
  unfold cb_held
  generalize cb_contents cb = l at hall
  induction l with
  | nil => rfl
  | cons p l ih =>
    cases p with
    | none => exact absurd (hall none (List.mem_cons_self _ _)) (by simp)
    | some x =>
      rw [List.reduceOption_cons_of_some, List.map_cons,
        ih (fun q hq => hall q (List.mem_cons_of_mem _ hq))]

theorem cb_held_length (cb : circ_bfr α) (h : cb_wf cb) :
    (cb_held cb).length = cb_count cb := by
  rw [← cb_contents_length, ← cb_held_map cb h, List.length_map]

theorem cb_held_of_contents (cb : circ_bfr α) (xs : List α)
    (h : cb_contents cb = xs.map some) : cb_held cb = xs := by
  unfold cb_held
  rw [h]
  clear h
  induction xs with
  | nil => rfl
  | cons x xs ih => rw [List.map_cons, List.reduceOption_cons_of_some, ih]

/-! ## The buffer operations -/

/-- With a block from `malloc`, `cb_create(n)` returns a well-formed empty buffer when
`1 <= n` and `n + 1` is representable. -/
theorem cb_create_spec (n : Nat) (h1 : 1 ≤ n) (h2 : n + 1 < UINT_RANGE) :
    ∃ cb : circ_bfr α, cb_create true n = some (some cb) ∧ cb_wf cb ∧ cb.size = n ∧
      cb.start = 0 ∧ cb.end_ = 0 ∧ cb_count cb = 0 ∧ cb_contents cb = [] := by
  have hc : ∀ ls : List (Option (Ptr α)),
      cb_count { size := n, start := 0, end_ := 0, lines := ls } = 0 := by
    intro ls; simp [cb_count]
  refine ⟨_, by unfold cb_create; rw [if_neg (by omega), if_pos rfl], ?_, rfl, rfl, rfl,
    hc _, ?_⟩
  · refine ⟨h1, (by omega : n < UINT_RANGE), ?_, ?_, ?_, ?_⟩
    · show 0 < (n + 1) % UINT_RANGE
      rw [Nat.mod_eq_of_lt h2]; omega
    · show 0 < (n + 1) % UINT_RANGE
      rw [Nat.mod_eq_of_lt h2]; omega
    · show (List.replicate _ _).length = (n + 1) % UINT_RANGE
      simp
    · unfold cb_contents; rw [hc]; simp [ring_list]
  · unfold cb_contents; rw [hc]; simp [ring_list]

/-- The buffer and the freed pointers that `cb_put` returns on a well-formed buffer. -/
theorem cb_put_eq (cb : circ_bfr α) (h : cb_wf cb) (x : α) :
    cb_put cb (some x) = some
      ({ size := cb.size,
         start := if cb_count cb = cb.size then (cb.start + 1) % (cb.size + 1) else cb.start,
         end_ := (cb.end_ + 1) % (cb.size + 1),
         lines := cb.lines.set cb.end_ (some (some x)) },
       if cb_count cb = cb.size then (cb_contents cb).take 1 else []) := by
  have hm := cb_true_size_eq cb h
  have hfull := cb_full_iff cb h
  obtain ⟨h1, h2, h3, h4, h5⟩ := cb_wf_bounds cb h
  unfold cb_put
  simp only [hm, umod_succ _ _ h4 h2]
  by_cases hf : cb_count cb = cb.size
  · obtain ⟨y, hy, hc⟩ := cb_head_read cb h (by omega)
    rw [if_pos (hfull.mpr hf), if_pos hf, if_pos hf, hy, cb_inc_start_eq cb h]
    simp only [slot_write, h5, h4, if_true, hc, List.take]
    rw [cb_inc_end_eq]
    exacts [rfl, h2, h4]
  · rw [if_neg (fun hh => hf (hfull.mp hh)), if_neg hf, if_neg hf]
    simp only [slot_write, h5, h4, if_true]
    rw [cb_inc_end_eq]
    exacts [rfl, h2, h4]

/-- `cb_put` on a well-formed buffer: the oldest record is freed and dropped exactly when
the buffer is full, the line is appended, the buffer stays well formed. -/
theorem cb_put_spec (cb : circ_bfr α) (h : cb_wf cb) (x : α) :
    ∃ cb1, cb_put cb (some x)
        = some (cb1, if cb_count cb = cb.size then (cb_contents cb).take 1 else []) ∧
      cb_wf cb1 ∧ cb1.size = cb.size ∧
      cb_contents cb1
        = (if cb_count cb = cb.size then (cb_contents cb).drop 1 else cb_contents cb)
            ++ [some x] := by
  refine ⟨_, cb_put_eq cb h x, ?_⟩
  obtain ⟨h1, h2, h3, h4, h5⟩ := cb_wf_bounds cb h
  have hoff := cb_offset_of_count cb h3 h4
  have hle := cb_count_le cb h
  have hm : 0 < cb.size + 1 := by omega
  have he' : (cb.end_ + 1) % (cb.size + 1) < cb.size + 1 := Nat.mod_lt _ hm
  have hs' : (cb.start + 1) % (cb.size + 1) < cb.size + 1 := Nat.mod_lt _ hm
  -- the contents of the new buffer
  have key : cb_contents
      { size := cb.size,
        start := if cb_count cb = cb.size then (cb.start + 1) % (cb.size + 1) else cb.start,
        end_ := (cb.end_ + 1) % (cb.size + 1),
        lines := cb.lines.set cb.end_ (some (some x)) }
      = (if cb_count cb = cb.size then (cb_contents cb).drop 1 else cb_contents cb)
          ++ [some x] := by
    by_cases hf : cb_count cb = cb.size
    · obtain ⟨y, _, hc⟩ := cb_head_read cb h (by omega)
      simp only [hf, if_true]
      rw [hf] at hoff
      obtain ⟨ha, hb⟩ := ring_step_full cb.size cb.start cb.end_ h3 h4 h1 hoff
      have hk : cb_count (α := α)
          { size := cb.size, start := (cb.start + 1) % (cb.size + 1),
            end_ := (cb.end_ + 1) % (cb.size + 1),
            lines := cb.lines.set cb.end_ (some (some x)) } = (cb.size - 1) + 1 :=
        cb_count_of_offset _ cb.size _ _ (cb.size - 1 + 1) rfl rfl rfl hs' (by omega) ha
      unfold cb_contents
      rw [hk]
      show ring_list (cb.lines.set cb.end_ (some (some x))) (cb.size + 1)
        ((cb.start + 1) % (cb.size + 1)) (cb.size - 1 + 1) = _
      rw [ring_list_set_snoc cb.lines (cb.size + 1) _ (cb.size - 1) cb.end_ _ hs' (by omega) hb
        (by omega)]
      have hc' := hc
      unfold cb_contents at hc'
      rw [hc', hf]
      rfl
    · simp only [hf, if_false]
      have hk : cb_count (α := α)
          { size := cb.size, start := cb.start,
            end_ := (cb.end_ + 1) % (cb.size + 1),
            lines := cb.lines.set cb.end_ (some (some x)) } = cb_count cb + 1 :=
        cb_count_of_offset _ cb.size cb.start _ (cb_count cb + 1) rfl rfl rfl h3 (by omega)
          (ring_step_open _ _ _ _ h3 h4 hoff (by omega))
      unfold cb_contents
      rw [hk]
      exact ring_list_set_snoc cb.lines (cb.size + 1) cb.start (cb_count cb) cb.end_ _ h3
        (by omega) hoff (by omega)
  refine ⟨?_, rfl, key⟩
  refine ⟨h1, h.2.1, ?_, ?_, ?_, ?_⟩
  · show _ < (cb.size + 1) % UINT_RANGE
    rw [Nat.mod_eq_of_lt h2]; split <;> assumption
  · show _ < (cb.size + 1) % UINT_RANGE
    rw [Nat.mod_eq_of_lt h2]; assumption
  · show (cb.lines.set _ _).length = (cb.size + 1) % UINT_RANGE
    rw [Nat.mod_eq_of_lt h2, List.length_set]; assumption
  · rw [key]
    intro p hp
    rw [List.mem_append] at hp
    rcases hp with hp | hp
    · apply h.2.2.2.2.2
      split at hp
      · exact List.mem_of_mem_drop hp
      · exact hp
    · simp at hp; rw [hp]; rfl

theorem cb_put_ok (cb : circ_bfr α) (h : cb_wf cb) (x : α) :
    ∃ cb1 fr, cb_put cb (some x) = some (cb1, fr) ∧ cb_wf cb1 ∧ cb1.size = cb.size := by
  obtain ⟨cb1, hput, hwf, hsz, _⟩ := cb_put_spec cb h x
  exact ⟨cb1, _, hput, hwf, hsz⟩

theorem cb_get_empty (cb : circ_bfr α) (h : cb_wf cb) (he : cb_count cb = 0) :
    cb_get cb = some (none, cb) := by
  unfold cb_get
  rw [if_pos ((cb_empty_iff cb h).mpr he)]

/-- `cb_get` on a well-formed non-empty buffer returns the head of the contents and advances
`start`. -/
theorem cb_get_nonempty (cb : circ_bfr α) (h : cb_wf cb) (hne : cb_count cb ≠ 0) :
    ∃ x cb1, cb_get cb = some (some x, cb1) ∧ cb_wf cb1 ∧
      cb1 = { cb with start := (cb.start + 1) % (cb.size + 1) } ∧
      cb_contents cb = some x :: cb_contents cb1 := by
  obtain ⟨h1, h2, h3, h4, h5⟩ := cb_wf_bounds cb h
  obtain ⟨x, hx, hc⟩ := cb_head_read cb h hne
  have hoff := cb_offset_of_count cb h3 h4
  have hle := cb_count_le cb h
  have hs' : (cb.start + 1) % (cb.size + 1) < cb.size + 1 := Nat.mod_lt _ (by omega)
  have hk : cb_count { cb with start := (cb.start + 1) % (cb.size + 1) } = cb_count cb - 1 :=
    cb_count_of_offset _ cb.size _ cb.end_ (cb_count cb - 1) rfl rfl rfl hs' (by omega)
      (ring_step_get _ _ _ _ h3 h4 hoff (by omega) (by omega))
  have hcont : cb_contents cb
      = some x :: cb_contents { cb with start := (cb.start + 1) % (cb.size + 1) } := by
    rw [hc]
    unfold cb_contents
    rw [hk]
  refine ⟨x, _, ?_, ?_, rfl, hcont⟩
  · unfold cb_get
    rw [if_neg (fun hh => hne ((cb_empty_iff cb h).mp hh)), hx, cb_inc_start_eq cb h]
  · refine ⟨h1, h.2.1, ?_, ?_, ?_, ?_⟩
    · show _ < (cb.size + 1) % UINT_RANGE
      rw [Nat.mod_eq_of_lt h2]; exact hs'
    · exact h.2.2.2.1
    · exact h.2.2.2.2.1
    · intro p hp
      apply h.2.2.2.2.2
      rw [hcont]
      exact List.mem_cons_of_mem _ hp

theorem bufop_apply_wf (op : BufOp α) (cb : circ_bfr α) (h : cb_wf cb) :
    ∃ cb1, op.apply cb = some cb1 ∧ cb_wf cb1 ∧ cb1.size = cb.size := by
  cases op with
  | put x =>
    obtain ⟨cb1, hput, hwf, hsz, _⟩ := cb_put_spec cb h x
    exact ⟨cb1, by simp [BufOp.apply, hput], hwf, hsz⟩
  | get =>
    by_cases he : cb_count cb = 0
    · exact ⟨cb, by simp [BufOp.apply, cb_get_empty cb h he], h, rfl⟩
    · obtain ⟨x, cb1, hget, hwf, hcb1, _⟩ := cb_get_nonempty cb h he
      exact ⟨cb1, by simp [BufOp.apply, hget], hwf, by rw [hcb1]⟩

theorem run_ops_wf (ops : List (BufOp α)) : ∀ cb : circ_bfr α, cb_wf cb →
    ∃ cb1, run_ops ops cb = some cb1 ∧ cb_wf cb1 ∧ cb1.size = cb.size := by
  induction ops with
  | nil => intro cb h; exact ⟨cb, rfl, h, rfl⟩
  | cons op ops ih =>
    intro cb h
    obtain ⟨cb1, h1, hwf1, hsz1⟩ := bufop_apply_wf op cb h
    obtain ⟨cb2, h2, hwf2, hsz2⟩ := ih cb1 hwf1
    exact ⟨cb2, by simp [run_ops, h1, h2], hwf2, by rw [hsz2, hsz1]⟩

/-! ## Logged calls -/

/-- A logged call on a well-formed buffer whose log accounts for every inserted line:
the call returns, the buffer stays well formed and the log still accounts for every
inserted line. -/
theorem apply_log_spec (op : BufOp α) (s : OwnState α) (hwf : cb_wf s.cb)
    (hinv : s.inserted = s.removed.map Removal.line ++ cb_held s.cb) :
    ∃ s1, op.apply_log s = some s1 ∧ cb_wf s1.cb ∧ s1.cb.size = s.cb.size ∧
      s1.inserted = s.inserted ++ ops_puts [op] ∧
      s1.inserted = s1.removed.map Removal.line ++ cb_held s1.cb := by
  cases op with
  | put x =>
    obtain ⟨cb1, hput, hwf1, hsz1, hc1⟩ := cb_put_spec s.cb hwf x
    have happ : (BufOp.put x).apply_log s = some
        (OwnState.mk cb1 (s.inserted ++ [x])
          (s.removed ++ (if cb_count s.cb = s.cb.size then (cb_contents s.cb).take 1
            else []).reduceOption.map Removal.evicted)) := by
      simp only [BufOp.apply_log, hput]
    refine ⟨_, happ, hwf1, hsz1, rfl, ?_⟩
    have hkey : (if cb_count s.cb = s.cb.size then (cb_contents s.cb).take 1 else []).reduceOption
        ++ cb_held cb1 = cb_held s.cb ++ [x] := by
      unfold cb_held
      rw [hc1]
      split
      · rw [List.reduceOption_append, ← List.append_assoc, ← List.reduceOption_append,
          List.take_append_drop]
        rfl
      · rw [List.reduceOption_append]
        rfl
    simp only [List.map_append, List.map_map]
    have hline : (Removal.line ∘ Removal.evicted : α → α) = id := rfl
    rw [hline, List.map_id, List.append_assoc, hkey, hinv, List.append_assoc]
  | get =>
    by_cases he : cb_count s.cb = 0
    · have happ : BufOp.get.apply_log s = some s := by
        simp only [BufOp.apply_log, cb_get_empty s.cb hwf he]
        simp
      exact ⟨s, happ, hwf, rfl, by simp [ops_puts], hinv⟩
    · obtain ⟨x, cb1, hget, hwf1, hcb1, hcont⟩ := cb_get_nonempty s.cb hwf he
      have hh : cb_held s.cb = x :: cb_held cb1 := by
        apply cb_held_of_contents
        rw [hcont, List.map_cons, cb_held_map cb1 hwf1]
      have happ : BufOp.get.apply_log s = some
          (OwnState.mk cb1 s.inserted (s.removed ++ [Removal.returned x])) := by
        simp only [BufOp.apply_log, hget]
        rfl
      refine ⟨_, happ, hwf1, by rw [hcb1], by simp [ops_puts], ?_⟩
      simp only [List.map_append, List.map_cons, List.map_nil, Removal.line]
      rw [hinv, hh]
      simp

/-- A logged sequence of calls on a well-formed buffer whose log accounts for every
inserted line: it returns, and the final log accounts for every inserted line. -/
theorem run_log_spec (ops : List (BufOp α)) : ∀ s : OwnState α, cb_wf s.cb →
    s.inserted = s.removed.map Removal.line ++ cb_held s.cb →
    ∃ s1, run_log ops s = some s1 ∧ cb_wf s1.cb ∧ s1.cb.size = s.cb.size ∧
      s1.inserted = s.inserted ++ ops_puts ops ∧
      s1.inserted = s1.removed.map Removal.line ++ cb_held s1.cb := by
  induction ops with
  | nil => intro s hwf hinv; exact ⟨s, rfl, hwf, rfl, by simp [ops_puts], hinv⟩
  | cons op ops ih =>
    intro s hwf hinv
    obtain ⟨s1, h1, hwf1, hsz1, hins1, hinv1⟩ := apply_log_spec op s hwf hinv
    obtain ⟨s2, h2, hwf2, hsz2, hins2, hinv2⟩ := ih s1 hwf1 hinv1
    refine ⟨s2, by simp [run_log, h1, h2], hwf2, by rw [hsz2, hsz1], ?_, hinv2⟩
    rw [hins2, hins1, List.append_assoc]
    congr 1
    cases op <;> simp [ops_puts]

/-- The fields of the buffer that `cb_create` returns. -/
theorem cb_create_fields (block : Bool) (n : Nat) (cb : circ_bfr α)
    (h : cb_create block n = some (some cb)) :
    block = true ∧ n ≠ 0 ∧ cb.size = n ∧ cb.start = 0 ∧ cb.end_ = 0 := by
  unfold cb_create at h
  split at h
  · exact Option.noConfusion h
  · rename_i hn
    split at h
    · rename_i hb
      have := Option.some.inj (Option.some.inj h)
      subst this
      exact ⟨hb, hn, rfl, rfl, rfl⟩
    · exact Option.noConfusion (Option.some.inj h)

/-- Without a block from `malloc`, `cb_create(n)` returns `NULL`, for `n` other than `0`. -/
theorem cb_create_null (n : Nat) (h : n ≠ 0) :
    cb_create (α := α) false n = some none := by
  unfold cb_create
  rw [if_neg h]
  rfl

/-- The assertion of `cb_create` holds for every `n` other than `0`. -/
theorem cb_create_total (block : Bool) (n : Nat) (h : n ≠ 0) :
    ∃ r : Ptr (circ_bfr α), cb_create block n = some r := by
  unfold cb_create
  rw [if_neg h]
  cases block
  · exact ⟨none, rfl⟩
  · exact ⟨_, rfl⟩

/-- A buffer with `start == end` holds nothing. -/
theorem cb_held_of_start_eq_end (cb : circ_bfr α) (h : cb.start = cb.end_) :
    cb_held cb = [] := by
  have hc : cb_count cb = 0 := by simp [cb_count, h]
  unfold cb_held cb_contents
  rw [hc]; rfl

/-- On an empty buffer whose real size wrapped to `0`, a sequence of calls that returns
contains no `cb_put` and changes nothing. -/
theorem run_log_no_slot (ops : List (BufOp α)) : ∀ (s st : OwnState α),
    cb_true_size s.cb = 0 → s.cb.start = s.cb.end_ →
    run_log ops s = some st → st = s ∧ ops_puts ops = [] := by
  induction ops with
  | nil =>
    intro s st _ _ h
    exact ⟨(Option.some.inj h).symm, rfl⟩
  | cons op ops ih =>
    intro s st h0 hse h
    cases op with
    | put x =>
      have hput : cb_put s.cb (some x) = none := by
        unfold cb_put
        simp only [h0, umod, if_true]
      simp [run_log, BufOp.apply_log, hput] at h
    | get =>
      have hget : cb_get s.cb = some (none, s.cb) := by
        unfold cb_get
        rw [if_pos hse]
      have happ : BufOp.get.apply_log s = some s := by
        simp only [BufOp.apply_log, hget]
        simp
      rw [run_log, happ] at h
      exact ih s st h0 hse h

/-! ## The last elements of a list -/

theorem last_n_of_le {β : Type} (c : Nat) (xs : List β) (h : xs.length ≤ c) :
    last_n c xs = xs := by
  unfold last_n
  rw [Nat.sub_eq_zero_of_le h]; rfl

theorem last_n_length {β : Type} (c : Nat) (xs : List β) :
    (last_n c xs).length = min xs.length c := by
  unfold last_n
  rw [List.length_drop]; omega

theorem last_n_map {β γ : Type} (f : β → γ) (c : Nat) (xs : List β) :
    last_n c (xs.map f) = (last_n c xs).map f := by
  unfold last_n
  rw [List.length_map, List.map_drop]

theorem last_n_subset {β : Type} (c : Nat) (xs : List β) (x : β) (h : x ∈ last_n c xs) :
    x ∈ xs :=
  List.mem_of_mem_drop h

theorem last_n_snoc_step {β : Type} (c : Nat) (A : List β) (x : β) (hc : 1 ≤ c)
    (hA : A.length ≤ c) :
    (if A.length = c then A.drop 1 else A) ++ [x] = last_n c (A ++ [x]) := by
  unfold last_n
  split
  · rw [List.length_append, List.length_singleton, List.drop_append_of_le_length (by omega)]
    congr 2; omega
  · rw [List.length_append, List.length_singleton, Nat.sub_eq_zero_of_le (by omega)]
    rfl

theorem last_n_append_last_n {β : Type} (c : Nat) (A B : List β) :
    last_n c (last_n c A ++ B) = last_n c (A ++ B) := by
  unfold last_n
  by_cases h : A.length ≤ c
  · rw [Nat.sub_eq_zero_of_le h]; rfl
  · have h1 : (List.drop (A.length - c) A ++ B).length - c = B.length := by
      rw [List.length_append, List.length_drop]; omega
    have h2 : (A ++ B).length - c = (A.length - c) + B.length := by
      rw [List.length_append]; omega
    rw [h1, h2, ← List.drop_drop,
      List.drop_append_of_le_length (Nat.sub_le _ _)]

theorem take_evict_step {β : Type} (c : Nat) (A X : List β) (x : β) (hc : 1 ≤ c)
    (hA : A.length ≤ c) :
    (if A.length = c then A.take 1 else [])
      ++ (last_n c (A ++ [x]) ++ X).take ((last_n c (A ++ [x]) ++ X).length - c)
      = (A ++ x :: X).take ((A ++ x :: X).length - c) := by
  rw [← last_n_snoc_step c A x hc hA]
  split
  · cases A with
    | nil => simp at *
    | cons a A =>
      simp only [List.length_append, List.length_cons, List.drop_succ_cons, List.drop_zero,
        List.take_succ_cons, List.take_zero, List.length_nil, List.cons_append,
        List.nil_append, List.append_assoc, List.singleton_append] at *
      have e1 : A.length + (X.length + 1) - c = X.length := by omega
      have e2 : A.length + (X.length + 1) + 1 - c = X.length + 1 := by omega
      rw [e1, e2, List.take_succ_cons]
  · simp only [List.nil_append, List.append_assoc, List.singleton_append]

/-! ## Sequences of insertions and the drain loop -/

/-- Insertions into a well-formed buffer keep the last `size` pointers and free the ones
before them, in order. -/
theorem cb_put_all_spec (xs : List α) : ∀ cb : circ_bfr α, cb_wf cb →
    ∃ cb1, cb_put_all cb (xs.map some)
        = some (cb1, (cb_contents cb ++ xs.map some).take
            ((cb_contents cb ++ xs.map some).length - cb.size)) ∧
      cb_wf cb1 ∧ cb1.size = cb.size ∧
      cb_contents cb1 = last_n cb.size (cb_contents cb ++ xs.map some) := by
  induction xs with
  | nil =>
    intro cb h
    have hle := cb_count_le cb h
    rw [← cb_contents_length] at hle
    refine ⟨cb, ?_, h, rfl, ?_⟩
    · simp only [List.map_nil, List.append_nil, cb_put_all]
      rw [Nat.sub_eq_zero_of_le hle]; rfl
    · rw [List.map_nil, List.append_nil, last_n_of_le _ _ hle]
  | cons x xs ih =>
    intro cb h
    have hle := cb_count_le cb h
    have h1 := h.1
    obtain ⟨cb1, hput, hwf1, hsz1, hc1⟩ := cb_put_spec cb h x
    obtain ⟨cb2, hall, hwf2, hsz2, hc2⟩ := ih cb1 hwf1
    rw [← cb_contents_length] at hle hput hc1
    rw [last_n_snoc_step _ _ _ h1 hle] at hc1
    refine ⟨cb2, ?_, hwf2, by rw [hsz2, hsz1], ?_⟩
    · simp only [List.map_cons, cb_put_all]
      rw [hput]
      simp only [hall, Option.map_some', hc1, hsz1]
      rw [take_evict_step _ _ _ _ h1 hle]
    · rw [hc2, hc1, hsz1, last_n_append_last_n]
      simp

/-- With fuel above the count, the drain loop runs its body on the held records, oldest
first, and leaves the buffer empty. -/
theorem drain_loop_spec {σ : Type} (body : σ → α → Option σ) (fuel : Nat) :
    ∀ (cb : circ_bfr α) (s : σ), cb_wf cb → cb_count cb < fuel →
      drain_loop body fuel cb s
        = (List.foldlM body s (cb_held cb)).map
            fun s1 => ({ cb with start := cb.end_ }, s1) := by
  induction fuel with
  | zero => intro cb s _ hf; omega
  | succ fuel ih =>
    intro cb s h hf
    unfold drain_loop
    by_cases he : cb_count cb = 0
    · rw [cb_get_empty cb h he]
      have hc : cb_held cb = [] := by
        apply List.eq_nil_of_length_eq_zero
        rw [cb_held_length cb h, he]
      have hse := (cb_empty_iff cb h).mpr he
      rw [hc]
      simp only [List.foldlM, Option.pure_def, Option.map_some']
      obtain ⟨sz, st, en, ls⟩ := cb
      simp only at hse
      subst hse
      rfl
    · obtain ⟨x, cb1, hget, hwf1, hcb1, hcont⟩ := cb_get_nonempty cb h he
      rw [hget]
      have hh : cb_held cb = x :: cb_held cb1 := by
        apply cb_held_of_contents
        rw [hcont, List.map_cons, cb_held_map cb1 hwf1]
      have hcnt : cb_count cb1 + 1 = cb_count cb := by
        rw [← cb_contents_length cb, hcont, List.length_cons, cb_contents_length]
      rw [hh, List.foldlM_cons]
      simp only [Option.bind_eq_bind]
      cases hb : body s x with
      | none => rfl
      | some s1 =>
        simp only [Option.some_bind]
        rw [ih cb1 s1 hwf1 (by omega), hcb1]

theorem foldlM_collect (xs : List α) : ∀ acc : List α,
    List.foldlM (fun got line => some (got ++ [line])) acc xs = some (acc ++ xs) := by
  induction xs with
  | nil => intro acc; simp
  | cons x xs ih =>
    intro acc
    rw [List.foldlM_cons]
    simp only [Option.bind_eq_bind, Option.some_bind]
    rw [ih]; simp

/-- With fuel above the count, draining returns the held records and the emptied buffer. -/
theorem cb_drain_spec (fuel : Nat) (cb : circ_bfr α) (h : cb_wf cb)
    (hf : cb_count cb < fuel) :
    cb_drain fuel cb = some ({ cb with start := cb.end_ }, cb_held cb) := by
  unfold cb_drain
  rw [drain_loop_spec _ fuel cb [] h hf, foldlM_collect]
  rfl

theorem cb_drained_wf (cb : circ_bfr α) (h : cb_wf cb) :
    cb_wf { cb with start := cb.end_ } ∧ cb_count { cb with start := cb.end_ } = 0 ∧
    cb_contents { cb with start := cb.end_ } = [] := by
  have hc : cb_count { cb with start := cb.end_ } = 0 := by
    simp [cb_count]
  have hn : cb_contents { cb with start := cb.end_ } = [] := by
    unfold cb_contents; rw [hc]; rfl
  refine ⟨⟨h.1, h.2.1, h.2.2.2.1, h.2.2.2.1, h.2.2.2.2.1, ?_⟩, hc, hn⟩
  rw [hn]; intro p hp; cases hp

/-- With fuel above the count, the loop of `cb_free` frees the held records, oldest first,
and leaves the buffer empty. -/
theorem cb_free_loop_spec (fuel : Nat) :
    ∀ (cb : circ_bfr α) (acc : List (Ptr α)), cb_wf cb → cb_count cb < fuel →
      cb_free_loop fuel cb acc
        = some ({ cb with start := cb.end_ }, acc ++ (cb_held cb).map some) := by
  induction fuel with
  | zero => intro cb acc _ hf; omega
  | succ fuel ih =>
    intro cb acc h hf
    unfold cb_free_loop
    by_cases he : cb_count cb = 0
    · have hse := (cb_empty_iff cb h).mpr he
      have hc : cb_held cb = [] := by
        apply List.eq_nil_of_length_eq_zero
        rw [cb_held_length cb h, he]
      rw [if_neg (fun hh => hh hse), hc]
      obtain ⟨sz, st, en, ls⟩ := cb
      simp only at hse
      subst hse
      simp
    · obtain ⟨x, cb1, hget, hwf1, hcb1, hcont⟩ := cb_get_nonempty cb h he
      have hh : cb_held cb = x :: cb_held cb1 := by
        apply cb_held_of_contents
        rw [hcont, List.map_cons, cb_held_map cb1 hwf1]
      have hcnt : cb_count cb1 + 1 = cb_count cb := by
        rw [← cb_contents_length cb, hcont, List.length_cons, cb_contents_length]
      rw [if_pos (fun hh => he ((cb_empty_iff cb h).mp hh)), hget]
      simp only
      rw [ih cb1 _ hwf1 (by omega), hh, hcb1]
      simp

/-- With fuel up to the count, the loop of `cb_free` does not reach its end. -/
theorem cb_free_loop_short (fuel : Nat) :
    ∀ (cb : circ_bfr α) (acc : List (Ptr α)), cb_wf cb → fuel ≤ cb_count cb →
      cb_free_loop fuel cb acc = none := by
  induction fuel with
  | zero => intro cb acc _ _; rfl
  | succ fuel ih =>
    intro cb acc h hf
    unfold cb_free_loop
    have he : cb_count cb ≠ 0 := by omega
    obtain ⟨x, cb1, hget, hwf1, _, hcont⟩ := cb_get_nonempty cb h he
    have hcnt : cb_count cb1 + 1 = cb_count cb := by
      rw [← cb_contents_length cb, hcont, List.length_cons, cb_contents_length]
    rw [if_pos (fun hh => he ((cb_empty_iff cb h).mp hh)), hget]
    simp only
    exact ih cb1 _ hwf1 (by omega)

theorem cb_free_drained (cb : circ_bfr α) (h : cb.start = cb.end_) :
    cb_free cb = some (cb, []) := by
  unfold cb_free cb_free_loop
  simp [h]

/-- `A, B, C, D` into a buffer of capacity 2 drains as `[C, D]`. -/
theorem put_then_drain_sample :
    put_then_drain 2 [some 65, some 66, some 67, some 68] = some [67, 68] := by
  rfl

/-! ## Logical lines -/

theorem logical_lines_eq_nil (xs : List Byte) : logical_lines xs = [] ↔ xs = [] := by
  cases xs with
  | nil => simp [logical_lines]
  | cons c rest =>
    simp only [logical_lines]
    split
    · simp
    · split <;> simp

/-- A newline after bytes without newline ends the line made of these bytes. -/
theorem logical_lines_newline (acc rest : List Byte) (h : ∀ b ∈ acc, b ≠ 10) :
    logical_lines (acc ++ 10 :: rest)
      = { content := acc, terminated := true } :: logical_lines rest := by
  induction acc with
  | nil => simp [logical_lines]
  | cons a acc ih =>
    have ha : a ≠ 10 := h a (List.mem_cons_self _ _)
    rw [List.cons_append, logical_lines, if_neg ha,
      ih (fun b hb => h b (List.mem_cons_of_mem _ hb))]

/-- Bytes without newline at the end of the input form the final line, without terminator. -/
theorem logical_lines_last (acc : List Byte) (h : ∀ b ∈ acc, b ≠ 10) (hne : acc ≠ []) :
    logical_lines acc = [{ content := acc, terminated := false }] := by
  induction acc with
  | nil => exact absurd rfl hne
  | cons a acc ih =>
    have ha : a ≠ 10 := h a (List.mem_cons_self _ _)
    rw [logical_lines, if_neg ha]
    cases acc with
    | nil => simp [logical_lines]
    | cons a2 acc2 =>
      rw [ih (fun b hb => h b (List.mem_cons_of_mem _ hb)) (by simp)]

theorem logical_lines_cons_ne (c : Byte) (rest : List Byte) (hc : c ≠ 10) :
    (rest = [] ∧ logical_lines (c :: rest) = [{ content := [c], terminated := false }]) ∨
    (∃ l ls, logical_lines rest = l :: ls ∧
      logical_lines (c :: rest)
        = { content := c :: l.content, terminated := l.terminated } :: ls) := by
  rw [logical_lines, if_neg hc]
  cases hl : logical_lines rest with
  | nil => exact Or.inl ⟨(logical_lines_eq_nil _).mp hl, rfl⟩
  | cons l ls => exact Or.inr ⟨l, ls, rfl, rfl⟩

/-- The logical lines, with their terminators, concatenate to the input. -/
theorem logical_lines_join (xs : List Byte) :
    ((logical_lines xs).map LogicalLine.bytes).flatten = xs := by
  induction xs with
  | nil => rfl
  | cons c rest ih =>
    simp only [logical_lines]
    split
    · rename_i hc
      subst hc
      simp only [List.map_cons, List.flatten_cons, ih]
      rfl
    · split
      · rename_i hl
        have := (logical_lines_eq_nil _).mp hl
        subst this
        rfl
      · rename_i l ls hl
        rw [hl] at ih
        simp only [List.map_cons, List.flatten_cons] at ih ⊢
        rw [← ih]
        simp [LogicalLine.bytes]

theorem logical_lines_no_newline (xs : List Byte) :
    ∀ l ∈ logical_lines xs, ∀ b ∈ l.content, b ≠ 10 := by
  induction xs with
  | nil => intro l hl; simp [logical_lines] at hl
  | cons c rest ih =>
    intro l hl
    rw [logical_lines] at hl
    split at hl
    · rw [List.mem_cons] at hl
      rcases hl with hl | hl
      · subst hl; intro b hb; simp at hb
      · exact ih l hl
    · rename_i hc
      split at hl
      · rw [List.mem_singleton] at hl
        subst hl
        intro b hb
        rw [List.mem_singleton] at hb
        rw [hb]; exact hc
      · rename_i l0 ls hrest
        rw [hrest] at ih
        rw [List.mem_cons] at hl
        rcases hl with hl | hl
        · subst hl
          intro b hb
          rw [List.mem_cons] at hb
          rcases hb with hb | hb
          · rw [hb]; exact hc
          · exact ih l0 (List.mem_cons_self _ _) b hb
        · exact ih l (List.mem_cons_of_mem _ hl)

theorem logical_lines_content_mem (xs : List Byte) (l : LogicalLine)
    (hl : l ∈ logical_lines xs) (b : Byte) (hb : b ∈ l.content) : b ∈ xs := by
  rw [← logical_lines_join xs, List.mem_flatten]
  exact ⟨l.bytes, List.mem_map_of_mem _ hl, by
    unfold LogicalLine.bytes; exact List.mem_append_left _ hb⟩

theorem logical_lines_count_newline (xs : List Byte) :
    (logical_lines xs).countP (fun l => l.terminated) = xs.count 10 := by
  induction xs with
  | nil => rfl
  | cons c rest ih =>
    by_cases hc : c = 10
    · subst hc
      rw [logical_lines, if_pos rfl, List.countP_cons_of_pos _ _ rfl, ih, List.count_cons_self]
    · rw [List.count_cons_of_ne (fun h => hc h.symm), ← ih]
      rcases logical_lines_cons_ne c rest hc with ⟨hr, hl⟩ | ⟨l, ls, hr, hl⟩
      · rw [hl, hr]; rfl
      · rw [hl, hr, List.countP_cons, List.countP_cons]

theorem logical_lines_unterminated (xs : List Byte) :
    ∀ l ∈ logical_lines xs, l.terminated = false → l.content ≠ [] := by
  induction xs with
  | nil => intro l hl; simp [logical_lines] at hl
  | cons c rest ih =>
    intro l hl ht
    by_cases hc : c = 10
    · subst hc
      rw [logical_lines, if_pos rfl, List.mem_cons] at hl
      rcases hl with hl | hl
      · subst hl; simp at ht
      · exact ih l hl ht
    · rcases logical_lines_cons_ne c rest hc with ⟨_, h2⟩ | ⟨l0, ls, hr, h2⟩
      · rw [h2, List.mem_singleton] at hl
        subst hl; simp
      · rw [h2, List.mem_cons] at hl
        rcases hl with hl | hl
        · subst hl; simp
        · exact ih l (by rw [hr]; exact List.mem_cons_of_mem _ hl) ht

theorem logical_lines_init_terminated (xs : List Byte) :
    ∀ l ∈ (logical_lines xs).dropLast, l.terminated = true := by
  induction xs with
  | nil => intro l hl; simp [logical_lines] at hl
  | cons c rest ih =>
    intro l hl
    by_cases hc : c = 10
    · subst hc
      rw [logical_lines, if_pos rfl] at hl
      cases hr : logical_lines rest with
      | nil => rw [hr] at hl; simp at hl
      | cons l0 ls =>
        rw [hr, List.dropLast_cons₂, List.mem_cons] at hl
        rcases hl with hl | hl
        · subst hl; rfl
        · exact ih l (by rw [hr]; exact hl)
    · rcases logical_lines_cons_ne c rest hc with ⟨_, h2⟩ | ⟨l0, ls, hr, h2⟩
      · rw [h2] at hl; simp at hl
      · rw [h2] at hl
        rw [hr] at ih
        cases ls with
        | nil => simp at hl
        | cons l1 ls1 =>
          rw [List.dropLast_cons₂, List.mem_cons] at hl
          rcases hl with hl | hl
          · subst hl
            exact ih l0 (by rw [List.dropLast_cons₂]; exact List.mem_cons_self _ _)
          · exact ih l (by rw [List.dropLast_cons₂]; exact List.mem_cons_of_mem _ hl)

theorem logical_lines_last_terminated (xs : List Byte) :
    (logical_lines xs).getLast?.map (fun l => l.terminated)
      = xs.getLast?.map (fun b => decide (b = 10)) := by
  induction xs with
  | nil => rfl
  | cons c rest ih =>
    by_cases hc : c = 10
    · subst hc
      rw [logical_lines, if_pos rfl]
      cases hr : logical_lines rest with
      | nil =>
        have := (logical_lines_eq_nil _).mp hr
        subst this
        rfl
      | cons l0 ls =>
        have hne : rest ≠ [] := by
          intro h; rw [h] at hr; simp [logical_lines] at hr
        obtain ⟨r0, rs, hrs⟩ := List.exists_cons_of_ne_nil hne
        rw [hr] at ih
        rw [List.getLast?_cons_cons, ih, hrs, List.getLast?_cons_cons]
    · rcases logical_lines_cons_ne c rest hc with ⟨hr, h2⟩ | ⟨l0, ls, hr, h2⟩
      · rw [h2, hr]; simp [hc]
      · have hne : rest ≠ [] := by
          intro h; rw [h] at hr; simp [logical_lines] at hr
        obtain ⟨r0, rs, hrs⟩ := List.exists_cons_of_ne_nil hne
        rw [hr] at ih
        rw [h2]
        rw [hrs, List.getLast?_cons_cons, ← hrs, ← ih]
        cases ls with
        | nil => rfl
        | cons l1 ls1 => rw [List.getLast?_cons_cons, List.getLast?_cons_cons]

theorem logical_lines_replicate (body : List Byte) (h : ∀ b ∈ body, b ≠ 10) (n : Nat) :
    logical_lines (List.replicate n (body ++ [10])).flatten
      = List.replicate n { content := body, terminated := true } := by
  induction n with
  | zero => rfl
  | succ n ih =>
    rw [List.replicate_succ, List.flatten_cons, List.append_assoc, List.singleton_append,
      logical_lines_newline body _ h, ih, List.replicate_succ]

theorem stored_eq_bytes (l : LogicalLine) (h : l.content.length ≤ LINE_LENGTH_LIMIT) :
    l.stored = l.bytes := by
  unfold LogicalLine.stored LogicalLine.bytes
  rw [List.take_of_length_le h]

/-! ## The warning counter -/

theorem wrap_int_add (a b : Int) : wrap_int (wrap_int a + b) = wrap_int (a + b) := by
  unfold wrap_int; omega

theorem wrap_int_idem (a : Int) : wrap_int (wrap_int a) = wrap_int a := by
  unfold wrap_int; omega

theorem warn_count_succ (c : Int) (e : Nat) :
    warn_count c (e + 1)
      = (if wrap_int c = 0 then 1 else 0) + warn_count (wrap_int (c + 1)) e := by
  unfold warn_count
  rw [List.range_succ_eq_map, List.countP_cons, List.countP_map, Nat.add_comm]
  congr 1
  · simp
  · apply List.countP_congr
    intro k _
    simp only [Function.comp, decide_eq_true_eq]
    rw [wrap_int_add]
    have : c + ((k + 1 : Nat) : Int) = c + 1 + (k : Int) := by push_cast; omega
    rw [this]

/-- A counter starting at `0` is `0` at events `0`, `2^32`, `2 * 2^32`, ... -/
theorem warn_count_closed (e : Nat) :
    warn_count 0 e = (e + 4294967295) / 4294967296 := by
  induction e with
  | zero => simp [warn_count]
  | succ e ih =>
    have hstep : warn_count 0 (e + 1)
        = warn_count 0 e + if e % 4294967296 = 0 then 1 else 0 := by
      unfold warn_count
      rw [List.range_succ, List.countP_append, List.countP_singleton]
      have hw : (wrap_int (0 + (e : Int)) = 0) ↔ e % 4294967296 = 0 := by
        unfold wrap_int; omega
      by_cases he : e % 4294967296 = 0
      · rw [if_pos he, if_pos (decide_eq_true (hw.mpr he))]
      · rw [if_neg he, if_neg (fun h => he (hw.mp (of_decide_eq_true h)))]
    rw [hstep, ih]
    split <;> omega

/-! ## The scanner loop -/

theorem store_at_length (b : LineBuf) (v : Byte) (h : b.cells.length < b.cap) :
    b.store b.cells.length v = some { b with cells := b.cells ++ [some v] } := by
  unfold LineBuf.store
  rw [if_pos h]
  have e : b.cells.length + 1 - b.cells.length = 1 := by omega
  rw [e]
  simp [List.replicate]

theorem store_at_last (cap : Nat) (xs : List (Option Byte)) (y : Option Byte) (v : Byte)
    (h : xs.length < cap) :
    LineBuf.store { cap := cap, cells := xs ++ [y] } xs.length v
      = some { cap := cap, cells := xs ++ [some v] } := by
  unfold LineBuf.store
  rw [if_pos h]
  simp

theorem scan_emit_spec (st : ScanState) (acc : List Byte) (t : Bool)
    (h : scan_rel st acc) :
    ∃ st1 fr, scan_emit st (if t then 10 else 0) = some st1 ∧
      cb_put st.buffer (some (record_of { content := acc, terminated := t }))
        = some (st1.buffer, fr) ∧
      st1.emitted = st.emitted ++ [record_of { content := acc, terminated := t }] ∧
      cb_wf st1.buffer ∧ st1.idx = 0 ∧ st1.overflow = false ∧
      st1.warnings = st.warnings ∧ st1.overflow_happened = st.overflow_happened ∧
      st1.mallocs = st.mallocs := by
  obtain ⟨hidx, _, hline, _, _, hwf⟩ := h
  have hlen : ((acc.take LINE_LENGTH_LIMIT).map some).length = st.idx := by
    rw [List.length_map, List.length_take, hidx, Nat.min_comm]
  have hcap : st.idx < LINE_LENGTH_LIMIT + 1 := by rw [hidx]; omega
  obtain ⟨cb1, fr, hput, hwf1, _⟩ := cb_put_ok st.buffer hwf
    (record_of { content := acc, terminated := t })
  refine ⟨{ st with
      line := record_of { content := acc, terminated := t }, buffer := cb1, idx := 0,
      overflow := false, freed := st.freed ++ fr,
      emitted := st.emitted ++ [record_of { content := acc, terminated := t }] },
    fr, ?_, hput, rfl, hwf1, rfl, rfl, rfl, rfl, rfl⟩
  unfold scan_emit
  rw [hline, ← hlen]
  rw [store_at_length _ _ (by simp)]
  simp only
  rw [store_at_last _ _ _ _ (by rw [hlen]; exact hcap)]
  simp only
  have hrec : LineBuf.mk (LINE_LENGTH_LIMIT + 1)
      ((acc.take LINE_LENGTH_LIMIT).map some ++ [some (if t then 10 else 0)])
      = record_of { content := acc, terminated := t } := rfl
  rw [hrec, hput]

theorem scan_rel_init (cb : circ_bfr LineBuf) (h : cb_wf cb) : scan_rel (scan_init cb) [] :=
  ⟨rfl, rfl, rfl, fun b hb => absurd hb (List.not_mem_nil b), rfl, h⟩

theorem scan_rel_fresh (st1 : ScanState) (hi : st1.idx = 0) (ho : st1.overflow = false)
    (hw : wrap_int st1.overflow_happened = st1.overflow_happened) (hwf : cb_wf st1.buffer) :
    scan_rel { st1 with line := LineBuf.malloc (LINE_LENGTH_LIMIT + 1),
                        mallocs := st1.mallocs + 1 } [] := by
  refine ⟨hi, ho, rfl, ?_, hw, hwf⟩
  intro b hb
  exact absurd hb (List.not_mem_nil _)

theorem scan_rel_push (st : ScanState) (acc : List Byte) (c : Byte) (hc : c ≠ 10)
    (h : scan_rel st acc) (hlt : acc.length < LINE_LENGTH_LIMIT) :
    ∃ l, st.line.store st.idx c = some l ∧
      scan_rel { st with line := l, idx := st.idx + 1 } (acc ++ [c]) := by
  obtain ⟨hidx, hov, hline, hnl, hwr, hwf⟩ := h
  have hi : st.idx = acc.length := by rw [hidx]; omega
  have htake : acc.take LINE_LENGTH_LIMIT = acc := List.take_of_length_le (by omega)
  have htake2 : (acc ++ [c]).take LINE_LENGTH_LIMIT = acc ++ [c] :=
    List.take_of_length_le (by simp; omega)
  refine ⟨{ cap := LINE_LENGTH_LIMIT + 1, cells := acc.map some ++ [some c] }, ?_, ?_⟩
  · rw [hline, htake, hi]
    have := store_at_length { cap := LINE_LENGTH_LIMIT + 1, cells := acc.map some } c
      (by simp; omega)
    simpa using this
  · refine ⟨?_, ?_, ?_, ?_, hwr, hwf⟩
    · show st.idx + 1 = _
      rw [hi, List.length_append, List.length_singleton]; omega
    · show st.overflow = _
      rw [hov, List.length_append, List.length_singleton]
      simp; omega
    · show _ = _
      rw [htake2]; simp
    · intro b hb
      rw [List.mem_append, List.mem_singleton] at hb
      rcases hb with hb | hb
      · exact hnl b hb
      · rw [hb]; exact hc

theorem scan_rel_event (st : ScanState) (acc : List Byte) (c : Byte) (hc : c ≠ 10)
    (h : scan_rel st acc) (heq : acc.length = LINE_LENGTH_LIMIT) :
    scan_rel
      { st with
        warnings := if st.overflow_happened = 0 then st.warnings + 1 else st.warnings,
        overflow := true,
        overflow_happened := wrap_int (st.overflow_happened + 1) } (acc ++ [c]) := by
  obtain ⟨hidx, hov, hline, hnl, hwr, hwf⟩ := h
  refine ⟨?_, ?_, ?_, ?_, wrap_int_idem _, hwf⟩
  · show st.idx = _
    rw [hidx, List.length_append, List.length_singleton]; omega
  · show true = _
    rw [List.length_append, List.length_singleton]
    simp; omega
  · show st.line = _
    rw [hline, List.take_append_of_le_length (by omega)]
  · intro b hb
    rw [List.mem_append, List.mem_singleton] at hb
    rcases hb with hb | hb
    · exact hnl b hb
    · rw [hb]; exact hc

theorem scan_rel_skip (st : ScanState) (acc : List Byte) (c : Byte) (hc : c ≠ 10)
    (h : scan_rel st acc) (hgt : LINE_LENGTH_LIMIT < acc.length) :
    scan_rel st (acc ++ [c]) := by
  obtain ⟨hidx, hov, hline, hnl, hwr, hwf⟩ := h
  refine ⟨?_, ?_, ?_, ?_, hwr, hwf⟩
  · rw [hidx, List.length_append, List.length_singleton]; omega
  · rw [hov, List.length_append, List.length_singleton]
    simp; omega
  · rw [hline, List.take_append_of_le_length (by omega)]
  · intro b hb
    rw [List.mem_append, List.mem_singleton] at hb
    rcases hb with hb | hb
    · exact hnl b hb
    · rw [hb]; exact hc

/-- The scanner loop from a state that has consumed `acc` of the current line, when
every `malloc` of a next line block returns one: it ends by the `break`, emits the
records of the logical lines of `acc ++ input`, puts them into the buffer in order, and
counts one overflow event per overlong line. -/
theorem scan_loop_spec (malloc : Nat → Bool) (input : List Byte) :
    ∀ (st : ScanState) (acc : List Byte), scan_rel st acc →
    (∀ k, st.mallocs ≤ k → k < st.mallocs + input.count 10 → malloc k = true) →
    ∃ st1 fr e, scan_loop malloc input st = some (.finished st1) ∧
      st1.emitted = st.emitted ++ (logical_lines (acc ++ input)).map record_of ∧
      cb_put_all st.buffer (((logical_lines (acc ++ input)).map record_of).map some)
        = some (st1.buffer, fr) ∧
      (if LINE_LENGTH_LIMIT < acc.length then 1 else 0) + e
        = (logical_lines (acc ++ input)).countP overlong ∧
      st1.warnings = st.warnings + warn_count st.overflow_happened e ∧
      st1.overflow_happened = wrap_int (st.overflow_happened + (e : Int)) := by
  induction input with
  | nil =>
    intro st acc h _
    have hidx := h.1
    have hwr := h.2.2.2.2.1
    rw [List.append_nil]
    unfold scan_loop
    by_cases h0 : acc = []
    · subst h0
      rw [if_pos (by rw [hidx]; rfl)]
      refine ⟨_, [], 0, rfl, ?_, rfl, rfl, ?_, ?_⟩
      · simp [logical_lines]
      · simp [warn_count]
      · simp [hwr]
    · have hpos : 0 < acc.length := List.length_pos.mpr h0
      rw [if_neg (by rw [hidx]; unfold LINE_LENGTH_LIMIT; omega)]
      obtain ⟨st1, fr, hemit, hput, hem, _, _, _, hw1, hc1, _⟩ :=
        scan_emit_spec st acc false h
      have hemit0 : scan_emit st 0 = some st1 := hemit
      rw [logical_lines_last acc h.2.2.2.1 h0]
      refine ⟨st1, fr ++ [], 0, by rw [hemit0], by rw [hem]; rfl, ?_, ?_, ?_, ?_⟩
      · simp only [List.map_cons, List.map_nil, cb_put_all, hput, Option.map_some']
      · rw [List.countP_cons, List.countP_nil]; simp [overlong]
      · rw [hw1]; simp [warn_count]
      · rw [hc1]; simp [hwr]
  | cons c rest ih =>
    intro st acc h hm
    obtain ⟨hidx, hov, hline, hnl, hwr, hwf⟩ := id h
    unfold scan_loop
    by_cases hc : c = 10
    · subst hc
      rw [if_pos rfl]
      obtain ⟨st1, fr, hemit, hput, hem, hwf1, hi1, ho1, hw1, hc1, hm1⟩ :=
        scan_emit_spec st acc true h
      have hemit10 : scan_emit st 10 = some st1 := hemit
      have hmk : malloc st1.mallocs = true := by
        rw [hm1]
        exact hm _ (Nat.le_refl _) (by rw [List.count_cons_self]; omega)
      simp only [hemit10]
      rw [if_pos hmk]
      obtain ⟨st2, fr2, e, hscan, hem2, hput2, he, hw2, hc2⟩ :=
        ih _ [] (scan_rel_fresh st1 hi1 ho1 (by rw [hc1]; exact hwr) hwf1) (by
          intro k hk1 hk2
          have hk1 : st1.mallocs + 1 ≤ k := hk1
          have hk2 : k < st1.mallocs + 1 + rest.count 10 := hk2
          exact hm k (by omega) (by rw [List.count_cons_self]; omega))
      simp only [List.nil_append, List.length_nil] at hem2 hput2 he
      rw [logical_lines_newline acc rest hnl]
      refine ⟨st2, fr ++ fr2, e, hscan, ?_, ?_, ?_, ?_, ?_⟩
      · rw [hem2, hem]; simp
      · simp only [List.map_cons, cb_put_all, hput, hput2, Option.map_some']
      · rw [List.countP_cons, ← he]
        simp [overlong]; omega
      · rw [hw2]; show st1.warnings + _ = _; rw [hw1, hc1]
      · rw [hc2]; show wrap_int (st1.overflow_happened + _) = _; rw [hc1]
    · rw [if_neg hc]
      have hcount : (c :: rest).count 10 = rest.count 10 :=
        List.count_cons_of_ne (Ne.symm hc) rest
      rw [hcount] at hm
      have happ : acc ++ c :: rest = (acc ++ [c]) ++ rest := by simp
      rw [happ]
      by_cases hlt : LINE_LENGTH_LIMIT < acc.length
      · have hovt : st.overflow = true := by rw [hov]; simpa using hlt
        rw [hovt]
        simp only [Bool.not_true, Bool.false_eq_true, if_false]
        obtain ⟨st2, fr2, e, hscan, hem2, hput2, he, hw2, hc2⟩ :=
          ih st (acc ++ [c]) (scan_rel_skip st acc c hc h hlt) hm
        refine ⟨st2, fr2, e, hscan, hem2, hput2, ?_, hw2, hc2⟩
        rw [← he, if_pos hlt, if_pos (by simp; omega)]
      · have hovf : st.overflow = false := by rw [hov]; simpa using hlt
        rw [hovf]
        simp only [Bool.not_false, if_true]
        by_cases heq : acc.length = LINE_LENGTH_LIMIT
        · rw [if_pos (by rw [hidx, heq]; simp)]
          obtain ⟨st2, fr2, e, hscan, hem2, hput2, he, hw2, hc2⟩ :=
            ih _ (acc ++ [c]) (scan_rel_event st acc c hc h heq) hm
          simp only at hw2 hc2
          refine ⟨st2, fr2, e + 1, hscan, hem2, hput2, ?_, ?_, ?_⟩
          · rw [← he, if_neg hlt, if_pos (by simp; omega)]; omega
          · rw [hw2, warn_count_succ, hwr]
            split <;> omega
          · rw [hc2, wrap_int_add]; congr 1; push_cast; omega
        · have hlt2 : acc.length < LINE_LENGTH_LIMIT := by omega
          rw [if_neg (by rw [hidx]; omega)]
          obtain ⟨l, hstore, hrel⟩ := scan_rel_push st acc c hc h hlt2
          rw [hstore]
          obtain ⟨st2, fr2, e, hscan, hem2, hput2, he, hw2, hc2⟩ :=
            ih _ (acc ++ [c]) hrel hm
          simp only [hovf] at hscan
          refine ⟨st2, fr2, e, hscan, hem2, hput2, ?_, hw2, hc2⟩
          rw [← he, if_neg hlt, if_neg (by simp; omega)]

/-- The number of warnings of a run of the scanner loop in which every `malloc` returns a
block, for every input. -/
theorem scan_warnings (malloc : Nat → Bool) (input : List Byte) (cb : circ_bfr LineBuf)
    (hwf : cb_wf cb) (hm : ∀ k, 2 ≤ k → k < 2 + input.count 10 → malloc k = true) :
    ∃ st, scan_loop malloc input (scan_init cb) = some (.finished st) ∧
      st.warnings = ((logical_lines input).countP overlong + 4294967295) / 4294967296 := by
  obtain ⟨st, _, e, hscan, _, _, he, hw, _⟩ :=
    scan_loop_spec malloc input (scan_init cb) [] (scan_rel_init cb hwf) hm
  refine ⟨st, hscan, ?_⟩
  have h0 : e = (logical_lines input).countP overlong := by
    simpa using he
  rw [hw, ← h0]
  show 0 + warn_count 0 e = _
  rw [warn_count_closed, Nat.zero_add]

/-- Up to `2^32` overlong lines the warning is printed once, and not at all without an
overlong line. -/
theorem scan_warnings_once (malloc : Nat → Bool) (input : List Byte)
    (cb : circ_bfr LineBuf) (hwf : cb_wf cb)
    (hm : ∀ k, 2 ≤ k → k < 2 + input.count 10 → malloc k = true)
    (hfew : (logical_lines input).countP overlong ≤ 4294967296) :
    ∃ st, scan_loop malloc input (scan_init cb) = some (.finished st) ∧
      st.warnings = if (logical_lines input).countP overlong = 0 then 0 else 1 := by
  obtain ⟨st, hscan, hw⟩ := scan_warnings malloc input cb hwf hm
  refine ⟨st, hscan, ?_⟩
  rw [hw]
  split <;> omega

/-- One iteration of the scanner loop that reads a byte other than a newline: the loop
continues from a state that again has consumed some bytes of the current line. -/
theorem scan_loop_step (malloc : Nat → Bool) (c : Byte) (hc : c ≠ 10) (st : ScanState)
    (acc : List Byte) (h : scan_rel st acc) :
    ∃ st1, scan_rel st1 (acc ++ [c]) ∧ st1.mallocs = st.mallocs ∧
      st1.emitted = st.emitted ∧
      ∀ rest, scan_loop malloc (c :: rest) st = scan_loop malloc rest st1 := by
  obtain ⟨hidx, hov, hline, hnl, hwr, hwf⟩ := id h
  by_cases hlt : LINE_LENGTH_LIMIT < acc.length
  · have hovt : st.overflow = true := by rw [hov]; simpa using hlt
    refine ⟨st, scan_rel_skip st acc c hc h hlt, rfl, rfl, ?_⟩
    intro rest
    conv_lhs => unfold scan_loop
    rw [if_neg hc, hovt]
    rfl
  · have hovf : st.overflow = false := by rw [hov]; simpa using hlt
    by_cases heq : acc.length = LINE_LENGTH_LIMIT
    · refine ⟨_, scan_rel_event st acc c hc h heq, rfl, rfl, ?_⟩
      intro rest
      conv_lhs => unfold scan_loop
      rw [if_neg hc, hovf]
      simp only [Bool.not_false, if_true]
      rw [if_pos (by rw [hidx, heq]; simp)]
    · have hlt2 : acc.length < LINE_LENGTH_LIMIT := by omega
      obtain ⟨l, hstore, hrel⟩ := scan_rel_push st acc c hc h hlt2
      refine ⟨_, hrel, rfl, rfl, ?_⟩
      intro rest
      conv_lhs => unfold scan_loop
      rw [if_neg hc, hovf]
      simp only [Bool.not_false, if_true]
      rw [if_neg (by rw [hidx]; omega), hstore]

/-- One iteration of the scanner loop that reads a newline: the record of the line is
put into the buffer; then the loop continues with a fresh line block, or, without a
block, the buffer is freed and the loop is left. -/
theorem scan_loop_newline (malloc : Nat → Bool) (st : ScanState) (acc : List Byte)
    (h : scan_rel st acc) :
    (malloc st.mallocs = true ∧
      ∃ st1, scan_rel st1 [] ∧ st1.mallocs = st.mallocs + 1 ∧
        st1.emitted = st.emitted ++ [record_of { content := acc, terminated := true }] ∧
        ∀ rest, scan_loop malloc (10 :: rest) st = scan_loop malloc rest st1) ∨
    (malloc st.mallocs = false ∧
      ∃ st1, st1.emitted
          = st.emitted ++ [record_of { content := acc, terminated := true }] ∧
        st1.warnings = st.warnings ∧ st1.buffer.start = st1.buffer.end_ ∧
        ∀ rest, scan_loop malloc (10 :: rest) st = some (.memory_error st1)) := by
  obtain ⟨_, _, _, _, hwr, _⟩ := id h
  obtain ⟨st1, fr, hemit, _, hem, hwf1, hi1, ho1, hw1, hc1, hm1⟩ :=
    scan_emit_spec st acc true h
  have hemit10 : scan_emit st 10 = some st1 := hemit
  by_cases hmk : malloc st.mallocs = true
  · refine Or.inl ⟨hmk, _, scan_rel_fresh st1 hi1 ho1 (by rw [hc1]; exact hwr) hwf1,
      by show st1.mallocs + 1 = _; rw [hm1], hem, ?_⟩
    intro rest
    conv_lhs => unfold scan_loop
    simp only [if_pos, hemit10]
    rw [if_pos (by rw [hm1]; exact hmk)]
  · have hle := cb_count_le st1.buffer hwf1
    have hfree : cb_free st1.buffer
        = some ({ st1.buffer with start := st1.buffer.end_ },
            (cb_held st1.buffer).map some) := by
      unfold cb_free
      rw [cb_free_loop_spec _ st1.buffer [] hwf1 (by rw [cb_true_size_eq _ hwf1]; omega)]
      rfl
    refine Or.inr ⟨by simpa using hmk,
      { st1 with buffer := { st1.buffer with start := st1.buffer.end_ },
                 freed := st1.freed ++ (cb_held st1.buffer).map some,
                 mallocs := st1.mallocs + 1 }, hem, hw1, rfl, ?_⟩
    intro rest
    conv_lhs => unfold scan_loop
    simp only [if_pos, hemit10]
    rw [if_neg (by rw [hm1]; exact hmk), hfree]

/-- The state of the scanner loop after it has read the bytes `pre`, unless the loop was
left before because a `malloc` returned no block. -/
theorem scan_loop_prefix (malloc : Nat → Bool) (pre : List Byte) :
    ∀ (st : ScanState) (acc : List Byte), scan_rel st acc →
    (∃ st1 acc1, scan_rel st1 acc1 ∧ st1.mallocs = st.mallocs + pre.count 10 ∧
      ∀ tail, scan_loop malloc (pre ++ tail) st = scan_loop malloc tail st1) ∨
    (∃ st1 k, st.mallocs ≤ k ∧ k < st.mallocs + pre.count 10 ∧ malloc k = false ∧
      ∀ tail, scan_loop malloc (pre ++ tail) st = some (.memory_error st1)) := by
  induction pre with
  | nil => intro st acc h; exact Or.inl ⟨st, acc, h, rfl, fun _ => rfl⟩
  | cons c pre ih =>
    intro st acc h
    by_cases hc : c = 10
    · subst hc
      rw [List.count_cons_self]
      rcases scan_loop_newline malloc st acc h with
        ⟨_, st1, h1, hm1, _, hs⟩ | ⟨hmk, st1, _, _, _, hs⟩
      · rcases ih st1 [] h1 with ⟨st2, acc2, h2, hm2, hpre⟩ | ⟨st2, k, hk1, hk2, hk3, hpre⟩
        · exact Or.inl ⟨st2, acc2, h2, by omega,
            fun tail => by rw [List.cons_append, hs, hpre]⟩
        · exact Or.inr ⟨st2, k, by omega, by omega, hk3,
            fun tail => by rw [List.cons_append, hs, hpre]⟩
      · exact Or.inr ⟨st1, st.mallocs, Nat.le_refl _, by omega, hmk,
          fun tail => by rw [List.cons_append, hs]⟩
    · rw [List.count_cons_of_ne (Ne.symm hc)]
      obtain ⟨st1, h1, hm1, _, hs⟩ := scan_loop_step malloc c hc st acc h
      rcases ih st1 _ h1 with ⟨st2, acc2, h2, hm2, hpre⟩ | ⟨st2, k, hk1, hk2, hk3, hpre⟩
      · exact Or.inl ⟨st2, acc2, h2, by omega,
          fun tail => by rw [List.cons_append, hs, hpre]⟩
      · exact Or.inr ⟨st2, k, by omega, by omega, hk3,
          fun tail => by rw [List.cons_append, hs, hpre]⟩

/-- The scanner loop is left for every input and every behaviour of `malloc`: by the
`break` only if every `malloc` of a next line block returned one, and with a well-formed
buffer then; the records passed to `cb_put` are records of logical lines. -/
theorem scan_loop_total (malloc : Nat → Bool) (input : List Byte) :
    ∀ (st : ScanState) (acc : List Byte), scan_rel st acc →
    ∃ r, scan_loop malloc input st = some r ∧
      (∃ ls : List LogicalLine, r.state.emitted = st.emitted ++ ls.map record_of) ∧
      (∀ st1, r = .finished st1 →
        ∀ k, st.mallocs ≤ k → k < st.mallocs + input.count 10 → malloc k = true) ∧
      (∀ st1, r = .memory_error st1 →
        st1.buffer.start = st1.buffer.end_ ∧
        ∃ k, st.mallocs ≤ k ∧ k < st.mallocs + input.count 10 ∧ malloc k = false) := by
  induction input with
  | nil =>
    intro st acc h
    obtain ⟨st1, _, _, hscan, hem, _⟩ :=
      scan_loop_spec malloc [] st acc h (fun k h1 h2 => by
        rw [List.count_nil] at h2; omega)
    refine ⟨_, hscan, ⟨_, hem⟩, ?_, ?_⟩
    · intro _ _ k h1 h2
      rw [List.count_nil] at h2; omega
    · intro st2 h2
      exact ScanExit.noConfusion h2
  | cons c rest ih =>
    intro st acc h
    by_cases hc : c = 10
    · subst hc
      rcases scan_loop_newline malloc st acc h with
        ⟨hmk, st1, h1, hm1, hem1, hs⟩ | ⟨hmk, st1, hem1, _, hse, hs⟩
      · obtain ⟨r, hscan, ⟨ls, hem⟩, hfin, herr⟩ := ih st1 [] h1
        refine ⟨r, by rw [hs, hscan],
          ⟨{ content := acc, terminated := true } :: ls, by
            rw [hem, hem1]; simp⟩, ?_, ?_⟩
        · intro st2 h2 k hk1 hk2
          rw [List.count_cons_self] at hk2
          by_cases hk : k = st.mallocs
          · rw [hk]; exact hmk
          · exact hfin st2 h2 k (by omega) (by omega)
        · intro st2 h2
          obtain ⟨hse, k, hk1, hk2, hk3⟩ := herr st2 h2
          exact ⟨hse, k, by omega, by rw [List.count_cons_self]; omega, hk3⟩
      · refine ⟨_, hs rest, ⟨[{ content := acc, terminated := true }], hem1⟩, ?_, ?_⟩
        · intro st2 h2
          exact ScanExit.noConfusion h2
        · intro st2 h2
          have h3 : st1 = st2 := by injection h2
          subst h3
          exact ⟨hse, st.mallocs, Nat.le_refl _,
            by rw [List.count_cons_self]; omega, hmk⟩
    · obtain ⟨st1, h1, hm1, hem1, hs⟩ := scan_loop_step malloc c hc st acc h
      obtain ⟨r, hscan, ⟨ls, hem⟩, hfin, herr⟩ := ih st1 _ h1
      have hcount : (c :: rest).count 10 = rest.count 10 :=
        List.count_cons_of_ne (Ne.symm hc) rest
      rw [hcount, ← hm1]
      exact ⟨r, by rw [hs, hscan], ⟨ls, by rw [hem, hem1]⟩, hfin, herr⟩

/-- When the `malloc` after the next newline returns no block, the scanner loop is left
there: the record of the current line is the last one passed to `cb_put`, and the
bytes after the newline are not read. -/
theorem scan_loop_memory_error (malloc : Nat → Bool) (pre : List Byte) :
    ∀ (st : ScanState) (acc : List Byte), scan_rel st acc → (∀ b ∈ pre, b ≠ 10) →
    malloc st.mallocs = false →
    ∃ st1, st1.emitted
        = st.emitted ++ [record_of { content := acc ++ pre, terminated := true }] ∧
      ∀ rest, scan_loop malloc (pre ++ 10 :: rest) st = some (.memory_error st1) := by
  induction pre with
  | nil =>
    intro st acc h _ hmk
    rcases scan_loop_newline malloc st acc h with ⟨hmt, _⟩ | ⟨_, st1, hem, _, _, hs⟩
    · rw [hmk] at hmt
      exact Bool.noConfusion hmt
    · exact ⟨st1, by rw [hem, List.append_nil], fun rest => hs rest⟩
  | cons c pre ih =>
    intro st acc h hpre hmk
    obtain ⟨st1, h1, hm1, hem1, hs⟩ :=
      scan_loop_step malloc c (hpre c (List.mem_cons_self _ _)) st acc h
    obtain ⟨st2, hem2, hs2⟩ := ih st1 (acc ++ [c]) h1
      (fun b hb => hpre b (List.mem_cons_of_mem _ hb)) (by rw [hm1]; exact hmk)
    refine ⟨st2, ?_, fun rest => by rw [List.cons_append, hs, hs2]⟩
    rw [hem2, hem1]
    simp

/-! ## Printing records -/

theorem load_record (cap : Nat) (pre suf : List Byte) (t : Byte)
    (hcap : (pre ++ suf).length < cap) :
    LineBuf.load { cap := cap, cells := (pre ++ suf).map some ++ [some t] } pre.length
      = some ((suf ++ [t]).head (by simp)) := by
  unfold LineBuf.load
  rw [List.length_append] at hcap
  rw [if_pos (by show pre.length < cap; omega)]
  simp only [List.map_append, List.append_assoc]
  rw [List.getElem?_append_right (by simp)]
  cases suf with
  | nil => simp
  | cons b suf => simp

theorem print_line_loop_spec (cap : Nat) (t : Byte) (ht : t = 0 ∨ t = 10) (suf : List Byte) :
    ∀ (pre : List Byte) (fuel : Nat) (out : List Byte),
      (∀ b ∈ suf, b ≠ 0 ∧ b ≠ 10) → (pre ++ suf).length < cap → suf.length < fuel →
      print_line_loop { cap := cap, cells := (pre ++ suf).map some ++ [some t] } fuel
          pre.length out
        = some (out ++ suf ++ if t = 10 then [10] else []) := by
  induction suf with
  | nil =>
    intro pre fuel out _ hcap hf
    obtain ⟨fuel, rfl⟩ : ∃ k, fuel = k + 1 := ⟨fuel - 1, by simp at hf; omega⟩
    unfold print_line_loop
    rw [load_record cap pre [] t hcap]
    rcases ht with ht | ht <;> subst ht <;> simp
  | cons b suf ih =>
    intro pre fuel out hno hcap hf
    obtain ⟨fuel, rfl⟩ : ∃ k, fuel = k + 1 := ⟨fuel - 1, by simp at hf; omega⟩
    obtain ⟨hb0, hb10⟩ := hno b (List.mem_cons_self _ _)
    unfold print_line_loop
    rw [load_record cap pre (b :: suf) t hcap]
    simp only [List.cons_append, List.head_cons, if_neg hb0, if_neg hb10]
    have hpre : pre ++ b :: suf = (pre ++ [b]) ++ suf := by simp
    have hlen : pre.length + 1 = (pre ++ [b]).length := by simp
    rw [hpre, hlen,
      ih (pre ++ [b]) fuel (out ++ [b]) (fun x hx => hno x (List.mem_cons_of_mem _ hx))
        (by rw [← hpre]; exact hcap) (by simp at hf; omega)]
    simp

/-- `print_line` on the record of a line whose stored bytes contain neither NUL nor newline
writes the stored bytes and the terminator. -/
theorem print_line_record (l : LogicalLine) (out : List Byte)
    (hno : ∀ b ∈ l.content.take LINE_LENGTH_LIMIT, b ≠ 0 ∧ b ≠ 10) :
    print_line (some (record_of l)) out
      = some (out ++ l.content.take LINE_LENGTH_LIMIT ++ if l.terminated then [10] else []) := by
  unfold print_line
  have h := print_line_loop_spec (LINE_LENGTH_LIMIT + 1) (if l.terminated then 10 else 0)
    (by cases l.terminated <;> simp) (l.content.take LINE_LENGTH_LIMIT) []
    (LINE_LENGTH_LIMIT + 1 + 1) out hno
    (by rw [List.nil_append, List.length_take]; omega)
    (by rw [List.length_take]; omega)
  simp only [List.nil_append, List.length_nil] at h
  show print_line_loop (record_of l) (LINE_LENGTH_LIMIT + 1 + 1) 0 out = _
  unfold record_of
  rw [h]
  cases l.terminated <;> simp

theorem foldlM_print_and_free (ls : List LogicalLine)
    (hno : ∀ l ∈ ls, ∀ b ∈ l.content.take LINE_LENGTH_LIMIT, b ≠ 0 ∧ b ≠ 10) :
    ∀ (out : List Byte) (freed : List (Ptr LineBuf)),
      List.foldlM print_and_free (out, freed) (ls.map record_of)
        = some (out ++ (ls.map LogicalLine.stored).flatten,
                freed ++ (ls.map record_of).map some) := by
  induction ls with
  | nil => intro out freed; simp
  | cons l ls ih =>
    intro out freed
    rw [List.map_cons, List.foldlM_cons]
    simp only [Option.bind_eq_bind, print_and_free]
    rw [print_line_record l out (hno l (List.mem_cons_self _ _))]
    simp only [Option.map_some', Option.some_bind]
    rw [ih (fun l2 h2 => hno l2 (List.mem_cons_of_mem _ h2))]
    simp [LogicalLine.stored]

/-- The loop of `print_line` on a record, from any index up to the terminator: it ends
and writes the bytes of the string that starts there. -/
theorem print_line_loop_total (cap : Nat) (t : Byte) (ht : t = 0 ∨ t = 10)
    (suf : List Byte) :
    ∀ (pre : List Byte) (fuel : Nat) (out : List Byte),
      (pre ++ suf).length < cap → suf.length < fuel →
      print_line_loop { cap := cap, cells := (pre ++ suf).map some ++ [some t] } fuel
          pre.length out
        = some (out ++ c_string_output (suf ++ [t])) := by
  induction suf with
  | nil =>
    intro pre fuel out hcap hf
    obtain ⟨fuel, rfl⟩ : ∃ k, fuel = k + 1 := ⟨fuel - 1, by simp at hf; omega⟩
    unfold print_line_loop
    rw [load_record cap pre [] t hcap]
    rcases ht with ht | ht <;> subst ht <;> simp [c_string_output]
  | cons b suf ih =>
    intro pre fuel out hcap hf
    obtain ⟨fuel, rfl⟩ : ∃ k, fuel = k + 1 := ⟨fuel - 1, by simp at hf; omega⟩
    unfold print_line_loop
    rw [load_record cap pre (b :: suf) t hcap]
    simp only [List.cons_append, List.head_cons, c_string_output]
    by_cases hb0 : b = 0
    · simp [hb0]
    · by_cases hb10 : b = 10
      · simp [hb10]
      · rw [if_neg hb0, if_neg hb10, if_neg hb0, if_neg hb10]
        have hpre : pre ++ b :: suf = (pre ++ [b]) ++ suf := by simp
        have hlen : pre.length + 1 = (pre ++ [b]).length := by simp
        rw [hpre, hlen, ih (pre ++ [b]) fuel (out ++ [b]) (by rw [← hpre]; exact hcap)
          (by simp at hf; omega)]
        simp

/-- `print_line` on the record of any logical line ends and writes its printed bytes. -/
theorem print_line_record_total (l : LogicalLine) (out : List Byte) :
    print_line (some (record_of l)) out = some (out ++ l.printed) := by
  unfold print_line
  have h := print_line_loop_total (LINE_LENGTH_LIMIT + 1) (if l.terminated then 10 else 0)
    (by cases l.terminated <;> simp) (l.content.take LINE_LENGTH_LIMIT) []
    (LINE_LENGTH_LIMIT + 1 + 1) out
    (by rw [List.nil_append, List.length_take]; omega)
    (by rw [List.length_take]; omega)
  simp only [List.nil_append, List.length_nil] at h
  show print_line_loop (record_of l) (LINE_LENGTH_LIMIT + 1 + 1) 0 out = _
  unfold record_of
  rw [h]
  rfl

/-- The drain loop body on the records of any logical lines: every record is printed
and freed. -/
theorem foldlM_print_and_free_total (ls : List LogicalLine) :
    ∀ (out : List Byte) (freed : List (Ptr LineBuf)),
      List.foldlM print_and_free (out, freed) (ls.map record_of)
        = some (out ++ (ls.map LogicalLine.printed).flatten,
                freed ++ (ls.map record_of).map some) := by
  induction ls with
  | nil => intro out freed; simp
  | cons l ls ih =>
    intro out freed
    rw [List.map_cons, List.foldlM_cons]
    simp only [Option.bind_eq_bind, print_and_free]
    rw [print_line_record_total l out]
    simp only [Option.map_some', Option.some_bind]
    rw [ih]
    simp

/-- The cells of the record of a logical line: the terminator is at index
`k <= LINE_LENGTH_LIMIT`, the cells `0 .. k` are written and no cell after `k` is. -/
theorem record_of_cells (l : LogicalLine) :
    (record_of l).cap = LINE_LENGTH_LIMIT + 1 ∧
    ∃ k t, k ≤ LINE_LENGTH_LIMIT ∧ (record_of l).cells.length = k + 1 ∧
      (record_of l).load k = some t ∧ (t = 0 ∨ t = 10) ∧
      (∀ j, j ≤ k → ∃ b, (record_of l).load j = some b) ∧
      (∀ j, k < j → (record_of l).load j = none) := by
  have hk : (l.content.take LINE_LENGTH_LIMIT).length ≤ LINE_LENGTH_LIMIT := by
    rw [List.length_take]; omega
  have hlen : (record_of l).cells.length = (l.content.take LINE_LENGTH_LIMIT).length + 1 := by
    simp [record_of]
  have hall : ∀ x ∈ (record_of l).cells, ∃ b, x = some b := by
    intro x hx
    simp only [record_of, List.mem_append, List.mem_map, List.mem_singleton] at hx
    rcases hx with ⟨b, _, hb⟩ | hx
    · exact ⟨b, hb.symm⟩
    · exact ⟨_, hx⟩
  have hload : ∀ j, j ≤ (l.content.take LINE_LENGTH_LIMIT).length →
      ∃ b, (record_of l).load j = some b := by
    intro j hj
    have hj2 : j < (record_of l).cells.length := by rw [hlen]; omega
    obtain ⟨b, hb⟩ := hall _ (List.getElem_mem hj2)
    refine ⟨b, ?_⟩
    unfold LineBuf.load
    rw [if_pos (by show j < LINE_LENGTH_LIMIT + 1; omega), List.getElem?_eq_getElem hj2, hb]
    rfl
  refine ⟨rfl, (l.content.take LINE_LENGTH_LIMIT).length, if l.terminated then 10 else 0,
    hk, hlen, ?_, by cases l.terminated <;> simp, hload, ?_⟩
  · have h := load_record (LINE_LENGTH_LIMIT + 1) (l.content.take LINE_LENGTH_LIMIT) []
      (if l.terminated then 10 else 0) (by rw [List.append_nil]; omega)
    simpa [record_of] using h
  · intro j hj
    unfold LineBuf.load
    split
    · rw [List.getElem?_eq_none (by rw [hlen]; omega)]
      rfl
    · rfl

/-! ## The argument loop -/

/-- One iteration of the argument loop. -/
theorem arg_loop_cons (env : Env) (a : String) (rest : List String) (st : ArgState) :
    arg_loop env (a :: rest) st =
      if a = "--help" ∧ st.process_switches = true then
        .returned help_text [] EXIT_SUCCESS
      else if a = "-i" ∧ st.process_switches = true then
        arg_loop env rest { st with process_switches := false }
      else if a = "-n" ∧ st.process_switches = true then
        match rest with
        | [] => .returned [] ["ERROR: Expected a number after -n\n"] EXIT_FAILURE
        | s :: rest1 =>
          match env.sscanf_u s with
          | none => .returned [] ["ERROR: Expected a number after -n\n"] EXIT_FAILURE
          | some v =>
            if v % UINT_RANGE > BUFFER_SIZE_LIMIT then
              .returned [] ["ERROR: Number is too large or smaller than 0\n"] EXIT_FAILURE
            else if v % UINT_RANGE = 0 then
              .returned [] [] EXIT_SUCCESS
            else arg_loop env rest1 { st with buffer_size := v % UINT_RANGE }
      else arg_loop env rest { st with file_to_be_openned := some a } := by
  cases rest with
  | nil => conv_lhs => rw [arg_loop]
  | cons s rest1 => conv_lhs => rw [arg_loop]

/-- The bounds on `buffer_size` along the argument loop, by the number of arguments. -/
theorem arg_loop_done_aux (env : Env) (n : Nat) :
    ∀ (argv : List String), argv.length ≤ n →
      ∀ (st0 st : ArgState), arg_loop env argv st0 = .done st →
      1 ≤ st0.buffer_size → st0.buffer_size ≤ BUFFER_SIZE_LIMIT →
      1 ≤ st.buffer_size ∧ st.buffer_size ≤ BUFFER_SIZE_LIMIT ∧
      (st.buffer_size = st0.buffer_size ∨
        ∃ a ∈ argv, ∃ w, env.sscanf_u a = some w ∧ st.buffer_size = w % UINT_RANGE) := by
  induction n with
  | zero =>
    intro argv hlen st0 st h hlo hhi
    have : argv = [] := List.eq_nil_of_length_eq_zero (by omega)
    subst this
    simp only [arg_loop] at h
    cases h
    exact ⟨hlo, hhi, Or.inl rfl⟩
  | succ n ih =>
    intro argv hlen st0 st h hlo hhi
    cases argv with
    | nil =>
      simp only [arg_loop] at h
      cases h
      exact ⟨hlo, hhi, Or.inl rfl⟩
    | cons a rest =>
      have hrest : ∀ (st1 : ArgState), arg_loop env rest st1 = .done st →
          st1.buffer_size = st0.buffer_size →
          1 ≤ st.buffer_size ∧ st.buffer_size ≤ BUFFER_SIZE_LIMIT ∧
          (st.buffer_size = st0.buffer_size ∨
            ∃ a2 ∈ a :: rest, ∃ w, env.sscanf_u a2 = some w ∧
              st.buffer_size = w % UINT_RANGE) := by
        intro st1 h1 heq
        obtain ⟨r1, r2, r3⟩ := ih rest (by simp at hlen; omega) st1 st h1
          (by rw [heq]; exact hlo) (by rw [heq]; exact hhi)
        refine ⟨r1, r2, ?_⟩
        rcases r3 with r3 | ⟨a2, ha2, w, hw, hbs⟩
        · exact Or.inl (by rw [r3, heq])
        · exact Or.inr ⟨a2, List.mem_cons_of_mem _ ha2, w, hw, hbs⟩
      rw [arg_loop_cons] at h
      split at h
      · cases h
      · split at h
        · exact hrest _ h rfl
        · split at h
          · cases rest with
            | nil => cases h
            | cons s rest1 =>
              simp only at h
              cases hs : env.sscanf_u s with
              | none => rw [hs] at h; cases h
              | some v =>
                rw [hs] at h
                simp only at h
                split at h
                · cases h
                · split at h
                  · cases h
                  · rename_i hle hne
                    obtain ⟨r1, r2, r3⟩ := ih rest1 (by simp at hlen; omega) _ st h
                      (by show 1 ≤ v % UINT_RANGE; omega)
                      (by show v % UINT_RANGE ≤ BUFFER_SIZE_LIMIT; omega)
                    refine ⟨r1, r2, Or.inr ?_⟩
                    rcases r3 with r3 | ⟨a2, ha2, w, hw, hbs⟩
                    · exact ⟨s, by simp, v, hs, r3⟩
                    · exact ⟨a2, by simp [ha2], w, hw, hbs⟩
          · exact hrest _ h rfl

/-- When the argument loop runs out of arguments, `buffer_size` is between `1` and
`BUFFER_SIZE_LIMIT`: the value at the entry, or a converted argument. -/
theorem arg_loop_done (env : Env) (argv : List String) (st0 st : ArgState)
    (h : arg_loop env argv st0 = .done st) (hlo : 1 ≤ st0.buffer_size)
    (hhi : st0.buffer_size ≤ BUFFER_SIZE_LIMIT) :
    1 ≤ st.buffer_size ∧ st.buffer_size ≤ BUFFER_SIZE_LIMIT ∧
    (st.buffer_size = st0.buffer_size ∨
      ∃ a ∈ argv, ∃ w, env.sscanf_u a = some w ∧ st.buffer_size = w % UINT_RANGE) :=
  arg_loop_done_aux env argv.length argv (Nat.le_refl _) st0 st h hlo hhi

/-- The argument loop on appended arguments, by the number of arguments. -/
theorem arg_loop_append_aux (env : Env) (n : Nat) :
    ∀ (pre : List String), pre.length ≤ n →
      ∀ (rest : List String) (st0 st : ArgState), arg_loop env pre st0 = .done st →
      arg_loop env (pre ++ rest) st0 = arg_loop env rest st := by
  induction n with
  | zero =>
    intro pre hlen rest st0 st h
    have : pre = [] := List.eq_nil_of_length_eq_zero (by omega)
    subst this
    simp only [arg_loop] at h
    cases h
    rfl
  | succ n ih =>
    intro pre hlen rest st0 st h
    cases pre with
    | nil =>
      simp only [arg_loop] at h
      cases h
      rfl
    | cons a pre1 =>
      rw [arg_loop_cons] at h
      rw [List.cons_append, arg_loop_cons]
      split at h
      · cases h
      · rename_i hn1
        rw [if_neg hn1]
        split at h
        · rename_i hp2
          rw [if_pos hp2]
          exact ih pre1 (by simp at hlen; omega) rest _ st h
        · rename_i hn2
          rw [if_neg hn2]
          split at h
          · rename_i hp3
            rw [if_pos hp3]
            cases pre1 with
            | nil => cases h
            | cons s pre2 =>
              simp only at h
              simp only [List.cons_append]
              cases hs : env.sscanf_u s with
              | none => rw [hs] at h; cases h
              | some v =>
                rw [hs] at h
                simp only at h ⊢
                split at h
                · cases h
                · rename_i hle
                  rw [if_neg hle]
                  split at h
                  · cases h
                  · rename_i hne
                    rw [if_neg hne]
                    exact ih pre2 (by simp at hlen; omega) rest _ st h
          · rename_i hn3
            rw [if_neg hn3]
            exact ih pre1 (by simp at hlen; omega) rest _ st h

/-- The argument loop on arguments that follow a run of the loop over `pre`. -/
theorem arg_loop_append (env : Env) (pre rest : List String) (st0 st : ArgState)
    (h : arg_loop env pre st0 = .done st) :
    arg_loop env (pre ++ rest) st0 = arg_loop env rest st :=
  arg_loop_append_aux env pre.length pre (Nat.le_refl _) rest st0 st h

/-! ## The run of `main` -/

/-- The first part of a run of `main` in which every `malloc` returns a block: the
buffer is created, the scanner loop ends by the `break`, and the buffer then holds the
records of the last `c` logical lines. -/
theorem main_body_scan (malloc : Nat → Bool) (c : Nat) (input : List Byte) (h1 : 1 ≤ c)
    (h2 : c + 1 < UINT_RANGE)
    (hm : ∀ k, k < 2 + input.count 10 → malloc k = true) :
    ∃ cb st, cb_create (malloc 0) c = some (some cb) ∧ malloc 1 = true ∧
      scan_loop malloc input (scan_init cb) = some (.finished st) ∧
      cb_wf st.buffer ∧ st.buffer.size = c ∧
      cb_held st.buffer = (last_n c (logical_lines input)).map record_of ∧
      st.warnings = warn_count 0 ((logical_lines input).countP overlong) := by
  obtain ⟨cb, hcr, hwf, hsz, _, _, _, hc0⟩ := cb_create_spec (α := LineBuf) c h1 h2
  obtain ⟨st, fr, e, hscan, _, hput, he, hw, _⟩ :=
    scan_loop_spec malloc input (scan_init cb) [] (scan_rel_init cb hwf)
      (fun k _ hk => hm k hk)
  simp only [List.nil_append, List.length_nil] at hput he
  obtain ⟨cb1, hput1, hwf1, hsz1, hc1⟩ :=
    cb_put_all_spec ((logical_lines input).map record_of) cb hwf
  have hput0 : cb_put_all cb (((logical_lines input).map record_of).map some)
      = some (st.buffer, fr) := hput
  rw [hput0] at hput1
  have hb : st.buffer = cb1 := by injection hput1 with h3; injection h3
  rw [← hb] at hwf1 hsz1 hc1
  rw [hc0, hsz, List.nil_append, last_n_map, last_n_map] at hc1
  refine ⟨cb, st, by rw [hm 0 (by omega)]; exact hcr, hm 1 (by omega), hscan, hwf1,
    by rw [hsz1, hsz], cb_held_of_contents _ _ hc1, ?_⟩
  rw [hw]
  have : e = (logical_lines input).countP overlong := by
    simpa using he
  rw [this]
  simp [scan_init]

/-- The run of `main` after argument processing in which every `malloc` returns a block,
for every input: it returns `0`, writes the printed bytes of the last `c` logical lines,
and prints one warning per `2^32` overlong lines, rounded up. -/
theorem main_body_ok (malloc : Nat → Bool) (c : Nat) (input : List Byte) (h1 : 1 ≤ c)
    (h2 : c + 1 < UINT_RANGE)
    (hm : ∀ k, k < 2 + input.count 10 → malloc k = true) :
    ∃ o, main_body malloc c input = some o ∧
      o.stdout = ((last_n c (logical_lines input)).map LogicalLine.printed).flatten ∧
      o.status = 0 ∧
      o.warnings = warn_count 0 ((logical_lines input).countP overlong) ∧
      o.errors = [] := by
  obtain ⟨cb, st, hcr, hm1, hscan, hwf1, hsz1, hheld, hw⟩ :=
    main_body_scan malloc c input h1 h2 hm
  have hle := cb_count_le st.buffer hwf1
  have hdrain := drain_loop_spec print_and_free (cb_true_size st.buffer + 1) st.buffer
    ([], st.freed) hwf1 (by rw [cb_true_size_eq _ hwf1]; omega)
  rw [hheld, foldlM_print_and_free_total] at hdrain
  have hmain : main_body malloc c input = some
      (Outcome.mk ([] ++ ((last_n c (logical_lines input)).map LogicalLine.printed).flatten)
        st.warnings [] 0
        (st.freed ++ ((last_n c (logical_lines input)).map record_of).map some ++ [])) := by
    unfold main_body
    rw [hcr]
    have hfree : cb_free (α := LineBuf) { st.buffer with start := st.buffer.end_ }
        = some ({ st.buffer with start := st.buffer.end_ }, []) :=
      cb_free_drained _ rfl
    simp only [hm1, if_true, hscan, hdrain, Option.map_some', hfree]
  exact ⟨_, hmain, by simp, rfl, hw, rfl⟩

/-- The run of `main` in which every `malloc` returns a block, on an input without NUL
byte: it returns `0`, writes the stored bytes of the last `c` logical lines, and prints
one warning per `2^32` overlong lines, rounded up. -/
theorem main_body_spec (malloc : Nat → Bool) (c : Nat) (input : List Byte) (h1 : 1 ≤ c)
    (h2 : c + 1 < UINT_RANGE) (hm : ∀ k, k < 2 + input.count 10 → malloc k = true)
    (hnul : ∀ b ∈ input, b ≠ 0) :
    ∃ o, main_body malloc c input = some o ∧
      o.stdout = ((last_n c (logical_lines input)).map LogicalLine.stored).flatten ∧
      o.status = 0 ∧
      o.warnings = warn_count 0 ((logical_lines input).countP overlong) ∧
      o.errors = [] := by
  obtain ⟨cb, st, hcr, hm1, hscan, hwf1, hsz1, hheld, hw⟩ :=
    main_body_scan malloc c input h1 h2 hm
  have hno : ∀ l ∈ last_n c (logical_lines input),
      ∀ b ∈ l.content.take LINE_LENGTH_LIMIT, b ≠ 0 ∧ b ≠ 10 := by
    intro l hl b hb
    have hl2 := last_n_subset _ _ _ hl
    have hb2 := List.mem_of_mem_take hb
    exact ⟨hnul b (logical_lines_content_mem input l hl2 b hb2),
      logical_lines_no_newline input l hl2 b hb2⟩
  have hle := cb_count_le st.buffer hwf1
  have hdrain := drain_loop_spec print_and_free (cb_true_size st.buffer + 1) st.buffer
    ([], st.freed) hwf1 (by rw [cb_true_size_eq _ hwf1]; omega)
  rw [hheld, foldlM_print_and_free _ hno] at hdrain
  have hmain : main_body malloc c input = some
      (Outcome.mk ([] ++ ((last_n c (logical_lines input)).map LogicalLine.stored).flatten)
        st.warnings [] 0
        (st.freed ++ ((last_n c (logical_lines input)).map record_of).map some ++ [])) := by
    unfold main_body
    rw [hcr]
    have hfree : cb_free (α := LineBuf) { st.buffer with start := st.buffer.end_ }
        = some ({ st.buffer with start := st.buffer.end_ }, []) :=
      cb_free_drained _ rfl
    simp only [hm1, if_true, hscan, hdrain, Option.map_some', hfree]
  exact ⟨_, hmain, by simp, rfl, hw, rfl⟩

/-- The run of `main` after argument processing in which some `malloc` returns no block:
it writes nothing to standard output, reports the `Memory error` and returns
`EXIT_FAILURE`. -/
theorem main_body_fail (malloc : Nat → Bool) (c : Nat) (input : List Byte) (h1 : 1 ≤ c)
    (h2 : c + 1 < UINT_RANGE)
    (hm : ∃ k, k < 2 + input.count 10 ∧ malloc k = false) :
    ∃ o, main_body malloc c input = some o ∧ o.stdout = [] ∧
      o.status = EXIT_FAILURE ∧
      (o.errors = ["cb_create: Memory error\n"] ∨ o.errors = ["main: Memory error\n"]) := by
  cases h0 : malloc 0 with
  | false =>
    have hmain : main_body malloc c input
        = some (Outcome.mk [] 0 ["cb_create: Memory error\n"] EXIT_FAILURE []) := by
      unfold main_body
      rw [h0, cb_create_null c (by omega)]
    exact ⟨_, hmain, rfl, rfl, Or.inl rfl⟩
  | true =>
    obtain ⟨cb, hcr, hwf, _, hs0, he0, _, _⟩ := cb_create_spec (α := LineBuf) c h1 h2
    cases h1m : malloc 1 with
    | false =>
      have hmain : main_body malloc c input
          = some (Outcome.mk [] 0 ["main: Memory error\n"] EXIT_FAILURE []) := by
        unfold main_body
        rw [h0, hcr]
        simp only [h1m, Bool.false_eq_true, if_false,
          cb_free_drained cb (by rw [hs0, he0])]
      exact ⟨_, hmain, rfl, rfl, Or.inr rfl⟩
    | true =>
      obtain ⟨r, hscan, _, hfin, _⟩ :=
        scan_loop_total malloc input (scan_init cb) [] (scan_rel_init cb hwf)
      cases r with
      | finished st =>
        exfalso
        obtain ⟨k, hk, hkf⟩ := hm
        have hall := hfin st rfl
        have hkt : malloc k = true := by
          by_cases hk0 : k = 0
          · rw [hk0]; exact h0
          · by_cases hk1 : k = 1
            · rw [hk1]; exact h1m
            · exact hall k (by show 2 ≤ k; omega) (by show k < 2 + _; omega)
        rw [hkf] at hkt
        exact Bool.noConfusion hkt
      | memory_error st =>
        have hmain : main_body malloc c input
            = some (Outcome.mk [] st.warnings ["main: Memory error\n"] EXIT_FAILURE
                st.freed) := by
          unfold main_body
          rw [h0, hcr]
          simp only [h1m, if_true, hscan]
        exact ⟨_, hmain, rfl, rfl, Or.inr rfl⟩

/-- The part of `main` after argument processing returns for every input and every
behaviour of `malloc`. -/
theorem main_body_total (malloc : Nat → Bool) (c : Nat) (input : List Byte) (h1 : 1 ≤ c)
    (h2 : c + 1 < UINT_RANGE) :
    ∃ o, main_body malloc c input = some o := by
  by_cases hm : ∀ k, k < 2 + input.count 10 → malloc k = true
  · obtain ⟨o, hmain, _⟩ := main_body_ok malloc c input h1 h2 hm
    exact ⟨o, hmain⟩
  · obtain ⟨o, hmain, _⟩ := main_body_fail malloc c input h1 h2 (by
      by_contra hno
      apply hm
      intro k hk
      cases hv : malloc k with
      | true => rfl
      | false => exact absurd ⟨k, hk, hv⟩ hno)
    exact ⟨o, hmain⟩

/-- The input `"a\nb\nc\nd\n"` with capacity 2 gives `"c\nd\n"`. -/
theorem main_body_sample_tail :
    (main_body malloc_ok 2 sample_input).map Outcome.stdout = some [99, 10, 100, 10] := by
  rfl

/-- The input `"a\nb"` with capacity 10 gives `"a\nb"`. -/
theorem main_body_sample_whole :
    (main_body malloc_ok 10 [97, 10, 98]).map Outcome.stdout = some [97, 10, 98] := by
  rfl

/-- The logical lines of `limit_input`: an overlong terminated line and an unterminated
line of exactly `LINE_LENGTH_LIMIT` bytes. -/
theorem limit_input_lines :
    logical_lines limit_input
      = [{ content := List.replicate (LINE_LENGTH_LIMIT + 1) 97, terminated := true },
         { content := List.replicate LINE_LENGTH_LIMIT 98, terminated := false }] := by
  unfold limit_input
  rw [logical_lines_newline _ _ (by
    intro b hb
    rw [List.eq_of_mem_replicate hb]
    decide)]
  rw [logical_lines_last _ (by
    intro b hb
    rw [List.eq_of_mem_replicate hb]
    decide) (by
    intro h
    have hl := congrArg List.length h
    rw [List.length_replicate, List.length_nil] at hl
    unfold LINE_LENGTH_LIMIT at hl
    omega)]

/-- The input `limit_input` has one newline. -/
theorem limit_input_newlines : limit_input.count 10 = 1 := by
  unfold limit_input
  rw [List.count_append, List.count_cons_self, List.count_replicate,
    List.count_replicate]
  simp

theorem countP_replicate_true {β : Type} (p : β → Bool) (x : β) (hx : p x = true) (n : Nat) :
    (List.replicate n x).countP p = n := by
  induction n with
  | zero => rfl
  | succ n ih => rw [List.replicate_succ, List.countP_cons_of_pos _ _ hx, ih]

/-- Every line of the flood input is overlong. -/
theorem flood_overlong (n : Nat) :
    (logical_lines (flood_input n)).countP overlong = n := by
  unfold flood_input
  rw [logical_lines_replicate _ (by
    intro b hb
    rw [List.eq_of_mem_replicate hb]
    decide)]
  apply countP_replicate_true
  unfold overlong
  rw [List.length_replicate]
  simp

theorem flood_no_nul (n : Nat) : ∀ b ∈ flood_input n, b ≠ 0 := by
  intro b hb
  unfold flood_input at hb
  rw [List.mem_flatten] at hb
  obtain ⟨l, hl, hbl⟩ := hb
  rw [List.eq_of_mem_replicate hl, List.mem_append, List.mem_singleton] at hbl
  rcases hbl with hbl | hbl
  · rw [List.eq_of_mem_replicate hbl]; decide
  · rw [hbl]; decide

/-! ## The claims -/

/-- C1 (as amended): in a run in which every call of `malloc` returns a block (the call
in `cb_create`, the call for the first line block and one call after every newline), for
every capacity `c` with `1 <= c <= BUFFER_SIZE_LIMIT` and every input without a NUL byte
whose logical lines have at most `LINE_LENGTH_LIMIT` bytes before their terminator,
`main` returns `0` and writes exactly the last `c` logical lines of the input, each with
its terminator state: the whole input when it has at most `c` lines, and otherwise what
remains after its first `L - c` lines. -/
theorem tail_end_to_end (malloc : Nat → Bool) (c : Nat) (input : List Byte) (h1 : 1 ≤ c)
    (h2 : c ≤ BUFFER_SIZE_LIMIT) (hnul : ∀ b ∈ input, b ≠ 0)
    (hlen : ∀ l ∈ logical_lines input, l.content.length ≤ LINE_LENGTH_LIMIT)
    (hmem : ∀ k, k < 2 + input.count 10 → malloc k = true) :
    ∃ o, main_body malloc c input = some o ∧ o.status = 0 ∧
      o.stdout = ((last_n c (logical_lines input)).map LogicalLine.bytes).flatten ∧
      ((logical_lines input).length ≤ c → o.stdout = input) ∧
      (c < (logical_lines input).length →
        o.stdout = (((logical_lines input).drop ((logical_lines input).length - c)).map
          LogicalLine.bytes).flatten ∧
        input = (((logical_lines input).take ((logical_lines input).length - c)).map
          LogicalLine.bytes).flatten ++ o.stdout) := by
  obtain ⟨o, hmain, hout, hst, _⟩ := main_body_spec malloc c input h1
    (by unfold UINT_RANGE; unfold BUFFER_SIZE_LIMIT at h2; omega) hmem hnul
  have hmap : (last_n c (logical_lines input)).map LogicalLine.stored
      = (last_n c (logical_lines input)).map LogicalLine.bytes :=
    List.map_congr_left fun l hl => stored_eq_bytes l (hlen l (last_n_subset _ _ _ hl))
  rw [hmap] at hout
  refine ⟨o, hmain, hst, hout, ?_, ?_⟩
  · intro hle
    rw [hout, last_n_of_le _ _ hle, logical_lines_join]
  · intro _
    refine ⟨hout, ?_⟩
    rw [hout]
    unfold last_n
    rw [← List.flatten_append, ← List.map_append, List.take_append_drop, logical_lines_join]

/-- C1, witness: input `"a\nb\nc\nd\n"` with capacity 2 and every `malloc` returning a
block. -/
theorem tail_end_to_end_witness :
    (1 ≤ 2 ∧ 2 ≤ BUFFER_SIZE_LIMIT ∧
      (∀ b ∈ sample_input, b ≠ 0) ∧
      (∀ l ∈ logical_lines sample_input,
        l.content.length ≤ LINE_LENGTH_LIMIT) ∧
      (∀ k, k < 2 + sample_input.count 10 → malloc_ok k = true)) ∧
    ∃ o, main_body malloc_ok 2 sample_input = some o ∧ o.status = 0 ∧
      o.stdout
        = ((last_n 2 (logical_lines sample_input)).map LogicalLine.bytes).flatten ∧
      ((logical_lines sample_input).length ≤ 2 →
        o.stdout = sample_input) ∧
      (2 < (logical_lines sample_input).length →
        o.stdout = (((logical_lines sample_input).drop
          ((logical_lines sample_input).length - 2)).map
            LogicalLine.bytes).flatten ∧
        sample_input = (((logical_lines sample_input).take
          ((logical_lines sample_input).length - 2)).map
            LogicalLine.bytes).flatten ++ o.stdout) :=
  ⟨⟨by decide, by decide, by simp [sample_input], by unfold LINE_LENGTH_LIMIT; decide,
      fun _ _ => rfl⟩,
    tail_end_to_end malloc_ok 2 sample_input (by decide) (by decide)
      (by simp [sample_input]) (by unfold LINE_LENGTH_LIMIT; decide) (fun _ _ => rfl)⟩

/-- C1, counterexample: the capacity `4200000000` and the input `"a\nb\nc\nd\n"` of four
lines, when `malloc` returns no block for the buffer: `cb_create` returns `NULL`, and
`main` reports `cb_create: Memory error` and returns `EXIT_FAILURE` with nothing written
to standard output, not the whole input. -/
theorem tail_without_buffer_block :
    (1 ≤ 4200000000 ∧ 4200000000 ≤ BUFFER_SIZE_LIMIT ∧
      (∀ b ∈ sample_input, b ≠ 0) ∧
      (∀ l ∈ logical_lines sample_input, l.content.length ≤ LINE_LENGTH_LIMIT) ∧
      (logical_lines sample_input).length ≤ 4200000000) ∧
    main_body (malloc_fails_at 0) 4200000000 sample_input
      = some { stdout := [], warnings := 0, errors := ["cb_create: Memory error\n"],
               status := EXIT_FAILURE, freed := [] } ∧
    ¬ ∃ o, main_body (malloc_fails_at 0) 4200000000 sample_input = some o ∧
      o.stdout = sample_input := by
  have hrun : main_body (malloc_fails_at 0) 4200000000 sample_input
      = some { stdout := [], warnings := 0, errors := ["cb_create: Memory error\n"],
               status := EXIT_FAILURE, freed := [] } := by
    rfl
  refine ⟨⟨by decide, by decide, by simp [sample_input],
    by unfold LINE_LENGTH_LIMIT; decide, by decide⟩, hrun, ?_⟩
  rintro ⟨o, ho, hout⟩
  rw [hrun] at ho
  have h := Option.some.inj ho
  rw [← h] at hout
  exact absurd hout (by simp [sample_input])

/-- C2 (as amended): for every capacity `c` with `1 <= c` and `c + 1` representable in
`unsigned`, and every sequence `xs` of non-`NULL` lines, putting `xs` into the buffer
returned by `cb_create(c)` and draining it with `cb_get` returns exactly the last
`min(L, c)` lines of `xs` in insertion order. -/
theorem fifo_last_retained (c : Nat) (xs : List α) (h1 : 1 ≤ c) (h2 : c + 1 < UINT_RANGE) :
    put_then_drain c (xs.map some) = some (last_n c xs) ∧
    (last_n c xs).length = min xs.length c ∧
    (xs.length ≤ c → last_n c xs = xs) ∧
    (c < xs.length → last_n c xs = xs.drop (xs.length - c)) := by
  refine ⟨?_, last_n_length c xs, last_n_of_le c xs, fun _ => rfl⟩
  obtain ⟨cb, hcr, hwf, hsz, _, _, _, hc0⟩ := cb_create_spec (α := α) c h1 h2
  obtain ⟨cb1, hput, hwf1, hsz1, hc1⟩ := cb_put_all_spec xs cb hwf
  have hle := cb_count_le cb1 hwf1
  have hheld : cb_held cb1 = last_n c xs := by
    apply cb_held_of_contents
    rw [hc1, hc0, hsz, List.nil_append]
    unfold last_n
    rw [List.length_map, List.map_drop]
  unfold put_then_drain
  rw [hcr]
  simp only [hput]
  rw [cb_drain_spec _ cb1 hwf1 (by rw [cb_true_size_eq cb1 hwf1]; omega), hheld]
  rfl

/-- C2, witness: `A, B, C, D` into a buffer of capacity 2 drains as `[C, D]`. -/
theorem fifo_last_retained_witness :
    (1 ≤ 2 ∧ 2 + 1 < UINT_RANGE) ∧
    put_then_drain 2 ([65, 66, 67, 68].map some) = some (last_n 2 [65, 66, 67, 68]) ∧
    (last_n 2 [65, 66, 67, 68]).length = min [65, 66, 67, 68].length 2 ∧
    ([65, 66, 67, 68].length ≤ 2 → last_n 2 [65, 66, 67, 68] = [65, 66, 67, 68]) ∧
    (2 < [65, 66, 67, 68].length →
      last_n 2 [65, 66, 67, 68] = [65, 66, 67, 68].drop ([65, 66, 67, 68].length - 2)) :=
  ⟨by decide, fifo_last_retained 2 [65, 66, 67, 68] (by decide) (by decide)⟩

/-- C2, counterexample: for the capacity `4294967295 >= 1` the real size `c + 1` wraps
to `0`, `cb_create` allocates no slot and the first `cb_put` divides by zero: one line
put into that buffer is not returned by the drain. -/
theorem fifo_capacity_wraps :
    ¬ (put_then_drain 4294967295 ([65].map some) = some (last_n 4294967295 [65])) := by
  decide

/-- C3: `cb_put` on a well-formed buffer with a non-`NULL` line.  With fewer than
`size` held records nothing is freed and the line is appended to the contents; with
exactly `size` held records exactly the oldest one is freed and the contents become the
old contents without their head, with the line appended.  In both cases the line is the
last element. -/
theorem cb_put_contract (cb : circ_bfr α) (line : α) (h : cb_wf cb) :
    ∃ cb1 freed, cb_put cb (some line) = some (cb1, freed) ∧
      ((cb_contents cb).length < cb.size →
        freed = [] ∧ cb_contents cb1 = cb_contents cb ++ [some line]) ∧
      ((cb_contents cb).length = cb.size →
        ∃ old rest, cb_contents cb = old :: rest ∧ freed = [old] ∧
          cb_contents cb1 = rest ++ [some line]) ∧
      (cb_contents cb1).getLast? = some (some line) := by
  obtain ⟨cb1, hput, _, _, hc⟩ := cb_put_spec cb h line
  have h1 := h.1
  rw [← cb_contents_length] at hput hc
  refine ⟨cb1, _, hput, ?_, ?_, ?_⟩
  · intro hlt
    rw [if_neg (by omega)] at hc
    rw [if_neg (by omega)]
    exact ⟨rfl, hc⟩
  · intro heq
    rw [if_pos heq] at hc
    rw [if_pos heq]
    cases hcs : cb_contents cb with
    | nil => rw [hcs] at heq; simp at heq; omega
    | cons old rest =>
      rw [hcs] at hc
      exact ⟨old, rest, rfl, rfl, hc⟩
  · rw [hc]; simp

/-- C3, witness: a full buffer of capacity 2. -/
theorem cb_put_contract_witness :
    cb_wf sample_full ∧
    ∃ cb1 freed, cb_put sample_full (some 9) = some (cb1, freed) ∧
      ((cb_contents sample_full).length < sample_full.size →
        freed = [] ∧ cb_contents cb1 = cb_contents sample_full ++ [some 9]) ∧
      ((cb_contents sample_full).length = sample_full.size →
        ∃ old rest, cb_contents sample_full = old :: rest ∧ freed = [old] ∧
          cb_contents cb1 = rest ++ [some 9]) ∧
      (cb_contents cb1).getLast? = some (some 9) :=
  ⟨by decide, cb_put_contract sample_full 9 (by decide)⟩

/-- C4: `cb_get` on a well-formed buffer returns `NULL` exactly when no record is held,
and then leaves the buffer as it is; otherwise it returns the oldest held record and
the buffer afterwards holds the remaining records in the same order, one fewer. -/
theorem cb_get_contract (cb : circ_bfr α) (h : cb_wf cb) :
    ∃ r cb1, cb_get cb = some (r, cb1) ∧
      (r = none ↔ cb_contents cb = []) ∧
      (cb_contents cb = [] → cb1 = cb) ∧
      (cb_contents cb ≠ [] →
        cb_contents cb = r :: cb_contents cb1 ∧
        (cb_contents cb1).length + 1 = (cb_contents cb).length) := by
  by_cases he : cb_count cb = 0
  · have hnil : cb_contents cb = [] :=
      List.eq_nil_of_length_eq_zero (by rw [cb_contents_length, he])
    exact ⟨none, cb, cb_get_empty cb h he, by simp [hnil], fun _ => rfl,
      fun hne => absurd hnil hne⟩
  · obtain ⟨x, cb1, hget, _, _, hc⟩ := cb_get_nonempty cb h he
    refine ⟨some x, cb1, hget, ?_, ?_, ?_⟩
    · rw [hc]; simp
    · intro hnil; rw [hnil] at hc; simp at hc
    · intro _; rw [hc]; simp

/-- C4, witness: a full buffer of capacity 2. -/
theorem cb_get_contract_witness :
    cb_wf sample_full ∧
    ∃ r cb1, cb_get sample_full = some (r, cb1) ∧
      (r = none ↔ cb_contents sample_full = []) ∧
      (cb_contents sample_full = [] → cb1 = sample_full) ∧
      (cb_contents sample_full ≠ [] →
        cb_contents sample_full = r :: cb_contents cb1 ∧
        (cb_contents cb1).length + 1 = (cb_contents sample_full).length) :=
  ⟨by decide, cb_get_contract sample_full (by decide)⟩

/-- C5 (as amended): for every `n` with `1 <= n` and `n + 1` representable in
`unsigned`, `cb_create(n)` returns, in the block that `malloc` gave it, a buffer with
`size = n` and `count = 0` that satisfies the count invariant; every `cb_put` and
`cb_get` on a well-formed buffer returns a well-formed buffer, which satisfies the count
invariant; and every sequence of calls from the buffer returned by `cb_create(n)` runs
without a slot access outside the `n + 1` slots and ends in a buffer that satisfies the
count invariant. -/
theorem count_invariant (n : Nat) (h1 : 1 ≤ n) (h2 : n + 1 < UINT_RANGE) :
    (∃ cb : circ_bfr α, cb_create true n = some (some cb) ∧ cb.size = n ∧
      cb_count cb = 0 ∧ count_inv cb ∧ cb_wf cb) ∧
    (∀ cb : circ_bfr α, cb_wf cb → count_inv cb) ∧
    (∀ (op : BufOp α) (cb : circ_bfr α), cb_wf cb →
      ∃ cb1, op.apply cb = some cb1 ∧ cb_wf cb1 ∧ count_inv cb1) ∧
    (∀ ops : List (BufOp α), ∃ cb0 cb : circ_bfr α,
      cb_create true n = some (some cb0) ∧ run_ops ops cb0 = some cb ∧
      count_inv cb ∧ cb.size = n ∧ cb.lines.length = n + 1 ∧ cb_count cb ≤ n) := by
  obtain ⟨cb, hcr, hwf, hsz, _, _, hc0, _⟩ := cb_create_spec (α := α) n h1 h2
  refine ⟨⟨cb, hcr, hsz, hc0, cb_wf_count_inv cb hwf, hwf⟩, cb_wf_count_inv, ?_, ?_⟩
  · intro op cb0 h0
    obtain ⟨cb1, ha, hwf1, _⟩ := bufop_apply_wf op cb0 h0
    exact ⟨cb1, ha, hwf1, cb_wf_count_inv cb1 hwf1⟩
  · intro ops
    obtain ⟨cb1, hr, hwf1, hsz1⟩ := run_ops_wf ops cb hwf
    have hb := cb_wf_bounds cb1 hwf1
    have hle := cb_count_le cb1 hwf1
    rw [hsz1, hsz] at hb hle
    exact ⟨cb, cb1, hcr, hr, cb_wf_count_inv cb1 hwf1, by rw [hsz1, hsz],
      hb.2.2.2.2, hle⟩

/-- C5, witness: capacity 2. -/
theorem count_invariant_witness :
    (1 ≤ 2 ∧ 2 + 1 < UINT_RANGE) ∧
    ((∃ cb : circ_bfr Nat, cb_create true 2 = some (some cb) ∧ cb.size = 2 ∧
      cb_count cb = 0 ∧ count_inv cb ∧ cb_wf cb) ∧
    (∀ cb : circ_bfr Nat, cb_wf cb → count_inv cb) ∧
    (∀ (op : BufOp Nat) (cb : circ_bfr Nat), cb_wf cb →
      ∃ cb1, op.apply cb = some cb1 ∧ cb_wf cb1 ∧ count_inv cb1) ∧
    (∀ ops : List (BufOp Nat), ∃ cb0 cb : circ_bfr Nat,
      cb_create true 2 = some (some cb0) ∧ run_ops ops cb0 = some cb ∧
      count_inv cb ∧ cb.size = 2 ∧ cb.lines.length = 2 + 1 ∧ cb_count cb ≤ 2)) :=
  ⟨by decide, count_invariant 2 (by decide) (by decide)⟩

/-- C5, counterexample: `cb_create(4294967295)` returns a buffer, but its real size
`size + 1` is `0` in `unsigned` and it has no slot; the first `cb_put` on it divides by
zero, so no buffer satisfying the invariant results. -/
theorem count_invariant_capacity_wraps :
    ¬ ∃ cb0 cb : circ_bfr Nat,
      cb_create true 4294967295 = some (some cb0) ∧
      run_ops [BufOp.put 7] cb0 = some cb ∧ count_inv cb := by
  have h : (cb_create true 4294967295).bind
        (fun p => p.bind (run_ops [BufOp.put 7]))
      = (none : Option (circ_bfr Nat)) := by decide
  rintro ⟨cb0, cb, hcr, hrun, _⟩
  rw [hcr] at h
  simp only [Option.some_bind] at h
  rw [hrun] at h
  exact Option.noConfusion h

/-- C6 (as amended): in a run in which every call of `malloc` returns a block, for every
input whose logical lines have at most `LINE_LENGTH_LIMIT` bytes, the scanner loop
passes to `cb_put` exactly the records of the logical lines of the input, each holding
its whole content followed by `'\n'`, or by `'\0'` when the line has no terminator.  The
logical lines concatenate to the input, contain no newline in their content, number one
terminated line per newline of the input, lack a terminator only in the last place, and
only when bytes follow the last newline; no empty unterminated record exists.  An empty
input gives no record, no output and exit status `0`. -/
theorem line_framing (malloc : Nat → Bool) (input : List Byte) (cb : circ_bfr LineBuf)
    (hwf : cb_wf cb)
    (hlen : ∀ l ∈ logical_lines input, l.content.length ≤ LINE_LENGTH_LIMIT)
    (hmem : ∀ k, k < 2 + input.count 10 → malloc k = true) :
    (∃ st, scan_loop malloc input (scan_init cb) = some (.finished st) ∧
      st.emitted = (logical_lines input).map record_of ∧
      st.emitted = (logical_lines input).map fun l =>
        { cap := LINE_LENGTH_LIMIT + 1,
          cells := l.content.map some ++ [some (if l.terminated then 10 else 0)] }) ∧
    ((logical_lines input).map LogicalLine.bytes).flatten = input ∧
    (∀ l ∈ logical_lines input, ∀ b ∈ l.content, b ≠ 10) ∧
    (logical_lines input).countP (fun l => l.terminated) = input.count 10 ∧
    (∀ l ∈ (logical_lines input).dropLast, l.terminated = true) ∧
    (∀ l ∈ logical_lines input, l.terminated = false → l.content ≠ []) ∧
    (logical_lines input).getLast?.map (fun l => l.terminated)
      = input.getLast?.map (fun b => decide (b = 10)) ∧
    (∃ st, scan_loop malloc [] (scan_init cb) = some (.finished st) ∧ st.emitted = []) ∧
    (∀ c, 1 ≤ c → c ≤ BUFFER_SIZE_LIMIT →
      ∃ o, main_body malloc c [] = some o ∧ o.stdout = [] ∧ o.status = 0 ∧
        o.warnings = 0 ∧ o.errors = []) := by
  obtain ⟨st, _, _, hscan, hem, _⟩ :=
    scan_loop_spec malloc input (scan_init cb) [] (scan_rel_init cb hwf)
      (fun k _ hk => hmem k hk)
  obtain ⟨st0, _, _, hscan0, hem0, _⟩ :=
    scan_loop_spec malloc [] (scan_init cb) [] (scan_rel_init cb hwf)
      (fun k hk1 hk2 => by
        have hk1 : 2 ≤ k := hk1
        have hk2 : k < 2 + 0 := hk2
        omega)
  have hem1 : st.emitted = (logical_lines input).map record_of := by
    rw [hem]; rfl
  refine ⟨⟨st, hscan, hem1, ?_⟩, logical_lines_join input, logical_lines_no_newline input,
    logical_lines_count_newline input, logical_lines_init_terminated input,
    logical_lines_unterminated input, logical_lines_last_terminated input,
    ⟨st0, hscan0, by rw [hem0]; rfl⟩, ?_⟩
  · rw [hem1]
    apply List.map_congr_left
    intro l hl
    unfold record_of
    rw [List.take_of_length_le (hlen l hl)]
  · intro c h1 h2
    obtain ⟨o, hmain, hout, hst, hw, herr⟩ := main_body_spec malloc c [] h1
      (by unfold UINT_RANGE; unfold BUFFER_SIZE_LIMIT at h2; omega)
      (fun k hk => hmem k (by rw [List.count_nil] at hk; omega))
      (fun b hb => absurd hb (List.not_mem_nil b))
    refine ⟨o, hmain, ?_, hst, ?_, herr⟩
    · rw [hout]; simp [logical_lines, last_n]
    · rw [hw]; simp [logical_lines, warn_count]

/-- C6, witness: the input `"a\nb\nc\nd\n"`, an empty buffer of capacity 1 and every
`malloc` returning a block. -/
theorem line_framing_witness :
    (cb_wf sample_empty ∧
      (∀ l ∈ logical_lines sample_input, l.content.length ≤ LINE_LENGTH_LIMIT) ∧
      (∀ k, k < 2 + sample_input.count 10 → malloc_ok k = true)) ∧
    ((∃ st, scan_loop malloc_ok sample_input (scan_init sample_empty)
        = some (.finished st) ∧
      st.emitted = (logical_lines sample_input).map record_of ∧
      st.emitted = (logical_lines sample_input).map fun l =>
        { cap := LINE_LENGTH_LIMIT + 1,
          cells := l.content.map some ++ [some (if l.terminated then 10 else 0)] }) ∧
    ((logical_lines sample_input).map LogicalLine.bytes).flatten = sample_input ∧
    (∀ l ∈ logical_lines sample_input, ∀ b ∈ l.content, b ≠ 10) ∧
    (logical_lines sample_input).countP (fun l => l.terminated) = sample_input.count 10 ∧
    (∀ l ∈ (logical_lines sample_input).dropLast, l.terminated = true) ∧
    (∀ l ∈ logical_lines sample_input, l.terminated = false → l.content ≠ []) ∧
    (logical_lines sample_input).getLast?.map (fun l => l.terminated)
      = sample_input.getLast?.map (fun b => decide (b = 10)) ∧
    (∃ st, scan_loop malloc_ok [] (scan_init sample_empty) = some (.finished st) ∧
      st.emitted = []) ∧
    (∀ c, 1 ≤ c → c ≤ BUFFER_SIZE_LIMIT →
      ∃ o, main_body malloc_ok c [] = some o ∧ o.stdout = [] ∧ o.status = 0 ∧
        o.warnings = 0 ∧ o.errors = [])) :=
  ⟨⟨by decide, by unfold LINE_LENGTH_LIMIT; decide, fun _ _ => rfl⟩,
    line_framing malloc_ok sample_input sample_empty (by decide)
      (by unfold LINE_LENGTH_LIMIT; decide) (fun _ _ => rfl)⟩

/-- C6, counterexample: on the input `"a\nb\nc\nd\n"`, when the `malloc` after the
second newline returns no block, the scanner loop is left by `return EXIT_FAILURE` with
only the records of `"a\n"` and `"b\n"` passed to `cb_put`, not one record per newline;
and on the empty input, when `malloc` returns no block for the first line, `main`
returns `EXIT_FAILURE`, not `0`. -/
theorem framing_without_line_block :
    (cb_wf sample_empty ∧
      ∀ l ∈ logical_lines sample_input, l.content.length ≤ LINE_LENGTH_LIMIT) ∧
    (∃ st, scan_loop (malloc_fails_at 3) sample_input (scan_init sample_empty)
        = some (.memory_error st) ∧
      st.emitted = [{ cap := LINE_LENGTH_LIMIT + 1, cells := [some 97, some 10] },
                    { cap := LINE_LENGTH_LIMIT + 1, cells := [some 98, some 10] }] ∧
      st.emitted.length = 2 ∧ sample_input.count 10 = 4 ∧
      st.emitted ≠ (logical_lines sample_input).map record_of) ∧
    (main_body (malloc_fails_at 1) 10 []
      = some { stdout := [], warnings := 0, errors := ["main: Memory error\n"],
               status := EXIT_FAILURE, freed := [] } ∧
      EXIT_FAILURE ≠ 0) := by
  have hrun : ∃ st, scan_loop (malloc_fails_at 3) sample_input (scan_init sample_empty)
        = some (.memory_error st) ∧
      st.emitted = [{ cap := LINE_LENGTH_LIMIT + 1, cells := [some 97, some 10] },
                    { cap := LINE_LENGTH_LIMIT + 1, cells := [some 98, some 10] }] :=
    ⟨_, rfl, rfl⟩
  obtain ⟨st, hs, hem⟩ := hrun
  refine ⟨⟨by decide, by unfold LINE_LENGTH_LIMIT; decide⟩,
    ⟨st, hs, hem, by rw [hem]; rfl, by decide, ?_⟩, rfl, by decide⟩
  intro h
  have hl := congrArg List.length h
  rw [hem, List.length_map] at hl
  exact absurd hl (by decide)

/-- C7 (as amended): for every input, when every `malloc` of a line block returns one,
the scanner loop passes to `cb_put` one record per logical line: a line with more than
`LINE_LENGTH_LIMIT` bytes is stored as its first `LINE_LENGTH_LIMIT` bytes followed by
`'\n'` if a newline ended it and by `'\0'` otherwise, a line with at most
`LINE_LENGTH_LIMIT` bytes is stored whole; every record depends on its own line only,
and after each record the scanner continues with `idx = 0` and the overflow flag
cleared. -/
theorem overflow_truncation (malloc : Nat → Bool) (input : List Byte)
    (cb : circ_bfr LineBuf) (hwf : cb_wf cb)
    (hmem : ∀ k, 2 ≤ k → k < 2 + input.count 10 → malloc k = true) :
    (∃ st, scan_loop malloc input (scan_init cb) = some (.finished st) ∧
      st.emitted = (logical_lines input).map fun l =>
        { cap := LINE_LENGTH_LIMIT + 1,
          cells := (l.content.take LINE_LENGTH_LIMIT).map some
            ++ [some (if l.terminated then 10 else 0)] }) ∧
    (∀ l ∈ logical_lines input, LINE_LENGTH_LIMIT < l.content.length →
      (l.content.take LINE_LENGTH_LIMIT).length = LINE_LENGTH_LIMIT) ∧
    (∀ l ∈ logical_lines input, l.content.length ≤ LINE_LENGTH_LIMIT →
      l.content.take LINE_LENGTH_LIMIT = l.content) ∧
    (∀ (st : ScanState) (acc : List Byte) (t : Bool), scan_rel st acc →
      ∃ st1, scan_emit st (if t then 10 else 0) = some st1 ∧
        st1.idx = 0 ∧ st1.overflow = false) := by
  obtain ⟨st, _, _, hscan, hem, _⟩ :=
    scan_loop_spec malloc input (scan_init cb) [] (scan_rel_init cb hwf) hmem
  refine ⟨⟨st, hscan, by rw [hem]; rfl⟩, ?_, ?_, ?_⟩
  · intro l _ hl
    rw [List.length_take]; omega
  · intro l _ hl
    exact List.take_of_length_le hl
  · intro st0 acc t hrel
    obtain ⟨st1, _, hemit, _, _, _, hi, ho, _⟩ := scan_emit_spec st0 acc t hrel
    exact ⟨st1, hemit, hi, ho⟩

/-- C7, witness: the input of a line of `LINE_LENGTH_LIMIT + 1` bytes `'a'` ended by a
newline, which is truncated, and a line of exactly `LINE_LENGTH_LIMIT` bytes `'b'` ended
by the end of the input, which is stored whole; an empty buffer of capacity 1 and every
`malloc` returning a block. -/
theorem overflow_truncation_witness :
    (cb_wf sample_empty ∧
      (∀ k, 2 ≤ k → k < 2 + limit_input.count 10 → malloc_ok k = true) ∧
      logical_lines limit_input
        = [{ content := List.replicate (LINE_LENGTH_LIMIT + 1) 97, terminated := true },
           { content := List.replicate LINE_LENGTH_LIMIT 98, terminated := false }]) ∧
    ((∃ st, scan_loop malloc_ok limit_input (scan_init sample_empty)
        = some (.finished st) ∧
      st.emitted = (logical_lines limit_input).map fun l =>
        { cap := LINE_LENGTH_LIMIT + 1,
          cells := (l.content.take LINE_LENGTH_LIMIT).map some
            ++ [some (if l.terminated then 10 else 0)] }) ∧
    (∀ l ∈ logical_lines limit_input, LINE_LENGTH_LIMIT < l.content.length →
      (l.content.take LINE_LENGTH_LIMIT).length = LINE_LENGTH_LIMIT) ∧
    (∀ l ∈ logical_lines limit_input, l.content.length ≤ LINE_LENGTH_LIMIT →
      l.content.take LINE_LENGTH_LIMIT = l.content) ∧
    (∀ (st : ScanState) (acc : List Byte) (t : Bool), scan_rel st acc →
      ∃ st1, scan_emit st (if t then 10 else 0) = some st1 ∧
        st1.idx = 0 ∧ st1.overflow = false)) :=
  ⟨⟨by decide, fun _ _ _ => rfl, limit_input_lines⟩,
    overflow_truncation malloc_ok limit_input sample_empty (by decide)
      (fun _ _ _ => rfl)⟩

/-- C7, counterexample: on the same input, when the `malloc` after the newline returns
no block, the scanner loop is left by `return EXIT_FAILURE` after the record of the
first line: the line of exactly `LINE_LENGTH_LIMIT` bytes `'b'` is read no more and no
record of it is stored. -/
theorem truncation_without_line_block :
    cb_wf sample_empty ∧
    (logical_lines limit_input).length = 2 ∧
    ∃ st, scan_loop (malloc_fails_at 2) limit_input (scan_init sample_empty)
        = some (.memory_error st) ∧
      st.emitted = [record_of { content := List.replicate (LINE_LENGTH_LIMIT + 1) 97,
                                terminated := true }] ∧
      st.emitted.length ≠ (logical_lines limit_input).length := by
  obtain ⟨st, hem, hs⟩ := scan_loop_memory_error (malloc_fails_at 2)
    (List.replicate (LINE_LENGTH_LIMIT + 1) 97) (scan_init sample_empty) []
    (scan_rel_init sample_empty (by decide))
    (by
      intro b hb
      rw [List.eq_of_mem_replicate hb]
      decide)
    rfl
  have hem1 : st.emitted
      = [record_of { content := List.replicate (LINE_LENGTH_LIMIT + 1) 97,
                     terminated := true }] := hem
  refine ⟨by decide, by rw [limit_input_lines]; rfl, st, hs _, hem1, ?_⟩
  rw [hem1, limit_input_lines]
  decide

/-- C8, the code at a failing input: for the input of `4294967297` lines of
`LINE_LENGTH_LIMIT + 1` bytes each, every line overflows, the counter
`overflow_happened` is `0` again after `4294967296` increments, and `main` with the
default buffer size, every `malloc` returning a block, prints the warning twice. -/
theorem warning_repeats_after_wrap :
    (logical_lines (flood_input 4294967297)).countP overlong = 4294967297 ∧
    ∃ o, main_body malloc_ok DEFAULT_LINES_BUFFER_SIZE (flood_input 4294967297)
        = some o ∧
      o.warnings = 2 := by
  refine ⟨flood_overlong _, ?_⟩
  obtain ⟨o, hmain, _, _, hw, _⟩ := main_body_spec malloc_ok
    DEFAULT_LINES_BUFFER_SIZE (flood_input 4294967297) (by decide) (by decide)
    (fun _ _ => rfl) (flood_no_nul _)
  refine ⟨o, hmain, ?_⟩
  rw [hw, flood_overlong, warn_count_closed]

/-- C9 (as amended): for every record the scanner loop can produce from accumulated
bytes `bs` (at most `LINE_LENGTH_LIMIT` bytes, none a newline) that contain no NUL
byte, stored at indices `0 .. k - 1` with `'\n'` or `'\0'` at index `k`, `print_line`
appends to standard output exactly the bytes `bs`, followed by `'\n'` if the terminator
is present and by nothing if it is absent. -/
theorem print_line_verbatim (bs : List Byte) (t : Bool) (out : List Byte)
    (hlen : bs.length ≤ LINE_LENGTH_LIMIT) (hnl : ∀ b ∈ bs, b ≠ 10)
    (hnul : ∀ b ∈ bs, b ≠ 0) :
    print_line
        (some { cap := LINE_LENGTH_LIMIT + 1,
                cells := bs.map some ++ [some (if t then 10 else 0)] }) out
      = some (out ++ bs ++ if t then [10] else []) := by
  have h := print_line_record { content := bs, terminated := t } out (by
    intro b hb
    have hb2 := List.mem_of_mem_take hb
    exact ⟨hnul b hb2, hnl b hb2⟩)
  unfold record_of at h
  simp only [List.take_of_length_le hlen] at h
  exact h

/-- C9, witness: the record of the line `"ab\n"`. -/
theorem print_line_verbatim_witness :
    ([97, 98].length ≤ LINE_LENGTH_LIMIT ∧ (∀ b ∈ ([97, 98] : List Byte), b ≠ 10) ∧
      (∀ b ∈ ([97, 98] : List Byte), b ≠ 0)) ∧
    print_line
        (some { cap := LINE_LENGTH_LIMIT + 1,
                cells := ([97, 98] : List Byte).map some
                  ++ [some (if true then 10 else 0)] }) []
      = some ([] ++ [97, 98] ++ if true then [10] else []) :=
  ⟨⟨by unfold LINE_LENGTH_LIMIT; decide, by simp, by simp⟩,
    print_line_verbatim [97, 98] true [] (by unfold LINE_LENGTH_LIMIT; decide) (by simp)
      (by simp)⟩

/-- C9, counterexample: from the input `"a\0b\n"` the scanner loop, every `malloc`
returning a block, produces the record holding `'a'`, NUL, `'b'` and `'\n'`, and
`print_line` writes only `"a"` for it, not the three accumulated bytes followed by the
newline. -/
theorem print_line_stops_at_nul :
    (∃ st, scan_loop malloc_ok [97, 0, 98, 10] (scan_init sample_empty)
        = some (.finished st) ∧
      st.emitted = [{ cap := LINE_LENGTH_LIMIT + 1,
                      cells := [some 97, some 0, some 98, some 10] }]) ∧
    print_line
        (some { cap := LINE_LENGTH_LIMIT + 1,
                cells := [some 97, some 0, some 98, some 10] }) []
      = some [97] ∧
    print_line
        (some { cap := LINE_LENGTH_LIMIT + 1,
                cells := [some 97, some 0, some 98, some 10] }) []
      ≠ some [97, 0, 98, 10] := by
  refine ⟨⟨_, rfl, rfl⟩, by decide, by decide⟩

/-- C10: the drain loop on a well-formed buffer holding `k` records makes exactly `k`
successful `cb_get` calls and stops, for every fuel above `k`; afterwards the buffer
holds no record (`start == end`), and a second drain returns no record and leaves the
buffer unchanged. -/
theorem drain_idempotent (cb : circ_bfr α) (fuel : Nat) (h : cb_wf cb)
    (hf : cb_count cb < fuel) :
    ∃ cb1 got, cb_drain fuel cb = some (cb1, got) ∧
      got.length = cb_count cb ∧ got.map some = cb_contents cb ∧
      cb1.start = cb1.end_ ∧ cb_count cb1 = 0 ∧ cb_contents cb1 = [] ∧
      cb_drain fuel cb1 = some (cb1, []) := by
  obtain ⟨hwf1, hc1, hn1⟩ := cb_drained_wf cb h
  have hd := cb_drain_spec fuel cb h hf
  have hd1 := cb_drain_spec fuel _ hwf1 (by rw [hc1]; omega)
  have hh1 : cb_held { cb with start := cb.end_ } = [] := by
    unfold cb_held; rw [hn1]; rfl
  rw [hh1] at hd1
  exact ⟨_, _, hd, cb_held_length cb h, cb_held_map cb h, rfl, hc1, hn1, hd1⟩

/-- C10, witness: a full buffer of capacity 2 and fuel 3. -/
theorem drain_idempotent_witness :
    (cb_wf sample_full ∧ cb_count sample_full < 3) ∧
    ∃ cb1 got, cb_drain 3 sample_full = some (cb1, got) ∧
      got.length = cb_count sample_full ∧ got.map some = cb_contents sample_full ∧
      cb1.start = cb1.end_ ∧ cb_count cb1 = 0 ∧ cb_contents cb1 = [] ∧
      cb_drain 3 cb1 = some (cb1, []) :=
  ⟨by decide, drain_idempotent sample_full 3 (by decide) (by decide)⟩

/-- C11: when the argument loop reaches `-n` as a switch and the number after it is `0`,
`main` returns `EXIT_SUCCESS` at once: nothing is written, `fopen` and `cb_create` are
not called.  And for every argument list `main` returns, and every value it passes to
`cb_create` is between `1` and `BUFFER_SIZE_LIMIT`, being the default `10` or a
converted argument, so that the assertion of `cb_create` holds, whatever `malloc`
returns. -/
theorem zero_lines_short_circuit (env : Env) (pre post : List String) (s : String)
    (st : ArgState) (v : Nat) (hpre : arg_loop env pre arg_init = .done st)
    (hsw : st.process_switches = true) (hs : env.sscanf_u s = some v)
    (hv : v % UINT_RANGE = 0) :
    main env (pre ++ "-n" :: s :: post)
      = some { stdout := [], stderr := [], status := EXIT_SUCCESS, fopen_calls := [],
               cb_create_calls := [] } ∧
    (∀ argv, ∃ o, main env argv = some o ∧
      ∀ n ∈ o.cb_create_calls, 1 ≤ n ∧ n ≤ BUFFER_SIZE_LIMIT ∧
        (n = DEFAULT_LINES_BUFFER_SIZE ∨
          ∃ a ∈ argv, ∃ w, env.sscanf_u a = some w ∧ n = w % UINT_RANGE) ∧
        ∃ r : Ptr (circ_bfr LineBuf), cb_create (env.malloc 0) n = some r) := by
  constructor
  · unfold main
    rw [arg_loop_append env pre _ arg_init st hpre, arg_loop_cons]
    have h1 : ¬ ("-n" = "--help" ∧ st.process_switches = true) := by
      intro h; exact absurd h.1 (by decide)
    have h2 : ¬ ("-n" = "-i" ∧ st.process_switches = true) := by
      intro h; exact absurd h.1 (by decide)
    rw [if_neg h1, if_neg h2, if_pos ⟨rfl, hsw⟩]
    simp only [hs, hv]
    rfl
  · intro argv
    unfold main
    cases hres : arg_loop env argv arg_init with
    | returned out err status =>
      exact ⟨_, rfl, fun n hn => absurd hn (List.not_mem_nil n)⟩
    | done st1 =>
      obtain ⟨hlo, hhi, hsrc⟩ := arg_loop_done env argv arg_init st1 hres
        (by decide) (by decide)
      have hcreate : ∃ r : Ptr (circ_bfr LineBuf),
          cb_create (env.malloc 0) st1.buffer_size = some r :=
        cb_create_total _ _ (by omega)
      have hbody : ∀ input, ∃ o, main_body env.malloc st1.buffer_size input = some o :=
        fun input => main_body_total env.malloc st1.buffer_size input hlo
          (by unfold UINT_RANGE; unfold BUFFER_SIZE_LIMIT at hhi; omega)
      have hmem : ∀ n ∈ [st1.buffer_size], 1 ≤ n ∧ n ≤ BUFFER_SIZE_LIMIT ∧
          (n = DEFAULT_LINES_BUFFER_SIZE ∨
            ∃ a ∈ argv, ∃ w, env.sscanf_u a = some w ∧ n = w % UINT_RANGE) ∧
          ∃ r : Ptr (circ_bfr LineBuf), cb_create (env.malloc 0) n = some r := by
        intro n hn
        rw [List.mem_singleton] at hn
        subst hn
        exact ⟨hlo, hhi, hsrc, hcreate⟩
      simp only
      cases hfile : st1.file_to_be_openned with
      | none =>
        obtain ⟨o, hmain⟩ := hbody env.stdin
        simp only [hmain, Option.map_some']
        exact ⟨_, rfl, hmem⟩
      | some name =>
        cases hopen : env.fopen name with
        | none =>
          simp only [hopen]
          exact ⟨_, rfl, fun n hn => absurd hn (List.not_mem_nil n)⟩
        | some bytes =>
          obtain ⟨o, hmain⟩ := hbody bytes
          simp only [hopen, hmain, Option.map_some']
          exact ⟨_, rfl, hmem⟩

/-- C11, witness: the arguments `-n 5 -n 0 file`. -/
theorem zero_lines_short_circuit_witness :
    (arg_loop sample_env ["-n", "5"] arg_init
        = .done { buffer_size := 5, file_to_be_openned := none, process_switches := true } ∧
      true = true ∧ sample_env.sscanf_u "0" = some 0 ∧ 0 % UINT_RANGE = 0) ∧
    (main sample_env (["-n", "5"] ++ "-n" :: "0" :: ["file"])
      = some { stdout := [], stderr := [], status := EXIT_SUCCESS, fopen_calls := [],
               cb_create_calls := [] } ∧
    (∀ argv, ∃ o, main sample_env argv = some o ∧
      ∀ n ∈ o.cb_create_calls, 1 ≤ n ∧ n ≤ BUFFER_SIZE_LIMIT ∧
        (n = DEFAULT_LINES_BUFFER_SIZE ∨
          ∃ a ∈ argv, ∃ w, sample_env.sscanf_u a = some w ∧ n = w % UINT_RANGE) ∧
        ∃ r : Ptr (circ_bfr LineBuf), cb_create (sample_env.malloc 0) n = some r)) :=
  ⟨⟨by rfl, rfl, by rfl, by decide⟩,
    zero_lines_short_circuit sample_env ["-n", "5"] ["file"] "0"
      { buffer_size := 5, file_to_be_openned := none, process_switches := true } 0
      (by rfl) rfl (by rfl) (by decide)⟩

/-- C12: ownership conservation.  For every `unsigned` capacity `n` and every sequence of
`cb_put` and `cb_get` calls whose inserted lines are pairwise distinct, in the state
reached from the buffer that `cb_create(n)` returns the lines inserted so far are, in
order, the lines removed so far (freed by an eviction or returned by `cb_get`, in removal
order) followed by the lines still held.  So no line is removed twice, no removed line
is still held, and no line is both freed by an eviction and returned.  When `n >= 1` and
`n + 1` is representable, every such sequence of calls reaches a state. -/
theorem ownership_conservation (n : Nat) (ops : List (BufOp α)) (hn : n < UINT_RANGE)
    (hd : (ops_puts ops).Nodup) :
    (∀ block cb st, cb_create block n = some (some cb) →
      run_log ops (own_init cb) = some st →
      st.inserted = ops_puts ops ∧
      st.inserted = st.removed.map Removal.line ++ cb_held st.cb ∧
      (st.removed.map Removal.line).Nodup ∧
      (∀ x, x ∈ st.removed.map Removal.line → x ∉ cb_held st.cb) ∧
      (∀ x, Removal.evicted x ∈ st.removed → Removal.returned x ∉ st.removed)) ∧
    (1 ≤ n → n + 1 < UINT_RANGE →
      ∃ cb st, cb_create true n = some (some cb) ∧
        run_log ops (own_init cb) = some st) := by
  have hfinish : ∀ st : OwnState α, st.inserted = ops_puts ops →
      st.inserted = st.removed.map Removal.line ++ cb_held st.cb →
      st.inserted = ops_puts ops ∧
      st.inserted = st.removed.map Removal.line ++ cb_held st.cb ∧
      (st.removed.map Removal.line).Nodup ∧
      (∀ x, x ∈ st.removed.map Removal.line → x ∉ cb_held st.cb) ∧
      (∀ x, Removal.evicted x ∈ st.removed → Removal.returned x ∉ st.removed) := by
    intro st hins hinv
    have hnd : (st.removed.map Removal.line ++ cb_held st.cb).Nodup := by
      rw [← hinv, hins]; exact hd
    have hnd1 := (List.nodup_append.mp hnd).1
    refine ⟨hins, hinv, hnd1, ?_, ?_⟩
    · intro x hx hheld
      exact (List.nodup_append.mp hnd).2.2 hx hheld
    · intro x he hr
      have := List.inj_on_of_nodup_map hnd1 he hr rfl
      cases this
  have htotal : 1 ≤ n → n + 1 < UINT_RANGE →
      ∃ cb st, cb_create true n = some (some cb) ∧
        run_log ops (own_init cb) = some st ∧
        st.inserted = ops_puts ops ∧
        st.inserted = st.removed.map Removal.line ++ cb_held st.cb := by
    intro h1 h2
    obtain ⟨cb, hcr, hwf, _, _, _, _, hc0⟩ := cb_create_spec (α := α) n h1 h2
    have hheld : cb_held cb = [] := by unfold cb_held; rw [hc0]; rfl
    obtain ⟨st, hrun, _, _, hins, hinv⟩ := run_log_spec ops (own_init cb) hwf
      (by show [] = [] ++ cb_held cb; rw [hheld]; rfl)
    exact ⟨cb, st, hcr, hrun, by rw [hins]; rfl, hinv⟩
  refine ⟨?_, fun h1 h2 => ?_⟩
  · intro block cb st hcr hrun
    obtain ⟨hblock, h0, hsz, hst, hen⟩ := cb_create_fields block n cb hcr
    subst hblock
    by_cases h2 : n + 1 < UINT_RANGE
    · obtain ⟨cb', st', hcr', hrun', hins, hinv⟩ := htotal (by omega) h2
      rw [hcr] at hcr'
      cases hcr'
      rw [hrun] at hrun'
      cases hrun'
      exact hfinish st hins hinv
    · have hmax : n + 1 = UINT_RANGE := by omega
      have htrue : cb_true_size cb = 0 := by
        unfold cb_true_size
        rw [hsz, hmax, Nat.mod_self]
      have hse : cb.start = cb.end_ := by rw [hst, hen]
      obtain ⟨hst2, hputs⟩ := run_log_no_slot ops (own_init cb) st htrue hse hrun
      subst hst2
      have hheld : cb_held cb = [] := cb_held_of_start_eq_end cb hse
      exact hfinish _ (by rw [hputs]; rfl)
        (by show [] = [] ++ cb_held cb; rw [hheld]; rfl)
  · obtain ⟨cb, st, hcr, hrun, _⟩ := htotal h1 h2
    exact ⟨cb, st, hcr, hrun⟩

/-- C12, witness: capacity 2 and the calls `cb_put(1)`, `cb_put(2)`, `cb_put(3)`,
`cb_get()`. -/
theorem ownership_conservation_witness :
    (2 < UINT_RANGE ∧ (ops_puts sample_ops).Nodup) ∧
    ((∀ block cb st, cb_create block 2 = some (some cb) →
      run_log sample_ops (own_init cb) = some st →
      st.inserted = ops_puts sample_ops ∧
      st.inserted = st.removed.map Removal.line ++ cb_held st.cb ∧
      (st.removed.map Removal.line).Nodup ∧
      (∀ x, x ∈ st.removed.map Removal.line → x ∉ cb_held st.cb) ∧
      (∀ x, Removal.evicted x ∈ st.removed → Removal.returned x ∉ st.removed)) ∧
    (1 ≤ 2 → 2 + 1 < UINT_RANGE →
      ∃ cb st, cb_create true 2 = some (some cb) ∧
        run_log sample_ops (own_init cb) = some st)) :=
  ⟨by decide, ownership_conservation 2 sample_ops (by decide) (by decide)⟩

/-- C13: `cb_free` on a well-formed buffer holding `k` records.  Its loop ends after
exactly `k` iterations: `k + 1` evaluations of the loop test, and any larger fuel, give
the result, `k` do not.  It passes to `free` exactly the `k` held records, each once
and oldest first, and then the buffer itself, which then holds nothing; on an empty
buffer the first loop test ends the loop and no line record is freed. -/
theorem cb_free_contract (cb : circ_bfr α) (h : cb_wf cb) :
    ∃ cb1 freed, cb_free cb = some (cb1, freed) ∧
      freed = cb_contents cb ∧ freed.length = cb_count cb ∧ cb_count cb ≤ cb.size ∧
      cb1 = { cb with start := cb.end_ } ∧ cb_contents cb1 = [] ∧
      (∀ fuel, cb_count cb < fuel → cb_free_loop fuel cb [] = some (cb1, freed)) ∧
      cb_free_loop (cb_count cb) cb [] = none ∧
      (cb_count cb = 0 → cb_free_loop 1 cb [] = some (cb, []) ∧ freed = []) := by
  have hle := cb_count_le cb h
  have hmap := cb_held_map cb h
  have hspec : ∀ fuel, cb_count cb < fuel →
      cb_free_loop fuel cb [] = some ({ cb with start := cb.end_ }, cb_contents cb) := by
    intro fuel hf
    rw [cb_free_loop_spec fuel cb [] h hf, List.nil_append, hmap]
  refine ⟨_, _, ?_, rfl, cb_contents_length cb, hle, rfl, (cb_drained_wf cb h).2.2,
    hspec, cb_free_loop_short _ cb [] h (Nat.le_refl _), ?_⟩
  · unfold cb_free
    exact hspec _ (by rw [cb_true_size_eq cb h]; omega)
  · intro h0
    have hnil : cb_contents cb = [] :=
      List.eq_nil_of_length_eq_zero (by rw [cb_contents_length, h0])
    have hse := (cb_empty_iff cb h).mpr h0
    refine ⟨?_, hnil⟩
    rw [hspec 1 (by omega), hnil]
    obtain ⟨sz, st, en, ls⟩ := cb
    simp only at hse
    subst hse
    rfl

/-- C13, witness: a full buffer of capacity 2. -/
theorem cb_free_contract_witness :
    cb_wf sample_full ∧
    ∃ cb1 freed, cb_free sample_full = some (cb1, freed) ∧
      freed = cb_contents sample_full ∧ freed.length = cb_count sample_full ∧
      cb_count sample_full ≤ sample_full.size ∧
      cb1 = { sample_full with start := sample_full.end_ } ∧ cb_contents cb1 = [] ∧
      (∀ fuel, cb_count sample_full < fuel →
        cb_free_loop fuel sample_full [] = some (cb1, freed)) ∧
      cb_free_loop (cb_count sample_full) sample_full [] = none ∧
      (cb_count sample_full = 0 →
        cb_free_loop 1 sample_full [] = some (sample_full, []) ∧ freed = []) :=
  ⟨by decide, cb_free_contract sample_full (by decide)⟩

/-- C14: in a buffer with `size >= 1` whose `start` and `end` are below the real size,
the empty test `start == end` holds exactly when the count is `0`, the full test
`(end + 1) % (size + 1) == start` of `cb_put` holds exactly when the count is `size`,
and the two tests never hold together; so `cb_put` on a well-formed buffer frees a
record and moves `start` exactly when `size` records are held. -/
theorem full_empty_disambiguation (cb : circ_bfr α) (h1 : 1 ≤ cb.size)
    (h2 : cb.size < UINT_RANGE) (h3 : cb.start < cb_true_size cb)
    (h4 : cb.end_ < cb_true_size cb) :
    (cb.start = cb.end_ ↔ cb_count cb = 0) ∧
    (umod ((cb.end_ + 1) % UINT_RANGE) (cb_true_size cb) = some cb.start
      ↔ cb_count cb = cb.size) ∧
    ¬ (cb.start = cb.end_ ∧
        umod ((cb.end_ + 1) % UINT_RANGE) (cb_true_size cb) = some cb.start) ∧
    (∀ line : α, cb_wf cb →
      ∃ cb1 fr, cb_put cb (some line) = some (cb1, fr) ∧
        (fr ≠ [] ↔ cb_count cb = cb.size) ∧
        (cb1.start ≠ cb.start ↔ cb_count cb = cb.size)) := by
  obtain ⟨hm, hlt, hempty, hfull⟩ := cb_tests_of_bounds cb h1 h2 h3 h4
  have hmach : umod ((cb.end_ + 1) % UINT_RANGE) (cb_true_size cb) = some cb.start
      ↔ cb_count cb = cb.size := by
    rw [hm] at h4 ⊢
    rw [umod_succ _ _ h4 hlt, ← hfull]
    exact ⟨fun h => Option.some.inj h, fun h => by rw [h]⟩
  refine ⟨hempty, hmach, ?_, ?_⟩
  · rintro ⟨he, hf⟩
    have := hempty.mp he
    have := hmach.mp hf
    omega
  · intro line hwf
    refine ⟨_, _, cb_put_eq cb hwf line, ?_, ?_⟩
    · by_cases hf : cb_count cb = cb.size
      · obtain ⟨x, _, hc⟩ := cb_head_read cb hwf (by omega)
        simp [hf, hc]
      · simp [hf]
    · by_cases hf : cb_count cb = cb.size
      · simp only [hf, if_true, iff_true]
        rw [hm] at h3
        rw [mod_lt_two _ _ (by omega)]
        split <;> omega
      · simp [hf]

/-- C14, witness: a full buffer of capacity 2. -/
theorem full_empty_disambiguation_witness :
    (1 ≤ sample_full.size ∧ sample_full.size < UINT_RANGE ∧
      sample_full.start < cb_true_size sample_full ∧
      sample_full.end_ < cb_true_size sample_full) ∧
    ((sample_full.start = sample_full.end_ ↔ cb_count sample_full = 0) ∧
    (umod ((sample_full.end_ + 1) % UINT_RANGE) (cb_true_size sample_full)
        = some sample_full.start
      ↔ cb_count sample_full = sample_full.size) ∧
    ¬ (sample_full.start = sample_full.end_ ∧
        umod ((sample_full.end_ + 1) % UINT_RANGE) (cb_true_size sample_full)
          = some sample_full.start) ∧
    (∀ line : Nat, cb_wf sample_full →
      ∃ cb1 fr, cb_put sample_full (some line) = some (cb1, fr) ∧
        (fr ≠ [] ↔ cb_count sample_full = sample_full.size) ∧
        (cb1.start ≠ sample_full.start ↔ cb_count sample_full = sample_full.size))) :=
  ⟨by decide, full_empty_disambiguation sample_full (by decide) (by decide) (by decide)
    (by decide)⟩

/-- C15: for every buffer whose capacity `n = size` satisfies
`1 <= n <= BUFFER_SIZE_LIMIT` and whose indices are at most `n`, the `unsigned`
computations `n + 1` (`cb_true_size`) and `i + 1` (in `cb_inc_start`, `cb_inc_end` and
the full test) do not wrap: the real size is `n + 1`, never `0`, no `%` divides by zero,
and the machine results are `(i + 1) mod (n + 1)`. -/
theorem no_wrap_in_index_arithmetic (cb : circ_bfr α) (h1 : 1 ≤ cb.size)
    (h2 : cb.size ≤ BUFFER_SIZE_LIMIT) (hs : cb.start ≤ cb.size) (he : cb.end_ ≤ cb.size) :
    cb.size + 1 < UINT_RANGE ∧
    cb_true_size cb = cb.size + 1 ∧ cb_true_size cb ≠ 0 ∧
    (cb.start + 1) % UINT_RANGE = cb.start + 1 ∧
    (cb.end_ + 1) % UINT_RANGE = cb.end_ + 1 ∧
    umod ((cb.end_ + 1) % UINT_RANGE) (cb_true_size cb)
      = some ((cb.end_ + 1) % (cb.size + 1)) ∧
    cb_inc_start cb = some { cb with start := (cb.start + 1) % (cb.size + 1) } ∧
    cb_inc_end cb = some { cb with end_ := (cb.end_ + 1) % (cb.size + 1) } := by
  have hlt : cb.size + 1 < UINT_RANGE := by
    unfold UINT_RANGE; unfold BUFFER_SIZE_LIMIT at h2; omega
  have hm : cb_true_size cb = cb.size + 1 := Nat.mod_eq_of_lt hlt
  have hu : ∀ i, i ≤ cb.size →
      umod ((i + 1) % UINT_RANGE) (cb_true_size cb) = some ((i + 1) % (cb.size + 1)) := by
    intro i hi
    rw [hm]
    exact umod_succ i (cb.size + 1) (by omega) hlt
  refine ⟨hlt, hm, by rw [hm]; omega, Nat.mod_eq_of_lt (by omega),
    Nat.mod_eq_of_lt (by omega), hu _ he, ?_, ?_⟩
  · unfold cb_inc_start
    rw [hu _ hs]; rfl
  · unfold cb_inc_end
    rw [hu _ he]; rfl

/-- C15, witness: a full buffer of capacity 2. -/
theorem no_wrap_in_index_arithmetic_witness :
    (1 ≤ sample_full.size ∧ sample_full.size ≤ BUFFER_SIZE_LIMIT ∧
      sample_full.start ≤ sample_full.size ∧ sample_full.end_ ≤ sample_full.size) ∧
    (sample_full.size + 1 < UINT_RANGE ∧
    cb_true_size sample_full = sample_full.size + 1 ∧ cb_true_size sample_full ≠ 0 ∧
    (sample_full.start + 1) % UINT_RANGE = sample_full.start + 1 ∧
    (sample_full.end_ + 1) % UINT_RANGE = sample_full.end_ + 1 ∧
    umod ((sample_full.end_ + 1) % UINT_RANGE) (cb_true_size sample_full)
      = some ((sample_full.end_ + 1) % (sample_full.size + 1)) ∧
    cb_inc_start sample_full
      = some { sample_full with
               start := (sample_full.start + 1) % (sample_full.size + 1) } ∧
    cb_inc_end sample_full
      = some { sample_full with
               end_ := (sample_full.end_ + 1) % (sample_full.size + 1) }) :=
  ⟨by decide, no_wrap_in_index_arithmetic sample_full (by decide) (by decide) (by decide)
    (by decide)⟩

/-- C16: line-buffer index bound, for every behaviour of `malloc`.  After any bytes `pre`
were read, either the scanner loop was left because a `malloc` returned no block, or it
is in a state with `idx <= LINE_LENGTH_LIMIT` in which the line block has
`LINE_LENGTH_LIMIT + 1` chars and exactly the cells below `idx` are written, so the next
write `line[idx]` is inside the block.  For every input the loop is left without a write
outside a block, by the `break` when every `malloc` returned a block, and for every
record passed to `cb_put` the terminator `'\0'` or `'\n'` is at an index
`k <= LINE_LENGTH_LIMIT`, the cells `0 .. k` are written, no cell after `k` is, and
`print_line` ends without reading a cell that was not written. -/
theorem line_index_bound (malloc : Nat → Bool) (input : List Byte) (cb : circ_bfr LineBuf)
    (hwf : cb_wf cb) :
    (∀ pre : List Byte,
      (∃ st,
        (∀ tail, scan_loop malloc (pre ++ tail) (scan_init cb)
          = scan_loop malloc tail st) ∧
        st.idx ≤ LINE_LENGTH_LIMIT ∧ st.line.cap = LINE_LENGTH_LIMIT + 1 ∧
        st.idx < st.line.cap ∧ st.line.cells.length = st.idx) ∨
      (∃ st k, 2 ≤ k ∧ k < 2 + pre.count 10 ∧ malloc k = false ∧
        ∀ tail, scan_loop malloc (pre ++ tail) (scan_init cb)
          = some (.memory_error st))) ∧
    (∃ r, scan_loop malloc input (scan_init cb) = some r ∧
      ((∀ k, 2 ≤ k → k < 2 + input.count 10 → malloc k = true) →
        ∃ st, r = .finished st) ∧
      ∀ rec ∈ r.state.emitted, rec.cap = LINE_LENGTH_LIMIT + 1 ∧
        (∃ k t, k ≤ LINE_LENGTH_LIMIT ∧ rec.cells.length = k + 1 ∧
          rec.load k = some t ∧ (t = 0 ∨ t = 10) ∧
          (∀ j, j ≤ k → ∃ b, rec.load j = some b) ∧
          (∀ j, k < j → rec.load j = none)) ∧
        ∀ out, ∃ out1, print_line (some rec) out = some out1) := by
  constructor
  · intro pre
    rcases scan_loop_prefix malloc pre (scan_init cb) [] (scan_rel_init cb hwf) with
      ⟨st, acc, hrel, _, hpre⟩ | ⟨st, k, hk1, hk2, hk3, hpre⟩
    · obtain ⟨hidx, _, hline, _⟩ := hrel
      have hle : st.idx ≤ LINE_LENGTH_LIMIT := by rw [hidx]; omega
      refine Or.inl ⟨st, hpre, hle, by rw [hline],
        by rw [hline]; show st.idx < LINE_LENGTH_LIMIT + 1; omega, ?_⟩
      rw [hline, hidx]
      simp [Nat.min_comm]
    · exact Or.inr ⟨st, k, hk1, hk2, hk3, hpre⟩
  · obtain ⟨r, hscan, ⟨ls, hem⟩, _, herr⟩ :=
      scan_loop_total malloc input (scan_init cb) [] (scan_rel_init cb hwf)
    refine ⟨r, hscan, ?_, ?_⟩
    · intro hm
      cases r with
      | finished st => exact ⟨st, rfl⟩
      | memory_error st =>
        obtain ⟨_, k, hk1, hk2, hk3⟩ := herr st rfl
        have hkt := hm k hk1 hk2
        rw [hk3] at hkt
        exact Bool.noConfusion hkt
    · intro rec hr
      have hem1 : r.state.emitted = ls.map record_of := by rw [hem]; rfl
      rw [hem1, List.mem_map] at hr
      obtain ⟨l, _, hl⟩ := hr
      subst hl
      obtain ⟨hcap, hcells⟩ := record_of_cells l
      exact ⟨hcap, hcells, fun out => ⟨_, print_line_record_total l out⟩⟩

/-- C16, witness: the input `"a\nb\nc\nd\n"`, an empty buffer of capacity 1 and every
`malloc` returning a block. -/
theorem line_index_bound_witness :
    cb_wf sample_empty ∧
    ((∀ pre : List Byte,
      (∃ st,
        (∀ tail, scan_loop malloc_ok (pre ++ tail) (scan_init sample_empty)
          = scan_loop malloc_ok tail st) ∧
        st.idx ≤ LINE_LENGTH_LIMIT ∧ st.line.cap = LINE_LENGTH_LIMIT + 1 ∧
        st.idx < st.line.cap ∧ st.line.cells.length = st.idx) ∨
      (∃ st k, 2 ≤ k ∧ k < 2 + pre.count 10 ∧ malloc_ok k = false ∧
        ∀ tail, scan_loop malloc_ok (pre ++ tail) (scan_init sample_empty)
          = some (.memory_error st))) ∧
    (∃ r, scan_loop malloc_ok sample_input (scan_init sample_empty) = some r ∧
      ((∀ k, 2 ≤ k → k < 2 + sample_input.count 10 → malloc_ok k = true) →
        ∃ st, r = .finished st) ∧
      ∀ rec ∈ r.state.emitted, rec.cap = LINE_LENGTH_LIMIT + 1 ∧
        (∃ k t, k ≤ LINE_LENGTH_LIMIT ∧ rec.cells.length = k + 1 ∧
          rec.load k = some t ∧ (t = 0 ∨ t = 10) ∧
          (∀ j, j ≤ k → ∃ b, rec.load j = some b) ∧
          (∀ j, k < j → rec.load j = none)) ∧
        ∀ out, ∃ out1, print_line (some rec) out = some out1)) :=
  ⟨by decide, line_index_bound malloc_ok sample_input sample_empty (by decide)⟩

/-- C17: frame conditions on a well-formed buffer.  `cb_put` keeps `size` and the number
of slots, changes the slot array at the old `end` index only, advances `end` by one
modulo `size + 1`, moves `start` (by one modulo `size + 1`) only when the buffer was
full, and the slot it writes is none of the slots of the records retained after the
call.  `cb_get` keeps `size`, every slot and `end`; it advances `start` by one modulo
`size + 1` when it returns a record and changes nothing when it returns `NULL`. -/
theorem frame_conditions (cb : circ_bfr α) (line : α) (h : cb_wf cb) :
    (∃ cb1 fr, cb_put cb (some line) = some (cb1, fr) ∧
      cb1.size = cb.size ∧ cb1.lines.length = cb.lines.length ∧
      (∀ i, i ≠ cb.end_ → cb1.lines[i]? = cb.lines[i]?) ∧
      cb1.lines[cb.end_]? = some (some (some line)) ∧
      cb1.end_ = (cb.end_ + 1) % (cb.size + 1) ∧
      (cb_count cb = cb.size → cb1.start = (cb.start + 1) % (cb.size + 1)) ∧
      (cb_count cb < cb.size → cb1.start = cb.start) ∧
      (∀ j, j + 1 < cb_count cb1 → (cb1.start + j) % (cb.size + 1) ≠ cb.end_)) ∧
    (∃ r cb1, cb_get cb = some (r, cb1) ∧
      cb1.size = cb.size ∧ cb1.lines = cb.lines ∧ cb1.end_ = cb.end_ ∧
      (r ≠ none → cb1.start = (cb.start + 1) % (cb.size + 1)) ∧
      (r = none → cb1 = cb)) := by
  obtain ⟨h1, h2, h3, h4, h5⟩ := cb_wf_bounds cb h
  constructor
  · obtain ⟨cb1, hput, hwf1, hsz1, _⟩ := cb_put_spec cb h line
    have heq := cb_put_eq cb h line
    rw [hput] at heq
    have hcb1 := (Prod.mk.inj (Option.some.inj heq)).1
    have hst : cb1.start
        = if cb_count cb = cb.size then (cb.start + 1) % (cb.size + 1) else cb.start := by
      rw [hcb1]
    have hen : cb1.end_ = (cb.end_ + 1) % (cb.size + 1) := by rw [hcb1]
    have hln : cb1.lines = cb.lines.set cb.end_ (some (some line)) := by rw [hcb1]
    obtain ⟨_, _, h3', h4', _⟩ := cb_wf_bounds cb1 hwf1
    have hoff := cb_offset_of_count cb1 h3' h4'
    have hle := cb_count_le cb1 hwf1
    rw [hsz1] at h3' h4' hoff hle
    refine ⟨cb1, _, hput, hsz1, by rw [hln, List.length_set], ?_, ?_, hen, ?_, ?_, ?_⟩
    · intro i hi
      rw [hln, List.getElem?_set_ne (fun hh => hi hh.symm)]
    · rw [hln, List.getElem?_set_self (by omega)]
    · intro hf; rw [hst, if_pos hf]
    · intro hf; rw [hst, if_neg (by omega)]
    · intro j hj hcontra
      have hne := ring_index_ne (cb.size + 1) cb1.start (j + 1) (cb_count cb1) h3'
        (by omega) hj
      apply hne
      rw [hoff, hen, ← hcontra, Nat.add_mod ((cb1.start + j) % (cb.size + 1)),
        Nat.mod_mod, ← Nat.add_mod]
      rfl
  · by_cases he : cb_count cb = 0
    · exact ⟨none, cb, cb_get_empty cb h he, rfl, rfl, rfl, fun hh => absurd rfl hh,
        fun _ => rfl⟩
    · obtain ⟨x, cb1, hget, _, hcb1, _⟩ := cb_get_nonempty cb h he
      refine ⟨some x, cb1, hget, ?_, ?_, ?_, ?_, ?_⟩
      · rw [hcb1]
      · rw [hcb1]
      · rw [hcb1]
      · intro _; rw [hcb1]
      · intro hh; exact absurd hh (by simp)

/-- C17, witness: a full buffer of capacity 2. -/
theorem frame_conditions_witness :
    cb_wf sample_full ∧
    ((∃ cb1 fr, cb_put sample_full (some 9) = some (cb1, fr) ∧
      cb1.size = sample_full.size ∧ cb1.lines.length = sample_full.lines.length ∧
      (∀ i, i ≠ sample_full.end_ → cb1.lines[i]? = sample_full.lines[i]?) ∧
      cb1.lines[sample_full.end_]? = some (some (some 9)) ∧
      cb1.end_ = (sample_full.end_ + 1) % (sample_full.size + 1) ∧
      (cb_count sample_full = sample_full.size →
        cb1.start = (sample_full.start + 1) % (sample_full.size + 1)) ∧
      (cb_count sample_full < sample_full.size → cb1.start = sample_full.start) ∧
      (∀ j, j + 1 < cb_count cb1 →
        (cb1.start + j) % (sample_full.size + 1) ≠ sample_full.end_)) ∧
    (∃ r cb1, cb_get sample_full = some (r, cb1) ∧
      cb1.size = sample_full.size ∧ cb1.lines = sample_full.lines ∧
      cb1.end_ = sample_full.end_ ∧
      (r ≠ none → cb1.start = (sample_full.start + 1) % (sample_full.size + 1)) ∧
      (r = none → cb1 = sample_full))) :=
  ⟨by decide, frame_conditions sample_full 9 (by decide)⟩

end CTail
